import Mathlib

/-!
# Event loop core (`event/hloop.c`)

A shallow embedding of the loop driver, the timer / idle / IO handle
operations and the pending queue of `hloop.c`, followed by the properties
established about them.

Conventions of the embedding.

* Handles live in a store `Loop.mem`, addressed by natural numbers; the
  allocator hands out `Loop.brk` and advances it, `free` clears the cell.
* Unsigned machine integers are natural numbers reduced modulo `2 ^ w`
  wherever the C arithmetic can wrap; signed ones are integers obtained by
  `toInt32` / `toInt64`.
* Everything the loop calls but does not define (user callbacks, the clock,
  the readiness poller, socket probes) is an input: callbacks are state
  transformers supplied by `Env`, clock readings and poll results are
  arguments.
* Calls that leave the process (callbacks, `hio_close`, watcher
  subscriptions, sleeping, freeing) are recorded in the ghost field
  `Loop.trace`.
-/

namespace Hloop

/-! ## Constants -/

/-- `#define PAUSE_TIME 10` (ms). -/
def PAUSE_TIME : Nat := 10

/-- `#define MAX_BLOCK_TIME 1000` (ms). -/
def MAX_BLOCK_TIME : Int := 1000

/-- `#define IO_ARRAY_INIT_SIZE 64`. -/
def IO_ARRAY_INIT_SIZE : Nat := 64

/-- Modelled from the spec: the `INFINITE` repeat sentinel of `hdef.h`, which is
not among the sources; the all-ones value of the 32-bit `repeat` field. -/
def INFINITE : Nat := 2 ^ 32 - 1

/-- Modelled from the spec: `HEVENT_PRIORITY_SIZE = 5` (section 6.3). -/
def HEVENT_PRIORITY_SIZE : Nat := 5

/-- Modelled from the spec: the READ bit of an event mask (`hloop.h` is not
among the sources). -/
def READ_EVENT : Nat := 1

/-- Modelled from the spec: the WRITE bit of an event mask. -/
def WRITE_EVENT : Nat := 4

/-- Modelled from the spec: `ALL_EVENTS`, the READ and WRITE bits together. -/
def ALL_EVENTS : Nat := READ_EVENT ||| WRITE_EVENT

/-! ## Machine integers -/

/-- Value of a 64-bit pattern read as `int64_t`. -/
def toInt64 (x : Nat) : Int :=
  if x % 2 ^ 64 < 2 ^ 63 then ((x % 2 ^ 64 : Nat) : Int) else ((x % 2 ^ 64 : Nat) : Int) - 2 ^ 64

/-- Conversion of an integer to `int32_t` (two's complement wrap). -/
def toInt32 (x : Int) : Int :=
  if x % 2 ^ 32 < 2 ^ 31 then x % 2 ^ 32 else x % 2 ^ 32 - 2 ^ 32

/-- Unsigned 64-bit addition. -/
def add64 (a b : Nat) : Nat := (a + b) % 2 ^ 64

/-- Unsigned 64-bit subtraction. -/
def sub64 (a b : Nat) : Nat := (a % 2 ^ 64 + 2 ^ 64 - b % 2 ^ 64) % 2 ^ 64

/-- Unsigned 64-bit multiplication. -/
def mul64 (a b : Nat) : Nat := (a * b) % 2 ^ 64

/-- Increment of a 32-bit unsigned counter. -/
def inc32 (a : Nat) : Nat := (a + 1) % 2 ^ 32

/-- Decrement of a 32-bit unsigned counter (`0` wraps to `2 ^ 32 - 1`). -/
def dec32 (a : Nat) : Nat := (a + (2 ^ 32 - 1)) % 2 ^ 32

/-- The C expression `a & ~b` on 32-bit masks. -/
def andNot32 (a b : Nat) : Nat := a &&& ((2 ^ 32 - 1) ^^^ (b % 2 ^ 32))

/-! ## Data model -/

/-- Kind of a handle (`event_type`); `HEVENT_TYPE_NONE` is zeroed memory. -/
inductive hevent_type_e
  | HEVENT_TYPE_NONE
  | HEVENT_TYPE_IO_
  | HEVENT_TYPE_TIMEOUT
  | HEVENT_TYPE_PERIOD
  | HEVENT_TYPE_IDLE
  deriving DecidableEq, Repr

/-- Modelled from the spec: the five priorities of `hevent.h` (not among the
sources). -/
inductive Priority
  | HEVENT_LOWEST_PRIORITY
  | HEVENT_LOW_PRIORITY
  | HEVENT_NORMAL_PRIORITY
  | HEVENT_HIGH_PRIORITY
  | HEVENT_HIGHEST_PRIORITY
  deriving DecidableEq, Repr

/-- Modelled from the spec: `HEVENT_PRIORITY_INDEX`, the lane of a priority;
lanes are dispatched from index `4` (HIGHEST) down to `0` (LOWEST). -/
def HEVENT_PRIORITY_INDEX : Priority → Nat
  | .HEVENT_LOWEST_PRIORITY => 0
  | .HEVENT_LOW_PRIORITY => 1
  | .HEVENT_NORMAL_PRIORITY => 2
  | .HEVENT_HIGH_PRIORITY => 3
  | .HEVENT_HIGHEST_PRIORITY => 4

/-- The `io_type` of an IO handle. -/
inductive hio_type_e
  | HIO_TYPE_UNKNOWN
  | HIO_TYPE_STDIN
  | HIO_TYPE_STDOUT
  | HIO_TYPE_STDERR
  | HIO_TYPE_FILE
  | HIO_TYPE_IP
  | HIO_TYPE_UDP
  | HIO_TYPE_TCP
  | HIO_TYPE_SOCKET
  deriving DecidableEq, Repr

/-- The test `io_type & HIO_TYPE_SOCKET`: the handle is one of the socket
kinds. -/
def hio_type_e.isSocket : hio_type_e → Bool
  | .HIO_TYPE_IP => true
  | .HIO_TYPE_UDP => true
  | .HIO_TYPE_TCP => true
  | .HIO_TYPE_SOCKET => true
  | _ => false

/-- Loop status. -/
inductive hloop_status_e
  | HLOOP_STATUS_STOP
  | HLOOP_STATUS_RUNNING
  | HLOOP_STATUS_PAUSE
  deriving DecidableEq, Repr

/-- One handle: the common event header followed by the fields of the timer,
idle and IO variants (the C structs share the header and are told apart by
`event_type`). Callbacks are identified by a number; `none` is the null
pointer. -/
structure Hevent where
  /-- back pointer `loop` is set -/
  loop : Bool := false
  event_type : hevent_type_e := .HEVENT_TYPE_NONE
  priority : Priority := .HEVENT_NORMAL_PRIORITY
  cb : Option Nat := none
  pending_next : Option Nat := none
  destroy : Bool := false
  active : Bool := false
  pending : Bool := false
  /-- timers and idles: remaining firings (32-bit) -/
  «repeat» : Nat := 0
  /-- timers: next deadline, monotonic microseconds (64-bit) -/
  next_timeout : Nat := 0
  /-- timeout timers: interval in milliseconds (64-bit) -/
  timeout : Nat := 0
  minute : Int := 0
  hour : Int := 0
  day : Int := 0
  week : Int := 0
  month : Int := 0
  fd : Nat := 0
  io_type : hio_type_e := .HIO_TYPE_UNKNOWN
  error : Int := 0
  events : Nat := 0
  revents : Nat := 0
  closed : Bool := false
  accept : Bool := false
  connect : Bool := false
  connectex : Bool := false
  recv : Bool := false
  send : Bool := false
  recvfrom : Bool := false
  sendto : Bool := false
  read_cb : Option Nat := none
  write_cb : Option Nat := none
  close_cb : Option Nat := none
  accept_cb : Option Nat := none
  connect_cb : Option Nat := none
  event_index0 : Int := 0
  event_index1 : Int := 0
  hovlp : Option Nat := none
  /-- queued write buffers -/
  write_queue : List Nat := []
  /-- `localaddr` storage is allocated -/
  localaddr : Bool := false
  /-- `peeraddr` storage is allocated -/
  peeraddr : Bool := false
  peeraddrlen : Nat := 0
  deriving DecidableEq, Repr

/-- What the loop does to the outside world, in order. -/
inductive Obs
  /-- event callback `c` invoked on handle `a` by the dispatcher -/
  | cb (a c : Nat)
  /-- `close_cb` number `c` invoked on handle `a` by `hclose` -/
  | close_cb (a c : Nat)
  /-- `hio_close` called on handle `a` -/
  | hio_close (a : Nat)
  /-- `iowatcher_add_event(loop, fd, events)` -/
  | watcher_add (fd events : Nat)
  /-- `iowatcher_del_event(loop, fd, events)` -/
  | watcher_del (fd events : Nat)
  /-- `iowatcher_poll_events(loop, timeout)` -/
  | poll (ms : Int)
  /-- `msleep(ms)` -/
  | msleep (ms : Int)
  /-- the handle at address `a` was freed -/
  | free (a : Nat)
  deriving DecidableEq, Repr

/-- The loop (`hloop_t`) together with the store its handles live in. -/
structure Loop where
  status : hloop_status_e := .HLOOP_STATUS_STOP
  start_hrtime : Nat := 0
  end_hrtime : Nat := 0
  cur_hrtime : Nat := 0
  loop_cnt : Nat := 0
  nactives : Nat := 0
  npendings : Nat := 0
  /-- heads of the priority lanes -/
  pendings : Nat → Option Nat := fun _ => none
  /-- the idle list, first node first -/
  idles : List Nat := []
  nidles : Nat := 0
  /-- the timer heap in level order: the root is at index `0`, the children of
  index `i` are at `2 * i + 1` and `2 * i + 2` -/
  timers : List Nat := []
  ntimers : Nat := 0
  /-- `ios.ptr` -/
  ios_ptr : Nat → Option Nat := fun _ => none
  /-- `ios.maxsize` -/
  ios_maxsize : Nat := 0
  nios : Nat := 0
  /-- the handle store -/
  mem : Nat → Option Hevent := fun _ => none
  /-- next address the allocator hands out -/
  brk : Nat := 0
  /-- ghost: what the loop did to the outside world so far -/
  trace : List Obs := []

/-- Result of the `getsockopt(fd, SOL_SOCKET, SO_TYPE)` probe of
`fill_io_type`. -/
inductive SoType
  | SOCK_STREAM
  | SOCK_DGRAM
  | SOCK_RAW
  | other
  | ENOTSOCK
  | failed
  deriving DecidableEq, Repr

/-- The world outside the loop. -/
structure Env where
  /-- code of callback `c` run on handle `a` -/
  cb : Nat → Nat → Loop → Loop
  /-- answer of the socket-type probe for a descriptor -/
  so_type : Nat → SoType
  /-- `calc_next_timeout(minute, hour, day, week, month) * 1e6`, as a 64-bit
  value -/
  calc_next_timeout : Int → Int → Int → Int → Int → Nat

/-! ## Store and clock -/

/-- Update of the handle at address `a`; a dangling address (undefined
behaviour in C) leaves the store as it is. -/
def Loop.upd (l : Loop) (a : Nat) (f : Hevent → Hevent) : Loop :=
  { l with mem := Function.update l.mem a ((l.mem a).map f) }

/-- `SAFE_ALLOC_SIZEOF`: a fresh zeroed handle; returns the loop and the
address. -/
def Loop.alloc (l : Loop) : Loop × Nat :=
  ({ l with mem := Function.update l.mem l.brk (some {}), brk := l.brk + 1 }, l.brk)

/-- `SAFE_FREE` of the handle at address `a`. -/
def Loop.free (l : Loop) (a : Nat) : Loop :=
  { l with mem := Function.update l.mem a none, trace := l.trace ++ [Obs.free a] }

/-- Record an outside call in the ghost trace. -/
def Loop.emit (l : Loop) (o : Obs) : Loop :=
  { l with trace := l.trace ++ [o] }

/-- Modelled from the spec: `hloop_update_time` (`hloop.h` is not among the
sources) refreshes the cached monotonic time from the clock; `now` is the
clock reading. -/
def hloop_update_time (l : Loop) (now : Nat) : Loop :=
  { l with cur_hrtime := now % 2 ^ 64 }

/-- Modelled from the spec: `hloop_now_hrtime` returns the cached monotonic
time of the loop. -/
def hloop_now_hrtime (l : Loop) : Nat := l.cur_hrtime

/-! ## Event macros

`hevent.h` is not among the sources; the macros follow section 3 and 4 of
the specification. -/

/-- Modelled from the spec: `EVENT_ACTIVE`, marks the handle active and counts
it in `nactives`, once. -/
def EVENT_ACTIVE (l : Loop) (a : Nat) : Loop :=
  match l.mem a with
  | none => l
  | some ev =>
    if ev.active then l
    else { l.upd a (fun e => { e with active := true }) with nactives := inc32 l.nactives }

/-- Modelled from the spec: `EVENT_INACTIVE`, marks the handle inactive and
removes it from `nactives`, once. -/
def EVENT_INACTIVE (l : Loop) (a : Nat) : Loop :=
  match l.mem a with
  | none => l
  | some ev =>
    if ev.active then
      { l.upd a (fun e => { e with active := false }) with nactives := dec32 l.nactives }
    else l

/-- Modelled from the spec: `EVENT_PENDING`, a handle that is not yet pending is
marked pending, counted in `npendings` and pushed at the head of the lane of
its priority. -/
def EVENT_PENDING (l : Loop) (a : Nat) : Loop :=
  match l.mem a with
  | none => l
  | some ev =>
    if ev.pending then l
    else
      let i := HEVENT_PRIORITY_INDEX ev.priority
      { l.upd a (fun e => { e with pending := true, pending_next := l.pendings i }) with
        npendings := inc32 l.npendings
        pendings := Function.update l.pendings i (some a) }

/-- Modelled from the spec: `EVENT_ADD`, sets the back pointer and the callback
and activates the handle. -/
def EVENT_ADD (l : Loop) (a : Nat) (cb : Option Nat) : Loop :=
  EVENT_ACTIVE (l.upd a (fun e => { e with loop := true, cb := cb })) a

/-- Modelled from the spec: `EVENT_DEL`, sets `destroy` and deactivates the
handle; the handle is freed by the dispatcher after its next pending
dispatch. -/
def EVENT_DEL (l : Loop) (a : Nat) : Loop :=
  EVENT_INACTIVE (l.upd a (fun e => { e with destroy := true })) a

/-! ## Timer heap

`heap.h` is not among the sources. The heap is the binary min-heap of
section 4.2, kept in level order, ordered by the comparison function the
loop installs (`timers_compare`). -/

/-- The deadline stored in the timer at address `a` (`0` for a dangling
address). -/
def Loop.key (l : Loop) (a : Nat) : Nat :=
  match l.mem a with
  | some ev => ev.next_timeout
  | none => 0

/-- `timers_compare`: the left timer has the strictly earlier deadline. -/
def timers_compare (l : Loop) (lhs rhs : Nat) : Bool :=
  decide (l.key lhs < l.key rhs)

/-- Exchange of the nodes at positions `i` and `j`. -/
def heap_swap (h : List Nat) (i j : Nat) : List Nat :=
  match h[i]?, h[j]? with
  | some x, some y => (h.set i y).set j x
  | _, _ => h

/-- Modelled from the spec: sift-up, the node at position `i` rises while it
compares before its parent; `fuel` bounds the number of levels. -/
def sift_up (cmp : Nat → Nat → Bool) : Nat → List Nat → Nat → List Nat
  | 0, h, _ => h
  | fuel + 1, h, i =>
    if i = 0 then h
    else
      match h[i]?, h[(i - 1) / 2]? with
      | some x, some p =>
        if cmp x p then sift_up cmp fuel (heap_swap h ((i - 1) / 2) i) ((i - 1) / 2) else h
      | _, _ => h

/-- Position of the node that should be on top among `i` and its children. -/
def heap_est (cmp : Nat → Nat → Bool) (h : List Nat) (i : Nat) : Nat :=
  let est := i
  let est :=
    match h[2 * i + 1]?, h[est]? with
    | some c, some e => if cmp c e then 2 * i + 1 else est
    | _, _ => est
  match h[2 * i + 2]?, h[est]? with
  | some c, some e => if cmp c e then 2 * i + 2 else est
  | _, _ => est

/-- Modelled from the spec: sift-down, the node at position `i` sinks while a
child compares before it; returns the heap and the final position. -/
def sift_down (cmp : Nat → Nat → Bool) : Nat → List Nat → Nat → List Nat × Nat
  | 0, h, i => (h, i)
  | fuel + 1, h, i =>
    let est := heap_est cmp h i
    if est = i then (h, i) else sift_down cmp fuel (heap_swap h i est) est

/-- Modelled from the spec: `heap_insert`, the node is attached at the last
position and sifted up. -/
def heap_insert (cmp : Nat → Nat → Bool) (h : List Nat) (a : Nat) : List Nat :=
  sift_up cmp (h.length + 1) (h ++ [a]) h.length

/-- Modelled from the spec: `heap_remove`, the node is replaced by the last
node, which is sifted down and then up. A node that is not in the heap
leaves it unchanged. -/
def heap_remove (cmp : Nat → Nat → Bool) (h : List Nat) (a : Nat) : List Nat :=
  let i := h.indexOf a
  if i < h.length then
    match h.getLast? with
    | none => h
    | some last =>
      let h1 := (h.set i last).dropLast
      if i < h1.length then
        let r := sift_down cmp h1.length h1 i
        sift_up cmp (h1.length + 1) r.1 r.2
      else h1
  else h

/-- Modelled from the spec: `heap_dequeue`, removal of the root. -/
def heap_dequeue (cmp : Nat → Nat → Bool) (h : List Nat) : List Nat :=
  match h with
  | [] => []
  | r :: _ => heap_remove cmp h r

/-! ## Idles -/

/-- `hidle_add`. Modelled from the spec: `list_add` appends the node to the idle
list (`list.h` is not among the sources). -/
def hidle_add (l : Loop) (cb : Option Nat) («repeat» : Nat) : Loop × Nat :=
  let (l, idle) := l.alloc
  let l := l.upd idle (fun e => { e with
    event_type := .HEVENT_TYPE_IDLE
    priority := .HEVENT_LOWEST_PRIORITY
    «repeat» := «repeat» % 2 ^ 32 })
  let l := { l with idles := l.idles ++ [idle] }
  let l := EVENT_ADD l idle cb
  ({ l with nidles := inc32 l.nidles }, idle)

/-- `hidle_del`. -/
def hidle_del (l : Loop) (idle : Nat) : Loop :=
  match l.mem idle with
  | none => l
  | some ev =>
    if !ev.active then l
    else EVENT_DEL { l with nidles := dec32 l.nidles } idle

/-- The statement `if (h->repeat != INFINITE) --h->repeat;` of
`hloop_process_idles` and `hloop_process_timers`. -/
def repeat_countdown (l : Loop) (a : Nat) : Loop :=
  match l.mem a with
  | none => l
  | some ev =>
    if ev.«repeat» ≠ INFINITE then l.upd a (fun e => { e with «repeat» := dec32 e.«repeat» })
    else l

/-- The statement `if (idle->repeat == 0) hidle_del(idle);`. -/
def hidle_del_if_done (l : Loop) (idle : Nat) : Loop :=
  match l.mem idle with
  | none => l
  | some ev => if ev.«repeat» = 0 then hidle_del l idle else l

/-- The statement `if (!idle->active) list_del(node->prev);` that ends the body
of the idle walk: an idle that is no longer active leaves the list. -/
def idle_unlink (l : Loop) (idle : Nat) : Loop :=
  match l.mem idle with
  | none => l
  | some ev => if !ev.active then { l with idles := l.idles.erase idle } else l

/-- Body of the `while` of `hloop_process_idles` for the node `idle`: countdown,
deletion at zero, `EVENT_PENDING`, unlinking. -/
def hloop_process_idles_step (l : Loop) (idle : Nat) : Loop :=
  idle_unlink (EVENT_PENDING (hidle_del_if_done (repeat_countdown l idle) idle) idle) idle

/-- `hloop_process_idles`: walks the idle list; returns the loop and the number
of idles visited. No callback runs during the walk, so the nodes visited are
those of the list at entry. -/
def hloop_process_idles (l : Loop) : Loop × Nat :=
  (l.idles.foldl hloop_process_idles_step l, l.idles.length)

/-! ## Timers -/

/-- `htimer_add`; `now` is the clock reading taken by `hloop_update_time`.
Returns `none` for the null result. -/
def htimer_add (l : Loop) (now : Nat) (cb : Option Nat) (timeout : Nat) («repeat» : Nat) :
    Option (Loop × Nat) :=
  if timeout % 2 ^ 64 = 0 then none
  else
    let (l, timer) := l.alloc
    let l := l.upd timer (fun e => { e with
      event_type := .HEVENT_TYPE_TIMEOUT
      priority := .HEVENT_HIGHEST_PRIORITY
      «repeat» := «repeat» % 2 ^ 32
      timeout := timeout % 2 ^ 64 })
    let l := hloop_update_time l now
    let l := l.upd timer (fun e => { e with
      next_timeout := add64 (hloop_now_hrtime l) (mul64 e.timeout 1000) })
    let l := { l with timers := heap_insert (timers_compare l) l.timers timer }
    let l := EVENT_ADD l timer cb
    some ({ l with ntimers := inc32 l.ntimers }, timer)

/-- `htimer_reset`. -/
def htimer_reset (l : Loop) (timer : Nat) : Loop :=
  match l.mem timer with
  | none => l
  | some ev =>
    if ev.event_type ≠ .HEVENT_TYPE_TIMEOUT || ev.pending then l
    else
      let l := { l with timers := heap_remove (timers_compare l) l.timers timer }
      let l := l.upd timer (fun e => { e with
        next_timeout := add64 (hloop_now_hrtime l) (mul64 e.timeout 1000) })
      { l with timers := heap_insert (timers_compare l) l.timers timer }

/-- Conversion of an argument to `int8_t`. -/
def toInt8 (x : Int) : Int :=
  if x % 2 ^ 8 < 2 ^ 7 then x % 2 ^ 8 else x % 2 ^ 8 - 2 ^ 8

/-- `htimer_add_period`. The calendar fields are `int8_t` parameters: the
arguments of a call are converted to `int8_t` on entry, and the function
works on the converted values. Returns `none` for the null result. -/
def htimer_add_period (env : Env) (l : Loop) (cb : Option Nat)
    (minute hour day week month : Int) («repeat» : Nat) : Option (Loop × Nat) :=
  let minute := toInt8 minute
  let hour := toInt8 hour
  let day := toInt8 day
  let week := toInt8 week
  let month := toInt8 month
  if minute > 59 || hour > 23 || day > 31 || week > 6 || month > 12 then none
  else
    let (l, timer) := l.alloc
    let l := l.upd timer (fun e => { e with
      event_type := .HEVENT_TYPE_PERIOD
      priority := .HEVENT_HIGH_PRIORITY
      «repeat» := «repeat» % 2 ^ 32
      minute := minute
      hour := hour
      day := day
      month := month
      week := week
      next_timeout := env.calc_next_timeout minute hour day week month % 2 ^ 64 })
    let l := { l with timers := heap_insert (timers_compare l) l.timers timer }
    let l := EVENT_ADD l timer cb
    some ({ l with ntimers := inc32 l.ntimers }, timer)

/-- `htimer_del`. -/
def htimer_del (l : Loop) (timer : Nat) : Loop :=
  match l.mem timer with
  | none => l
  | some ev =>
    if !ev.active then l
    else
      let l := EVENT_DEL { l with ntimers := dec32 l.ntimers } timer
      l.upd timer (fun e => { e with next_timeout := hloop_now_hrtime l })

/-- The statement `if (timer->repeat == 0) htimer_del(timer);`. -/
def htimer_del_if_done (l : Loop) (timer : Nat) : Loop :=
  match l.mem timer with
  | none => l
  | some ev => if ev.«repeat» = 0 then htimer_del l timer else l

/-- The end of the body of the `while` of `hloop_process_timers`:
`heap_dequeue`, and for a timer that is still active the next deadline and
`heap_insert`. -/
def timer_requeue (env : Env) (l : Loop) (timer : Nat) : Loop :=
  let l := { l with timers := heap_dequeue (timers_compare l) l.timers }
  match l.mem timer with
  | none => l
  | some ev =>
    if ev.active then
      let l :=
        if ev.event_type = .HEVENT_TYPE_TIMEOUT then
          l.upd timer (fun e => { e with next_timeout := add64 e.next_timeout (mul64 e.timeout 1000) })
        else if ev.event_type = .HEVENT_TYPE_PERIOD then
          l.upd timer (fun e => { e with
            next_timeout := env.calc_next_timeout e.minute e.hour e.day e.week e.month % 2 ^ 64 })
        else l
      { l with timers := heap_insert (timers_compare l) l.timers timer }
    else l

/-- Body of the `while` of `hloop_process_timers` for the expired root `timer`:
countdown, deletion at zero, `EVENT_PENDING`, dequeue and re-insertion. -/
def hloop_process_timers_step (env : Env) (l : Loop) (timer : Nat) : Loop :=
  timer_requeue env (EVENT_PENDING (htimer_del_if_done (repeat_countdown l timer) timer) timer) timer

/-- The `while` of `hloop_process_timers`: `fuel` bounds the number of
iterations, `none` means the bound was reached before the loop ended.
Returns the loop and the value of `ntimers`. -/
def hloop_process_timers_loop (env : Env) (now_hrtime : Nat) :
    Nat → Loop → Nat → Option (Loop × Nat)
  | fuel, l, ntimers =>
    match l.timers with
    | [] => some (l, ntimers)
    | timer :: _ =>
      if l.key timer > now_hrtime then some (l, ntimers)
      else
        match fuel with
        | 0 => none
        | fuel + 1 =>
          hloop_process_timers_loop env now_hrtime fuel
            (hloop_process_timers_step env l timer) (ntimers + 1)

/-- `hloop_process_timers`. -/
def hloop_process_timers (env : Env) (fuel : Nat) (l : Loop) : Option (Loop × Nat) :=
  hloop_process_timers_loop env (hloop_now_hrtime l) fuel l 0

/-! ## IO handles -/

/-- `hio_init`: the handle is zeroed, typed as IO, and both backend slots are
set to `-1`. -/
def hio_init (l : Loop) (io : Nat) : Loop :=
  l.upd io (fun _ => { event_type := .HEVENT_TYPE_IO_, event_index0 := -1, event_index1 := -1 })

/-- The `io_type` that `fill_io_type` leaves in a handle; the probe result comes
from the environment. A probe that fails otherwise leaves the type as it
was. -/
def fill_io_type_result (env : Env) (e : Hevent) : hio_type_e :=
  match env.so_type e.fd with
  | .SOCK_STREAM => .HIO_TYPE_TCP
  | .SOCK_DGRAM => .HIO_TYPE_UDP
  | .SOCK_RAW => .HIO_TYPE_IP
  | .other => .HIO_TYPE_SOCKET
  | .ENOTSOCK =>
    match e.fd with
    | 0 => .HIO_TYPE_STDIN
    | 1 => .HIO_TYPE_STDOUT
    | 2 => .HIO_TYPE_STDERR
    | _ => .HIO_TYPE_FILE
  | .failed => e.io_type

/-- `fill_io_type`. -/
def fill_io_type (env : Env) (l : Loop) (io : Nat) : Loop :=
  l.upd io (fun e => { e with io_type := fill_io_type_result env e })

/-- `hio_socket_init`: address storage is materialised (the contents written by
`getsockname` / `getpeername` are not modelled). -/
def hio_socket_init (l : Loop) (io : Nat) : Loop :=
  let l := l.upd io (fun e => if e.localaddr = false then { e with localaddr := true } else e)
  l.upd io (fun e => if e.peeraddr = false then { e with peeraddrlen := 28, peeraddr := true } else e)

/-- `hio_reset`. -/
def hio_reset (env : Env) (l : Loop) (io : Nat) : Loop :=
  let l := fill_io_type env l io
  match l.mem io with
  | none => l
  | some ev => if ev.io_type.isSocket then hio_socket_init l io else l

/-- The handle as `hio_deinit` leaves it: the write queue is drained and the
per-connection state is reset. -/
def hio_deinit_state (e : Hevent) : Hevent :=
  { e with
    write_queue := []
    closed := false
    accept := false
    connect := false
    connectex := false
    recv := false
    send := false
    recvfrom := false
    sendto := false
    io_type := .HIO_TYPE_UNKNOWN
    error := 0
    events := 0
    revents := 0
    read_cb := none
    write_cb := none
    close_cb := none
    accept_cb := none
    connect_cb := none
    event_index0 := -1
    event_index1 := -1
    hovlp := none }

/-- `hio_deinit`. -/
def hio_deinit (l : Loop) (io : Nat) : Loop :=
  l.upd io hio_deinit_state

/-- Doubling search of `ceil2e`: the first power of two, starting from `ret`,
that is not below `num`. -/
def ceil2e_loop (num : Nat) : Nat → Nat → Nat
  | 0, ret => ret
  | fuel + 1, ret => if num ≤ ret then ret else ceil2e_loop num fuel (2 * ret)

/-- Modelled from the spec: `ceil2e` of `hmath.h` (not among the sources), the
smallest power of two that is not below `num`. -/
def ceil2e (num : Nat) : Nat := ceil2e_loop num num 1

/-- The head of `hio_get`: the table is created with `IO_ARRAY_INIT_SIZE` slots
on first use and grown when `fd` lies beyond it. `int newsize` and `2*fd` are
32-bit signed, the argument of `io_array_resize` is a `size_t`. The
embedding describes the code for `fd < 2 ^ 30`: there `ceil2e(fd)` and `2*fd`
fit an `int` and no conversion changes a value. For `fd ≥ 2 ^ 30` the C
expression `2*fd` overflows, which is undefined behaviour; the value
computed here for such a descriptor (two's complement wrap) is a placeholder
and nothing is stated about it. -/
def hio_get_grow (l : Loop) (fd : Nat) : Loop :=
  let l := if l.ios_maxsize = 0 then { l with ios_maxsize := IO_ARRAY_INIT_SIZE } else l
  if fd ≥ l.ios_maxsize then
    let newsize := toInt32 (ceil2e fd)
    { l with ios_maxsize := ((if newsize > fd then newsize else toInt32 (2 * fd)) % 2 ^ 64).toNat }
  else l

/-- `hio_get`; `fd` is a non-negative descriptor. Returns the loop and the
handle. -/
def hio_get (l : Loop) (fd : Nat) : Loop × Nat :=
  let l := hio_get_grow l fd
  match l.ios_ptr fd with
  | some io => (l, io)
  | none =>
    let (l, io) := l.alloc
    let l := hio_init l io
    let l := l.upd io (fun e => { e with loop := true })
    let l := l.upd io (fun e => { e with fd := fd })
    ({ l with ios_ptr := Function.update l.ios_ptr fd (some io) }, io)

/-- `hio_add`. -/
def hio_add (env : Env) (l : Loop) (io : Nat) (cb : Option Nat) (events : Nat) : Loop :=
  match l.mem io with
  | none => l
  | some ev =>
    let l :=
      if !ev.active then
        let l := hio_reset env l io
        let l := EVENT_ADD l io cb
        { l with nios := inc32 l.nios }
      else l
    let l := if cb.isSome then l.upd io (fun e => { e with cb := cb }) else l
    let l := l.emit (Obs.watcher_add ev.fd events)
    l.upd io (fun e => { e with events := e.events ||| (events % 2 ^ 32) })

/-- `hio_del`. -/
def hio_del (l : Loop) (io : Nat) (events : Nat) : Loop :=
  match l.mem io with
  | none => l
  | some ev =>
    if !ev.active then l
    else
      let l := l.emit (Obs.watcher_del ev.fd events)
      let l := l.upd io (fun e => { e with events := andNot32 e.events events })
      match l.mem io with
      | none => l
      | some ev1 =>
        if ev1.events = 0 then
          let l := { l with nios := dec32 l.nios }
          let l := EVENT_INACTIVE l io
          hio_deinit l io
        else l

/-- `hclose`. -/
def hclose (env : Env) (l : Loop) (io : Nat) : Loop :=
  match l.mem io with
  | none => l
  | some ev =>
    if ev.closed then l
    else
      let l := l.upd io (fun e => { e with closed := true })
      let l := l.emit (Obs.hio_close io)
      let l :=
        match l.mem io with
        | some ev1 =>
          match ev1.close_cb with
          | some c => env.cb c io (l.emit (Obs.close_cb io c))
          | none => l
        | none => l
      hio_del l io ALL_EVENTS

/-! ## Pending queue and the tick -/

/-- Modelled from the spec: what `iowatcher_poll_events` reports, an error code
or the ready descriptors with their ready bits. -/
inductive PollResult
  | error (code : Nat)
  | ready (fds : List (Nat × Nat))

/-- Modelled from the spec: `iowatcher_poll_events` (section 6.1), each ready
descriptor with a handle gets its ready bits and is pushed on the pending
queue; the result is the count, negative on error. -/
def iowatcher_poll_events (l : Loop) (timeout : Int) (r : PollResult) : Loop × Int :=
  let l := l.emit (Obs.poll timeout)
  match r with
  | .error code => (l, -(code : Int))
  | .ready fds =>
    (fds.foldl (fun l (p : Nat × Nat) =>
        match l.ios_ptr p.1 with
        | some io => EVENT_PENDING (l.upd io (fun e => { e with revents := e.revents ||| p.2 })) io
        | none => l) l,
      (fds.length : Int))

/-- `hloop_process_ios`. -/
def hloop_process_ios (l : Loop) (timeout : Int) (r : PollResult) : Loop × Int :=
  let (l, nevents) := iowatcher_poll_events l timeout r
  (l, if nevents < 0 then 0 else nevents)

/-- The statement `if (next->pending && next->cb) { next->cb(next); ++ncbs; }`
of `hloop_process_pendings`. -/
def dispatch_pending (env : Env) (l : Loop) (next : Nat) (ncbs : Nat) : Loop × Nat :=
  match l.mem next with
  | none => (l, ncbs)
  | some ev =>
    match ev.cb with
    | some c => if ev.pending then (env.cb c next (l.emit (Obs.cb next c)), ncbs + 1) else (l, ncbs)
    | none => (l, ncbs)

/-- The statements `prev->pending = 0; prev->pending_next = NULL;
if (prev->destroy) SAFE_FREE(prev);` of `hloop_process_pendings`. -/
def unlink_pending (l : Loop) (prev : Nat) : Loop :=
  match l.mem prev with
  | none => l
  | some ev =>
    let l := l.upd prev (fun e => { e with pending := false, pending_next := none })
    if ev.destroy then l.free prev else l

/-- The inner `while (next)` of `hloop_process_pendings` on one lane, starting
at `next`, with `ncbs` callbacks counted so far. `fuel` bounds the number of
nodes walked; `none` means the bound was reached or a freed handle was
dereferenced. -/
def hloop_process_pendings_walk (env : Env) :
    Nat → Loop → Option Nat → Nat → Option (Loop × Nat)
  | _, l, none, ncbs => some (l, ncbs)
  | 0, _, some _, _ => none
  | fuel + 1, l, some next, ncbs =>
    match l.mem next with
    | none => none
    | some _ =>
      let r := dispatch_pending env l next ncbs
      match r.1.mem next with
      | none => none
      | some prev =>
        hloop_process_pendings_walk env fuel (unlink_pending r.1 next) prev.pending_next r.2

/-- The `for` of `hloop_process_pendings`: lanes `i - 1`, ..., `0` remain to be
drained. -/
def hloop_process_pendings_lanes (env : Env) (fuel : Nat) :
    Nat → Loop → Nat → Option (Loop × Nat)
  | 0, l, ncbs => some (l, ncbs)
  | i + 1, l, ncbs =>
    match hloop_process_pendings_walk env fuel l (l.pendings i) ncbs with
    | none => none
    | some (l, ncbs) =>
      hloop_process_pendings_lanes env fuel i
        { l with pendings := Function.update l.pendings i none } ncbs

/-- `hloop_process_pendings`: returns the loop and the number of callbacks
invoked. -/
def hloop_process_pendings (env : Env) (fuel : Nat) (l : Loop) : Option (Loop × Nat) :=
  if l.npendings = 0 then some (l, 0)
  else
    match hloop_process_pendings_lanes env fuel HEVENT_PRIORITY_SIZE l 0 with
    | none => none
    | some (l, ncbs) => some ({ l with npendings := 0 }, ncbs)

/-- The block-time computation at the head of `hloop_process_events`, from the
deadline of the heap root (if any) and the cached time; `none` is the jump
to `process_timers` taken when the deadline has passed. -/
def hloop_blocktime (root : Option Nat) (now : Nat) : Option Int :=
  match root with
  | none => some MAX_BLOCK_TIME
  | some next_min_timeout =>
    let blocktime_us : Int := toInt64 (sub64 next_min_timeout now)
    if blocktime_us ≤ 0 then none
    else
      let blocktime : Int := toInt32 (blocktime_us.tdiv 1000)
      let blocktime : Int := toInt32 (blocktime + 1)
      some (min blocktime MAX_BLOCK_TIME)

/-- The part of `hloop_process_events` from the label `process_timers` on. -/
def hloop_process_events_tail (env : Env) (fuel : Nat) (l : Loop) : Option (Loop × Nat) :=
  match (if l.ntimers ≠ 0 then hloop_process_timers env fuel l else some (l, 0)) with
  | none => none
  | some (l, _) =>
    let l := if l.npendings = 0 then (if l.nidles ≠ 0 then (hloop_process_idles l).1 else l) else l
    hloop_process_pendings env fuel l

/-- `hloop_process_events`: one tick. `t1` and `t2` are the two clock readings,
`r` is what the poller would report. Returns the loop and `ncbs`. -/
def hloop_process_events (env : Env) (fuel : Nat) (l : Loop) (t1 t2 : Nat) (r : PollResult) :
    Option (Loop × Nat) :=
  let l := hloop_update_time l t1
  match hloop_blocktime (l.timers.head?.map l.key) (hloop_now_hrtime l) with
  | none => hloop_process_events_tail env fuel l
  | some blocktime =>
    let l := if l.nios ≠ 0 then (hloop_process_ios l blocktime r).1 else l.emit (Obs.msleep blocktime)
    let l := hloop_update_time l t2
    hloop_process_events_tail env fuel l

/-- `hloop_init`; `now` is the reading of `gethrtime()`. -/
def hloop_init (now : Nat) : Loop :=
  { status := .HLOOP_STATUS_STOP, start_hrtime := now % 2 ^ 64, cur_hrtime := now % 2 ^ 64 }

/-- `hloop_stop`. -/
def hloop_stop (l : Loop) : Loop :=
  { l with status := .HLOOP_STATUS_STOP }

/-- `hloop_pause`. -/
def hloop_pause (l : Loop) : Loop :=
  if l.status = .HLOOP_STATUS_RUNNING then { l with status := .HLOOP_STATUS_PAUSE } else l

/-- `hloop_resume`. -/
def hloop_resume (l : Loop) : Loop :=
  if l.status = .HLOOP_STATUS_PAUSE then { l with status := .HLOOP_STATUS_RUNNING } else l

/-- Environment whose callbacks leave the loop untouched. -/
def Env.quiet : Env :=
  { cb := fun _ _ l => l, so_type := fun _ => .SOCK_STREAM, calc_next_timeout := fun _ _ _ _ _ => 0 }

/-- One tick as far as timers are concerned: the clock is read,
`hloop_process_timers` runs, then `hloop_process_pendings`. -/
def timer_tick (env : Env) (fuel : Nat) (l : Loop) (now : Nat) : Option Loop :=
  match hloop_process_timers env fuel (hloop_update_time l now) with
  | none => none
  | some (l, _) =>
    match hloop_process_pendings env fuel l with
    | none => none
    | some (l, _) => some l

/-- The block time as the specification words it: `min(⌈Δ/1000⌉ + 1, 1000)`. -/
def spec_blocktime_ms (delta : Int) : Int :=
  min ((delta + 999) / 1000 + 1) 1000

/-- The pending chain that starts at `head` and follows `pending_next` is the
list `xs`. -/
inductive Chain (mem : Nat → Option Hevent) : Option Nat → List Nat → Prop
  | nil : Chain mem none []
  | cons {a : Nat} {e : Hevent} {xs : List Nat} :
      mem a = some e → Chain mem e.pending_next xs → Chain mem (some a) (a :: xs)

/-- What the dispatcher does to the outside world for the handle at `a`, when
callbacks leave the loop alone: the callback is invoked if the handle is
pending and has one, and the handle is freed if `destroy` is set. -/
def handle_obs (mem : Nat → Option Hevent) (a : Nat) : List Obs :=
  match mem a with
  | none => []
  | some e =>
    (match e.cb with
      | some c => if e.pending then [Obs.cb a c] else []
      | none => []) ++ (if e.destroy then [Obs.free a] else [])

/-- The same for the handles of a lane, in the order of the list. -/
def lane_obs (mem : Nat → Option Hevent) (xs : List Nat) : List Obs :=
  xs.flatMap (handle_obs mem)

/-- The lane of the handle at `a` (`none` for a dangling address). -/
def lane_of (mem : Nat → Option Hevent) (a : Nat) : Option Nat :=
  (mem a).map (fun e => HEVENT_PRIORITY_INDEX e.priority)

/-- The pending queue is well formed: lane `i` is the finite chain `q i`, no
handle occurs twice. -/
structure PendingWF (l : Loop) (q : Nat → List Nat) : Prop where
  chain : ∀ i, Chain l.mem (l.pendings i) (q i)
  nodup : ∀ i, (q i).Nodup
  disjoint : ∀ i j, i ≠ j → ∀ a, a ∈ q i → a ∉ q j

/-- Number of callbacks the dispatcher invokes for the handle at `a`. -/
def handle_ncbs (mem : Nat → Option Hevent) (a : Nat) : Nat :=
  match mem a with
  | none => 0
  | some e =>
    match e.cb with
    | some _ => if e.pending then 1 else 0
    | none => 0

/-- Number of callbacks the dispatcher invokes for the handles of a lane. -/
def lane_ncbs (mem : Nat → Option Hevent) (xs : List Nat) : Nat :=
  (xs.map (handle_ncbs mem)).sum

/-- State of a handle after its dispatch: freed if `destroy` was set, otherwise
no longer pending and unlinked. -/
def dispatched (o : Option Hevent) : Option Hevent :=
  o.bind (fun e => if e.destroy then none else some { e with pending := false, pending_next := none })

/-- The handles of `hs` that belong on lane `i`, latest first: the lane as it
stands after the handles of `hs` were made pending in the order of the
list. -/
def pushed_lane (mem : Nat → Option Hevent) (hs : List Nat) (i : Nat) : List Nat :=
  hs.reverse.filter (fun a => lane_of mem a = some i)

/-- The loop `l` is the loop `l0` after `EVENT_PENDING` was applied to the
handles of `done`, in order. -/
structure Pushed (l0 l : Loop) (done : List Nat) : Prop where
  chain : ∀ i, Chain l.mem (l.pendings i) (pushed_lane l0.mem done i)
  inq : ∀ a ∈ done, ∃ e0, l0.mem a = some e0 ∧
    ∃ nx, l.mem a = some { e0 with pending := true, pending_next := nx }
  off : ∀ a, a ∉ done → l.mem a = l0.mem a
  trace : l.trace = l0.trace
  np : l.npendings = (l0.npendings + done.length) % 2 ^ 32
  timers : l.timers = l0.timers

/-- A loop with a timer-priority handle at address 0 and an idle-priority handle
at address 1, nothing pending. -/
def C3_example_loop : Loop :=
  { mem := fun a =>
      if a = 0 then some { priority := .HEVENT_HIGHEST_PRIORITY, cb := some 7 }
      else if a = 1 then some { priority := .HEVENT_LOWEST_PRIORITY, cb := some 8 }
      else none }

/-- Positions of the ancestors of position `i` in the level-order heap, nearest
first; `fuel` bounds the depth. -/
def heap_ancestors : Nat → Nat → List Nat
  | 0, _ => []
  | fuel + 1, i => if i = 0 then [] else ((i - 1) / 2) :: heap_ancestors fuel ((i - 1) / 2)

/-- The timer at address `a` is live and active. -/
def Loop.timer_active (l : Loop) (a : Nat) : Bool :=
  match l.mem a with
  | some e => e.active
  | none => false

/-- Heap order for active timers: no active timer in the heap has a deadline
smaller than that of one of its ancestors. -/
def heap_ordered_active (l : Loop) : Bool :=
  (List.range l.timers.length).all (fun i =>
    match l.timers[i]? with
    | none => true
    | some a =>
      !l.timer_active a ||
        (heap_ancestors i i).all (fun j =>
          match l.timers[j]? with
          | none => true
          | some p => decide (l.key p ≤ l.key a)))

/-- Loop of the heap-order scenario: three timers of 100, 200 and 300 ms are
added at time 0, the second one is deleted, then a 1 ms timer is added at
time 60 µs. The timers get the addresses 0, 1, 2 and 3. -/
def heap_scenario : Option Loop :=
  (htimer_add (hloop_init 0) 0 (some 10) 100 INFINITE).bind fun p0 =>
  (htimer_add p0.1 0 (some 11) 200 INFINITE).bind fun p1 =>
  (htimer_add p1.1 0 (some 12) 300 INFINITE).bind fun p2 =>
  (htimer_add (htimer_del p2.1 p1.2) 60 (some 13) 1 INFINITE).map fun p3 => p3.1

/-- The counter invariant `nactives == nios + ntimers + nidles`, in the 32-bit
unsigned arithmetic of the counters. -/
def counters_ok (l : Loop) : Prop :=
  l.nactives % 2 ^ 32 = (l.nios + l.ntimers + l.nidles) % 2 ^ 32

/-- A handle is consistent with the rule "an IO handle without subscribed events
is not active". -/
def io_handle_ok (e : Hevent) : Prop :=
  e.event_type = .HEVENT_TYPE_IO_ → e.events = 0 → e.active = false

/-- Every IO handle of the loop whose `events` mask is 0 is inactive. -/
def io_inv (l : Loop) : Prop :=
  ∀ a e, l.mem a = some e → io_handle_ok e

/-- Loop states reachable from `hloop_init` through `hio_get`, `hio_add` with a
non-zero event mask, `hio_del` and `hclose`. -/
inductive IOReach (env : Env) : Loop → Prop
  | init (now : Nat) : IOReach env (hloop_init now)
  | get (l : Loop) (fd : Nat) : IOReach env l → IOReach env (hio_get l fd).1
  | add (l : Loop) (io : Nat) (cb : Option Nat) (events : Nat) :
      IOReach env l → events % 2 ^ 32 ≠ 0 → IOReach env (hio_add env l io cb events)
  | del (l : Loop) (io events : Nat) : IOReach env l → IOReach env (hio_del l io events)
  | close (l : Loop) (io : Nat) : IOReach env l → IOReach env (hclose env l io)

/-- A loop with one TCP handle for descriptor 5 at address 0, subscribed to READ
with event callback 9. -/
def io_example : Loop :=
  hio_add Env.quiet (hio_get (hloop_init 0) 5).1 0 (some 9) READ_EVENT

/-- An environment in which callback 7 closes the IO handle at address 0 and
every other callback leaves the loop alone. -/
def closing_env : Env :=
  { cb := fun c _ l => if c = 7 then hclose Env.quiet l 0 else l
    so_type := fun _ => .SOCK_STREAM
    calc_next_timeout := fun _ _ _ _ _ => 0 }

/-- `io_example` with a `close_cb` (number 3) registered on the handle. -/
def io_example_close_cb : Loop :=
  io_example.upd 0 (fun e => { e with close_cb := some 3 })

/-- An IO handle for descriptor 5, subscribed to READ, with event callback 9,
active and pending. -/
def pending_io_handle : Hevent :=
  { loop := true, event_type := .HEVENT_TYPE_IO_, cb := some 9, active := true,
    pending := true, fd := 5, io_type := .HIO_TYPE_TCP, events := 1, revents := 1 }

/-- A loop whose only handle, `pending_io_handle` at address 0, is pending on
lane 2. -/
def pending_io_example : Loop :=
  { mem := fun a => if a = 0 then some pending_io_handle else none
    pendings := fun j => if j = 2 then some 0 else none
    npendings := 1
    nios := 1
    nactives := 1
    ios_ptr := fun fd => if fd = 5 then some 0 else none
    ios_maxsize := 64
    brk := 1 }

/-! ## The run loop -/

/-- What one iteration of the run loop reads from outside: the two clock
readings of a tick (a paused iteration uses the first) and what the poller
would report. -/
structure TickInput where
  t1 : Nat
  t2 : Nat
  r : PollResult

/-- The `while (loop->status != HLOOP_STATUS_STOP)` of `hloop_run`, one element
of `ins` per iteration; `none` means that the inputs ran out before the loop
ended, or that a tick did not return. -/
def hloop_run_loop (env : Env) (fuel : Nat) : List TickInput → Loop → Option Loop
  | ins, l =>
    if l.status = .HLOOP_STATUS_STOP then some l
    else
      match ins with
      | [] => none
      | i :: rest =>
        if l.status = .HLOOP_STATUS_PAUSE then
          hloop_run_loop env fuel rest (hloop_update_time (l.emit (Obs.msleep PAUSE_TIME)) i.t1)
        else
          let l := { l with loop_cnt := (l.loop_cnt + 1) % 2 ^ 64 }
          if l.nactives = 0 then some l
          else
            match hloop_process_events env fuel l i.t1 i.t2 i.r with
            | none => none
            | some (l, _) => hloop_run_loop env fuel rest l

/-- The caller's view of `htimer_add`: the loop after the call and the pointer
returned. The null return happens before the first write, so it leaves the
loop as it was. -/
def htimer_add_call (l : Loop) (now : Nat) (cb : Option Nat) (timeout : Nat) («repeat» : Nat) :
    Loop × Option Nat :=
  match htimer_add l now cb timeout «repeat» with
  | some (l1, timer) => (l1, some timer)
  | none => (l, none)

/-- The caller's view of `htimer_add_period`: the loop after the call and the
pointer returned. -/
def htimer_add_period_call (env : Env) (l : Loop) (cb : Option Nat)
    (minute hour day week month : Int) («repeat» : Nat) : Loop × Option Nat :=
  match htimer_add_period env l cb minute hour day week month «repeat» with
  | some (l1, timer) => (l1, some timer)
  | none => (l, none)

/-- The loop `l1` arises from `l` by the elementary moves of the stages of a
tick, applied to handles that satisfy `S`: an update of handle fields that
leaves the pending flag and the pending link alone, `EVENT_PENDING`, and
changes outside the handle store, the pending queue, the allocator and the IO
table. -/
inductive Stage (S : Nat → Prop) : Loop → Loop → Prop
  | refl (l : Loop) : Stage S l l
  | upd {l l1 : Loop} (a : Nat) (f : Hevent → Hevent) : Stage S l l1 → S a →
      (∀ e, (f e).pending = e.pending ∧ (f e).pending_next = e.pending_next) →
      Stage S l (l1.upd a f)
  | pend {l l1 : Loop} (a : Nat) : Stage S l l1 → S a → Stage S l (EVENT_PENDING l1 a)
  | frame {l l1 : Loop} (l2 : Loop) : Stage S l l1 → l2.mem = l1.mem →
      l2.pendings = l1.pendings → l2.npendings = l1.npendings → l2.brk = l1.brk →
      l2.ios_ptr = l1.ios_ptr → Stage S l l2

/-! ## The idle list as the walk sees it -/

/-- The field `next` of a node of the circular idle list `xs`; `none` is the
sentinel `&loop->idles`. -/
def list_next (xs : List Nat) (node : Option Nat) : Option Nat :=
  match node with
  | none => xs.head?
  | some a => xs[xs.indexOf a + 1]?

/-- The field `prev` of a node of the circular idle list `xs`. -/
def list_prev (xs : List Nat) (node : Option Nat) : Option Nat :=
  match node with
  | none => xs.getLast?
  | some a => if xs.indexOf a = 0 then none else xs[xs.indexOf a - 1]?

/-- Modelled from the spec: `list_del` (`list.h` is not among the sources) takes
a node out of the list. -/
def list_del (xs : List Nat) (node : Option Nat) : List Nat :=
  match node with
  | none => xs
  | some a => xs.erase a

/-- The statement `if (!idle->active) list_del(node->prev);` of the idle walk,
with the cursor `node` already advanced past `idle`. -/
def idle_unlink_prev (l : Loop) (idle : Nat) (node : Option Nat) : Loop :=
  match l.mem idle with
  | none => l
  | some ev =>
    if !ev.active then { l with idles := list_del l.idles (list_prev l.idles node) } else l

/-- The `while (node != &loop->idles)` of `hloop_process_idles` with its cursor:
`node` is the cursor, `nidles` the count so far; the cursor advances before
the node just visited is unlinked. `fuel` bounds the number of iterations. -/
def hloop_process_idles_walk : Nat → Loop → Option Nat → Nat → Option (Loop × Nat)
  | _, l, none, nidles => some (l, nidles)
  | 0, _, some _, _ => none
  | fuel + 1, l, some idle, nidles =>
    let l := EVENT_PENDING (hidle_del_if_done (repeat_countdown l idle) idle) idle
    let node := list_next l.idles (some idle)
    hloop_process_idles_walk fuel (idle_unlink_prev l idle node) node (nidles + 1)

/-- `hloop_process_idles` as written, cursor and all: the walk starts at
`loop->idles.next`. -/
def hloop_process_idles_cursor (fuel : Nat) (l : Loop) : Option (Loop × Nat) :=
  hloop_process_idles_walk fuel l (list_next l.idles none) 0

/-- The handle at address `a` is live and active. -/
def Loop.handle_active (l : Loop) (a : Nat) : Bool :=
  match l.mem a with
  | some e => e.active
  | none => false

/-- The fields of an idle after one visit of the idle walk, the pending flag and
link apart: a finite `repeat` is decremented (32-bit), and an active idle
whose `repeat` is then 0 is deleted. -/
def idle_visited (e : Hevent) : Hevent :=
  let r := if e.«repeat» ≠ INFINITE then dec32 e.«repeat» else e.«repeat»
  if r = 0 ∧ e.active = true then { e with «repeat» := r, destroy := true, active := false }
  else { e with «repeat» := r }

/-- Heap order of the level-order heap `h` for the keys `k`: no node has a key
below that of its parent. -/
def HeapOrd (k : Nat → Nat) (h : List Nat) : Prop :=
  ∀ i x p, 0 < i → h[i]? = some x → h[(i - 1) / 2]? = some p → k p ≤ k x

/-- A loop with two repeating timers of 100 ms (address 0) and 200 ms
(address 1), added at time 0; the cached time is 50000 µs. -/
def reset_example : Loop :=
  { mem := fun a =>
      if a = 0 then some
        { priority := .HEVENT_HIGHEST_PRIORITY, loop := true, event_type := .HEVENT_TYPE_TIMEOUT,
          cb := some 7, active := true, timeout := 100, next_timeout := 100000,
          «repeat» := INFINITE }
      else if a = 1 then some
        { priority := .HEVENT_HIGHEST_PRIORITY, loop := true, event_type := .HEVENT_TYPE_TIMEOUT,
          cb := some 8, active := true, timeout := 200, next_timeout := 200000,
          «repeat» := INFINITE }
      else none
    timers := [0, 1]
    ntimers := 2
    nactives := 2
    cur_hrtime := 50000
    brk := 2 }

/-! ## The stages of a tick, one by one -/

/-- The head of `hloop_process_events`, up to the label `process_timers`: the
time is refreshed, the block time computed, and unless the root deadline has
passed the loop polls or sleeps and refreshes the time again. -/
def hloop_process_events_poll (l : Loop) (t1 t2 : Nat) (r : PollResult) : Loop :=
  let l := hloop_update_time l t1
  match hloop_blocktime (l.timers.head?.map l.key) (hloop_now_hrtime l) with
  | none => l
  | some blocktime =>
    let l := if l.nios ≠ 0 then (hloop_process_ios l blocktime r).1 else l.emit (Obs.msleep blocktime)
    hloop_update_time l t2

/-- The statement `if (loop->ntimers) ntimers = hloop_process_timers(loop);` of
`hloop_process_events`. -/
def hloop_process_events_timers (env : Env) (fuel : Nat) (l : Loop) : Option Loop :=
  if l.ntimers ≠ 0 then (hloop_process_timers env fuel l).map Prod.fst else some l

/-- The statement `if (loop->npendings == 0) { if (loop->nidles) nidles =
hloop_process_idles(loop); }` of `hloop_process_events`. -/
def hloop_process_events_idles (l : Loop) : Loop :=
  if l.npendings = 0 then (if l.nidles ≠ 0 then (hloop_process_idles l).1 else l) else l

/-- The pending queue with its bookkeeping: lane `i` is the chain `q i`, only the
five lanes are in use, no handle is queued twice, a live handle is pending
exactly when it is queued, `npendings` counts the queued handles (32-bit),
and every live handle was handed out by the allocator. -/
structure QueueInv (l : Loop) (q : Nat → List Nat) : Prop where
  chain : ∀ i, Chain l.mem (l.pendings i) (q i)
  nodup : ∀ i, (q i).Nodup
  disjoint : ∀ i j, i ≠ j → ∀ a, a ∈ q i → a ∉ q j
  lanes : ∀ i, 5 ≤ i → q i = []
  queued : ∀ a e, l.mem a = some e → (e.pending = true ↔ ∃ i, a ∈ q i)
  count : l.npendings = ((List.range 5).map (fun i => (q i).length)).sum % 2 ^ 32
  live : ∀ a e, l.mem a = some e → a < l.brk

/-- The loop between two ticks: the pending queue is empty, `npendings` is 0, no
handle is pending, and every live handle was handed out by the allocator. -/
structure Quiescent (l : Loop) : Prop where
  lanes : ∀ i, l.pendings i = none
  npend : l.npendings = 0
  idle : ∀ a e, l.mem a = some e → e.pending = false
  live : ∀ a e, l.mem a = some e → a < l.brk

/-- The handle at `a` is live and has a callback. -/
def has_cb (mem : Nat → Option Hevent) (a : Nat) : Bool :=
  match mem a with
  | some e => e.cb.isSome
  | none => false

/-- The observation is the invocation of an event callback. -/
def Obs.is_cb : Obs → Bool
  | .cb _ _ => true
  | _ => false

/-- A loop made with the API: an idle with one firing left (address 0) and a
one-shot timer of 5 ms (address 1), both added at time 0. -/
def tick_example : Loop :=
  match htimer_add (hidle_add (hloop_init 0) (some 1) 1).1 0 (some 7) 5 1 with
  | some p => p.1
  | none => hloop_init 0

/-! ## Stopping from a callback -/

/-- The callback `c`, run on handle `a`, stops the loop: it calls `hloop_stop`,
and the status is STOP when it returns, whatever the state it ran in. -/
def Env.stops (env : Env) (a c : Nat) : Prop :=
  ∀ l, (env.cb c a l).status = .HLOOP_STATUS_STOP

/-- What is assumed of callbacks where the status is concerned. A callback that
runs on a stopped loop returns with the loop stopped: `hloop_pause` and
`hloop_resume` leave STOP alone and only `hloop_run` sets RUNNING. The ghost
trace is extended, and the entries `Obs.cb`, which the dispatcher writes, are
not written by callbacks. -/
structure StatusCallbacks (env : Env) : Prop where
  stable : ∀ c a l, l.status = .HLOOP_STATUS_STOP → (env.cb c a l).status = .HLOOP_STATUS_STOP
  trace : ∀ c a l, ∃ s, (env.cb c a l).trace = l.trace ++ s ∧ ∀ x ∈ s, Obs.is_cb x = false

/-- Status bookkeeping of a tick whose trace started as `t0`: the trace extends
`t0`, and if the dispatcher has invoked a callback that stops the loop, the
status is STOP. -/
def StopSeen (env : Env) (t0 : List Obs) (l : Loop) : Prop :=
  ∃ s, l.trace = t0 ++ s ∧
    ((∃ a c, Obs.cb a c ∈ s ∧ env.stops a c) → l.status = .HLOOP_STATUS_STOP)

/-- An environment in which callback 7 calls `hloop_stop` and every other
callback leaves the loop alone. -/
def stopping_env : Env :=
  { cb := fun c _ l => if c = 7 then hloop_stop l else l
    so_type := fun _ => .SOCK_STREAM
    calc_next_timeout := fun _ _ _ _ _ => 0 }

/-- A running loop with two timers of 1 ms, added at time 0: a repeating one
(address 0) with callback 8 and a one-shot one (address 1) with callback 7. -/
def stop_example : Loop :=
  match htimer_add (hloop_init 0) 0 (some 8) 1 INFINITE with
  | none => hloop_init 0
  | some p =>
    match htimer_add p.1 0 (some 7) 1 1 with
    | none => hloop_init 0
    | some p1 => { p1.1 with status := .HLOOP_STATUS_RUNNING }

/-- A property of the loop that the dispatch of a callback keeps, and that
depends on the status and the trace only as far as entries of the dispatcher
are concerned. -/
structure TickInv (env : Env) (P : Loop → Prop) : Prop where
  dispatch : ∀ l a c, P l → P (env.cb c a (l.emit (Obs.cb a c)))
  keep : ∀ l l1, P l → l1.status = l.status →
    (∃ s, l1.trace = l.trace ++ s ∧ ∀ x ∈ s, Obs.is_cb x = false) → P l1

/-! ## The dispatch with callbacks that change the loop -/

/-- The loop `l1` is the loop `l` after a callback that leaves the bookkeeping
of the pending queue alone: the lane heads are as before, every handle that was
allocated is still allocated with its pending flag and pending link as before
(callbacks do not free handles, `EVENT_DEL` leaves that to the dispatcher), a
handle allocated by the callback is not pending, and every handle lies below
the allocator mark if that was so before. -/
structure CbFrame (l l1 : Loop) : Prop where
  pendings : l1.pendings = l.pendings
  links : ∀ a e, l.mem a = some e →
    ∃ e1, l1.mem a = some e1 ∧ e1.pending = e.pending ∧ e1.pending_next = e.pending_next
  fresh : ∀ a, l.mem a = none → ∀ e1, l1.mem a = some e1 →
    e1.pending = false ∧ e1.pending_next = none
  live : (∀ a e, l.mem a = some e → a < l.brk) → ∀ a e, l1.mem a = some e → a < l1.brk

/-- What the dispatch assumes of the callbacks of an environment: run on a loop
whose allocated handles all lie below the allocator mark, each leaves the
bookkeeping of the pending queue alone, and each extends the ghost trace
without writing the entries `Obs.cb`, which are the dispatcher's. -/
structure QueueCallbacks (env : Env) : Prop where
  frame : ∀ c a l, (∀ b e, l.mem b = some e → b < l.brk) → CbFrame l (env.cb c a l)
  trace : ∀ c a l, ∃ s, (env.cb c a l).trace = l.trace ++ s ∧ ∀ x ∈ s, Obs.is_cb x = false

/-- No callback of the environment changes the event callback `cb` of a handle. -/
def KeepsCb (env : Env) : Prop :=
  ∀ c a l b e e1, l.mem b = some e → (env.cb c a l).mem b = some e1 → e1.cb = e.cb

/-- The loop `l1` is the loop `l` after the dispatch of the handles `xs`: a
handle of `xs` is freed or neither pending nor linked, the other handles keep
their pending flag and link (and, under `keep`, their event callback),
handles allocated meanwhile are not pending. -/
structure Dispatched (keep : Prop) (xs : List Nat) (l l1 : Loop) : Prop where
  done : ∀ a ∈ xs, ∀ e1, l1.mem a = some e1 → e1.pending = false ∧ e1.pending_next = none
  links : ∀ a, a ∉ xs → ∀ e, l.mem a = some e →
    ∃ e1, l1.mem a = some e1 ∧ e1.pending = e.pending ∧ e1.pending_next = e.pending_next ∧
      (keep → e1.cb = e.cb)
  fresh : ∀ a, a ∉ xs → l.mem a = none → ∀ e1, l1.mem a = some e1 →
    e1.pending = false ∧ e1.pending_next = none
  live : (∀ a e, l.mem a = some e → a < l.brk) → ∀ a e, l1.mem a = some e → a < l1.brk

/-- The callbacks the dispatcher invoked, read off the trace: the handle and the
callback number of every entry `Obs.cb`, in order. -/
def invoked : List Obs → List (Nat × Nat)
  | [] => []
  | Obs.cb a c :: t => (a, c) :: invoked t
  | _ :: t => invoked t

/-- The pair `(l1, n1)` is the pair `(l, n)` after the dispatch of the handles
`xs`, as far as the handles, the trace and the count of callbacks go: the
trace is extended, the count grows by the number of callbacks the dispatcher
invoked, each of them on a handle of `xs`, in the order of `xs`, no handle
twice; under `keep`, when the handles of `xs` are distinct and pending, the
handles invoked are those of `xs` that had a callback. -/
structure Drained (keep : Prop) (xs : List Nat) (l : Loop) (n : Nat) (l1 : Loop) (n1 : Nat) :
    Prop where
  mem : Dispatched keep xs l l1
  trace : ∃ t, l1.trace = l.trace ++ t ∧ n1 = n + (invoked t).length ∧
    ((invoked t).map Prod.fst).Sublist xs ∧
    (keep → (∀ a ∈ xs, ∃ e, l.mem a = some e ∧ e.pending = true) → xs.Nodup →
      (invoked t).map Prod.fst = xs.filter (has_cb l.mem))

/-- Ghost of `hloop_process_timers_loop`: the roots that the `while` of
`hloop_process_timers` processes, in order, under the same tests as the loop.
Each entry is one iteration of the loop body, that is, one expiry the loop
saw; their number is the value `ntimers` the function returns
(`timers_roots_length`). -/
def hloop_process_timers_roots (env : Env) (now_hrtime : Nat) : Nat → Loop → List Nat
  | fuel, l =>
    match l.timers with
    | [] => []
    | timer :: _ =>
      if l.key timer > now_hrtime then []
      else
        match fuel with
        | 0 => []
        | fuel + 1 =>
          timer :: hloop_process_timers_roots env now_hrtime fuel
            (hloop_process_timers_step env l timer)

theorem toInt32_of_range (x : Int) (h0 : 0 ≤ x) (h1 : x < 2 ^ 31) : toInt32 x = x := by
  unfold toInt32
  have e : x % 2 ^ 32 = x := Int.emod_eq_of_lt h0 (by omega)
  rw [e]
  simp only [h1, if_true]

/-! ## C1: block time -/

/-- C1 (as the code has it): with an empty heap the block time is 1000 ms; with
a root deadline `Δ = root.next_timeout - now > 0` microseconds whose
millisecond count fits the 32-bit `blocktime`, the block time is
`min(⌊Δ/1000⌋ + 1, 1000)` ms: the division truncates, it does not round up. -/
theorem C1_blocktime_floor (root now : Nat)
    (hD : 0 < toInt64 (sub64 root now))
    (hfit : toInt64 (sub64 root now) / 1000 + 1 < 2 ^ 31) :
    hloop_blocktime none now = some 1000 ∧
    hloop_blocktime (some root) now
      = some (min (toInt64 (sub64 root now) / 1000 + 1) 1000) := by
  refine ⟨rfl, ?_⟩
  unfold hloop_blocktime
  simp only [not_le.mpr hD, if_false]
  have hdiv : (toInt64 (sub64 root now)).tdiv 1000 = toInt64 (sub64 root now) / 1000 :=
    Int.tdiv_eq_ediv hD.le (by norm_num)
  have h0 : 0 ≤ toInt64 (sub64 root now) / 1000 := Int.ediv_nonneg hD.le (by norm_num)
  rw [hdiv, toInt32_of_range _ h0 (by omega), toInt32_of_range _ (by omega) hfit]
  rfl

/-- C1, instance: a deadline 1500 µs away gives `min(1 + 1, 1000) = 2` ms. -/
theorem C1_blocktime_floor_witness :
    hloop_blocktime none 0 = some 1000 ∧
    hloop_blocktime (some 1500) 0 = some (min (toInt64 (sub64 1500 0) / 1000 + 1) 1000) :=
  C1_blocktime_floor 1500 0 (by decide) (by decide)

/-- C1 fails as stated: with the root deadline 1500 µs ahead (`Δ = 1500`) the
formula `min(⌈Δ/1000⌉ + 1, 1000)` gives 3 ms, the code computes 2 ms, and a
tick of a loop whose only timer is 1500 µs away sleeps 2 ms. -/
theorem C1_counterexample :
    toInt64 (sub64 1500 0) = 1500 ∧ spec_blocktime_ms 1500 = 3 ∧
    hloop_blocktime (some 1500) 0 = some 2 ∧
    ((htimer_add (hloop_init 0) 0 (some 7) 2 1).bind
        (fun p => hloop_process_events Env.quiet 10 p.1 500 2600 (.ready []))).map
      (fun q => q.1.trace) = some [Obs.msleep 2, Obs.cb 0 7, Obs.free 0] := by
  decide

/-! ## C2: a timer with `repeat = k` -/

theorem heap_dequeue_singleton (cmp : Nat → Nat → Bool) (a : Nat) :
    heap_dequeue cmp [a] = [] := by
  simp [heap_dequeue, heap_remove]

theorem heap_insert_nil (cmp : Nat → Nat → Bool) (a : Nat) :
    heap_insert cmp [] a = [a] := by
  simp [heap_insert, sift_up]

theorem timers_loop_step (env : Env) (now fuel n : Nat) (l : Loop) (a : Nat) (rest : List Nat)
    (h : l.timers = a :: rest) (hk : l.key a ≤ now) :
    hloop_process_timers_loop env now (fuel + 1) l n
      = hloop_process_timers_loop env now fuel (hloop_process_timers_step env l a) (n + 1) := by
  rw [hloop_process_timers_loop]
  simp only [h, not_lt.mpr hk, gt_iff_lt, if_false]

theorem timers_loop_stop (env : Env) (now fuel n : Nat) (l : Loop) (a : Nat) (rest : List Nat)
    (h : l.timers = a :: rest) (hk : now < l.key a) :
    hloop_process_timers_loop env now fuel l n = some (l, n) := by
  rw [hloop_process_timers_loop]
  simp only [h, hk, gt_iff_lt, if_true]

theorem timers_loop_nil (env : Env) (now fuel n : Nat) (l : Loop)
    (h : l.timers = []) :
    hloop_process_timers_loop env now fuel l n = some (l, n) := by
  rw [hloop_process_timers_loop]
  simp only [h]

theorem chain_congr {mem mem' : Nat → Option Hevent} {head : Option Nat} {xs : List Nat}
    (h : Chain mem head xs) (hm : ∀ a ∈ xs, mem' a = mem a) : Chain mem' head xs := by
  induction h with
  | nil => exact Chain.nil
  | cons he _ ih =>
    refine Chain.cons ((hm _ (List.mem_cons_self _ _)).trans he) (ih ?_)
    intro b hb
    exact hm b (List.mem_cons_of_mem _ hb)

theorem lane_obs_congr {mem mem' : Nat → Option Hevent} {xs : List Nat}
    (hm : ∀ a ∈ xs, mem' a = mem a) : lane_obs mem' xs = lane_obs mem xs := by
  induction xs with
  | nil => rfl
  | cons a xs ih =>
    simp only [lane_obs, List.flatMap_cons] at ih ⊢
    rw [ih (fun b hb => hm b (List.mem_cons_of_mem _ hb))]
    simp only [handle_obs, hm a (List.mem_cons_self _ _)]

theorem lane_ncbs_congr {mem mem' : Nat → Option Hevent} {xs : List Nat}
    (hm : ∀ a ∈ xs, mem' a = mem a) : lane_ncbs mem' xs = lane_ncbs mem xs := by
  induction xs with
  | nil => rfl
  | cons a xs ih =>
    simp only [lane_ncbs, List.map_cons, List.sum_cons] at ih ⊢
    rw [ih (fun b hb => hm b (List.mem_cons_of_mem _ hb))]
    simp only [handle_ncbs, hm a (List.mem_cons_self _ _)]

/-- One node of the lane walk, with callbacks that leave the loop alone. -/
theorem walk_quiet_step (fuel : Nat) (l : Loop) (a n : Nat) (e : Hevent)
    (he : l.mem a = some e) :
    hloop_process_pendings_walk Env.quiet (fuel + 1) l (some a) n =
      hloop_process_pendings_walk Env.quiet fuel
        { l with
          mem := Function.update l.mem a (dispatched (l.mem a))
          trace := l.trace ++ handle_obs l.mem a }
        e.pending_next
        (n + handle_ncbs l.mem a) := by
  rw [hloop_process_pendings_walk]
  simp only [he, handle_obs, handle_ncbs, dispatched]
  cases hcb : e.cb <;> cases hp : e.pending <;> cases hd : e.destroy <;>
    simp [he, hcb, hp, hd, Env.quiet, Loop.emit, Loop.upd, Loop.free, dispatch_pending,
      unlink_pending]

/-- The walk of one lane, with callbacks that leave the loop alone: every node
of the chain is dispatched, in chain order. -/
theorem walk_quiet (fuel : Nat) :
    ∀ (xs : List Nat) (l : Loop) (head : Option Nat) (n : Nat),
      Chain l.mem head xs → xs.Nodup → xs.length ≤ fuel →
      ∃ l', hloop_process_pendings_walk Env.quiet fuel l head n
          = some (l', n + lane_ncbs l.mem xs) ∧
        l'.trace = l.trace ++ lane_obs l.mem xs ∧
        (∀ a, a ∉ xs → l'.mem a = l.mem a) ∧
        (∀ a ∈ xs, l'.mem a = dispatched (l.mem a)) ∧
        l'.pendings = l.pendings ∧ l'.npendings = l.npendings ∧ l'.timers = l.timers := by
  induction fuel with
  | zero =>
    intro xs l head n hc _ hlen
    have : xs = [] := List.length_eq_zero.mp (Nat.le_zero.mp hlen)
    subst this
    cases hc
    exact ⟨l, rfl, by simp [lane_obs], fun _ _ => rfl, by simp, rfl, rfl, rfl⟩
  | succ fuel ih =>
    intro xs l head n hc hnd hlen
    cases hc with
    | nil =>
      exact ⟨l, by simp [hloop_process_pendings_walk, lane_ncbs], by simp [lane_obs],
        fun _ _ => rfl, by simp, rfl, rfl, rfl⟩
    | @cons a e xs he htail =>
      have hax : a ∉ xs := (List.nodup_cons.mp hnd).1
      have hne : ∀ b ∈ xs, b ≠ a := fun b hb h => hax (h ▸ hb)
      rw [walk_quiet_step fuel l a n e he]
      obtain ⟨l2, hl2⟩ : ∃ l2 : Loop, l2 = { l with
          mem := Function.update l.mem a (dispatched (l.mem a))
          trace := l.trace ++ handle_obs l.mem a } := ⟨_, rfl⟩
      rw [← hl2]
      have hoff : ∀ b ∈ xs, l2.mem b = l.mem b := fun b hb => by
        rw [hl2]; exact Function.update_noteq (hne b hb) _ _
      have hc2 : Chain l2.mem e.pending_next xs := chain_congr htail hoff
      obtain ⟨l', h1, h2, h3, h4, h5, h6, h7⟩ := ih xs l2 e.pending_next
        (n + handle_ncbs l.mem a) hc2 (List.nodup_cons.mp hnd).2 (by simpa using hlen)
      refine ⟨l', ?_, ?_, ?_, ?_, ?_, ?_, ?_⟩
      · rw [h1, lane_ncbs_congr hoff]
        simp only [lane_ncbs, List.map_cons, List.sum_cons, Nat.add_assoc]
      · rw [h2, lane_obs_congr hoff, hl2]
        simp only [lane_obs, List.flatMap_cons, List.append_assoc]
      · intro b hb
        rw [h3 b (fun h => hb (List.mem_cons_of_mem _ h)), hl2]
        exact Function.update_noteq (fun h : b = a => hb (h ▸ List.mem_cons_self _ _)) _ _
      · intro b hb
        rcases List.mem_cons.mp hb with rfl | hb'
        · rw [h3 b hax, hl2]
          simp
        · rw [h4 b hb', hoff b hb']
      · rw [h5, hl2]
      · rw [h6, hl2]
      · rw [h7, hl2]

/-- The lanes `i - 1`, ..., `0`, with callbacks that leave the loop alone: the
lanes are drained from the highest index down. -/
theorem lanes_quiet (fuel : Nat) (q : Nat → List Nat) :
    ∀ (i : Nat) (l : Loop) (n : Nat),
      (∀ j, j < i → Chain l.mem (l.pendings j) (q j)) →
      (∀ j, j < i → (q j).Nodup) →
      (∀ j k, j < i → k < i → j ≠ k → ∀ a ∈ q j, a ∉ q k) →
      (∀ j, j < i → (q j).length ≤ fuel) →
      ∃ l', hloop_process_pendings_lanes Env.quiet fuel i l n
          = some (l', n + ((List.range i).map (fun j => lane_ncbs l.mem (q j))).sum) ∧
        l'.trace = l.trace ++ (List.range i).reverse.flatMap (fun j => lane_obs l.mem (q j)) ∧
        (∀ a, (∀ j, j < i → a ∉ q j) → l'.mem a = l.mem a) ∧
        (∀ j, j < i → ∀ a ∈ q j, l'.mem a = dispatched (l.mem a)) ∧
        (∀ j, j < i → l'.pendings j = none) ∧
        (∀ j, i ≤ j → l'.pendings j = l.pendings j) ∧
        l'.npendings = l.npendings ∧ l'.timers = l.timers := by
  intro i
  induction i with
  | zero =>
    intro l n _ _ _ _
    exact ⟨l, by simp [hloop_process_pendings_lanes], by simp, fun _ _ => rfl,
      fun j hj => absurd hj (Nat.not_lt_zero _), fun j hj => absurd hj (Nat.not_lt_zero _),
      fun _ _ => rfl, rfl, rfl⟩
  | succ i ih =>
    intro l n hch hnd hdis hlen
    obtain ⟨l1, w1, w2, w3, w4, w5, w6, w7⟩ := walk_quiet fuel (q i) l (l.pendings i) n
      (hch i (Nat.lt_succ_self i)) (hnd i (Nat.lt_succ_self i)) (hlen i (Nat.lt_succ_self i))
    have hoff : ∀ j, j < i → ∀ a ∈ q j, l1.mem a = l.mem a := fun j hj a ha =>
      w3 a (hdis j i (Nat.lt_succ_of_lt hj) (Nat.lt_succ_self i) (Nat.ne_of_lt hj) a ha)
    obtain ⟨l', g1, g2, g3, g4, g5, g6, g7, g8⟩ := ih
      { l1 with pendings := Function.update l1.pendings i none }
      (n + lane_ncbs l.mem (q i))
      (fun j hj => by
        have := @chain_congr l.mem l1.mem _ _ (hch j (Nat.lt_succ_of_lt hj)) (hoff j hj)
        simpa [w5, Function.update_noteq (Nat.ne_of_lt hj)] using this)
      (fun j hj => hnd j (Nat.lt_succ_of_lt hj))
      (fun j k hj hk => hdis j k (Nat.lt_succ_of_lt hj) (Nat.lt_succ_of_lt hk))
      (fun j hj => hlen j (Nat.lt_succ_of_lt hj))
    have hobs : ∀ j, j < i → lane_obs l1.mem (q j) = lane_obs l.mem (q j) :=
      fun j hj => lane_obs_congr (hoff j hj)
    have hn : ∀ j, j < i → lane_ncbs l1.mem (q j) = lane_ncbs l.mem (q j) :=
      fun j hj => lane_ncbs_congr (hoff j hj)
    refine ⟨l', ?_, ?_, ?_, ?_, ?_, ?_, g7.trans w6, g8.trans w7⟩
    · rw [hloop_process_pendings_lanes, w1]
      simp only
      rw [g1, List.range_succ, List.map_append, List.sum_append]
      simp only [List.map_cons, List.map_nil, List.sum_cons, List.sum_nil, Nat.add_zero]
      have : (List.range i).map (fun j => lane_ncbs l1.mem (q j))
          = (List.range i).map (fun j => lane_ncbs l.mem (q j)) :=
        List.map_congr_left (fun j hj => hn j (List.mem_range.mp hj))
      simp only at this
      rw [this]
      congr 2
      omega
    · rw [g2]
      simp only
      rw [w2, List.range_succ, List.reverse_append, List.reverse_singleton, List.singleton_append,
        List.flatMap_cons, List.append_assoc]
      congr 2
      apply List.flatMap_congr
      intro j hj
      exact hobs j (List.mem_range.mp (List.mem_reverse.mp hj))
    · intro a ha
      rw [g3 a (fun j hj => ha j (Nat.lt_succ_of_lt hj))]
      exact w3 a (ha i (Nat.lt_succ_self i))
    · intro j hj a ha
      rcases Nat.lt_succ_iff_lt_or_eq.mp hj with hlt | rfl
      · rw [g4 j hlt a ha]
        simp only
        rw [hoff j hlt a ha]
      · rw [g3 a (fun k hk => hdis j k (Nat.lt_succ_self j) (Nat.lt_succ_of_lt hk)
          (Nat.ne_of_gt hk) a ha)]
        exact w4 a ha
    · intro j hj
      rcases Nat.lt_succ_iff_lt_or_eq.mp hj with hlt | rfl
      · exact g5 j hlt
      · rw [g6 j (Nat.le_refl j)]
        simp
    · intro j hj
      rw [g6 j (Nat.le_of_succ_le hj)]
      simp only
      rw [Function.update_noteq (Nat.ne_of_gt hj), w5]

theorem pushed_lane_mem {mem : Nat → Option Hevent} {hs : List Nat} {i a : Nat}
    (h : a ∈ pushed_lane mem hs i) : a ∈ hs ∧ lane_of mem a = some i := by
  simpa [pushed_lane] using h

theorem pushed_lane_append (mem : Nat → Option Hevent) (hs : List Nat) (a i : Nat) :
    pushed_lane mem (hs ++ [a]) i
      = if lane_of mem a = some i then a :: pushed_lane mem hs i else pushed_lane mem hs i := by
  simp [pushed_lane, List.filter_cons]

theorem Pushed.init (l0 : Loop) (h : ∀ i, l0.pendings i = none) (hnp : l0.npendings = 0) :
    Pushed l0 l0 [] :=
  ⟨fun i => by rw [h i]; exact Chain.nil, fun a ha => absurd ha (List.not_mem_nil a),
    fun _ _ => rfl, rfl, by simp [hnp], rfl⟩

/-- `EVENT_PENDING` on a live handle that is not pending. -/
theorem EVENT_PENDING_eq (l : Loop) (a : Nat) (e : Hevent) (he : l.mem a = some e)
    (hp : e.pending = false) :
    EVENT_PENDING l a = { l with
      mem := Function.update l.mem a (some { e with
        pending := true, pending_next := l.pendings (HEVENT_PRIORITY_INDEX e.priority) })
      npendings := inc32 l.npendings
      pendings := Function.update l.pendings (HEVENT_PRIORITY_INDEX e.priority) (some a) } := by
  simp [EVENT_PENDING, he, hp, Loop.upd]

theorem Pushed.push {l0 l : Loop} {done : List Nat} (h : Pushed l0 l done) (a : Nat)
    (e0 : Hevent) (ha : a ∉ done) (he : l0.mem a = some e0) (hp : e0.pending = false) :
    Pushed l0 (EVENT_PENDING l a) (done ++ [a]) := by
  have he' : l.mem a = some e0 := (h.off a ha).trans he
  rw [EVENT_PENDING_eq l a e0 he' hp]
  have hlane : lane_of l0.mem a = some (HEVENT_PRIORITY_INDEX e0.priority) := by
    simp [lane_of, he]
  have hoff : ∀ i, ∀ b ∈ pushed_lane l0.mem done i,
      Function.update l.mem a (some { e0 with
        pending := true, pending_next := l.pendings (HEVENT_PRIORITY_INDEX e0.priority) }) b
      = l.mem b := fun i b hb =>
    Function.update_noteq (fun hba : b = a => ha (hba ▸ (pushed_lane_mem hb).1)) _ _
  refine ⟨?_, ?_, ?_, h.trace, ?_, h.timers⟩
  · intro i
    rw [pushed_lane_append, hlane]
    by_cases hi : HEVENT_PRIORITY_INDEX e0.priority = i
    · subst hi
      simp only [if_true, Function.update_same]
      exact Chain.cons (Function.update_same _ _ _) (chain_congr (h.chain _) (hoff _))
    · have hi' : ¬ (some (HEVENT_PRIORITY_INDEX e0.priority) = some i) := fun hh =>
        hi (Option.some.inj hh)
      simp only [hi', if_false]
      rw [Function.update_noteq (Ne.symm hi)]
      exact chain_congr (h.chain i) (hoff i)
  · intro b hb
    rcases List.mem_append.mp hb with hb | hb
    · obtain ⟨eb, h1, nx, h2⟩ := h.inq b hb
      refine ⟨eb, h1, nx, ?_⟩
      simp only
      rw [Function.update_noteq (fun hba : b = a => ha (hba ▸ hb))]
      exact h2
    · have : b = a := by simpa using hb
      subst this
      exact ⟨e0, he, _, Function.update_same _ _ _⟩
  · intro b hb
    have hba : b ≠ a := fun hh => hb (by simp [hh])
    have hbd : b ∉ done := fun hh => hb (List.mem_append_left _ hh)
    simp only
    rw [Function.update_noteq hba]
    exact h.off b hbd
  · simp only [inc32, h.np, List.length_append, List.length_singleton]
    omega

theorem Pushed.foldl {l0 : Loop} :
    ∀ (rest : List Nat) (l : Loop) (done : List Nat), Pushed l0 l done →
      (∀ a ∈ rest, a ∉ done) → rest.Nodup →
      (∀ a ∈ rest, ∃ e0, l0.mem a = some e0 ∧ e0.pending = false) →
      Pushed l0 (rest.foldl EVENT_PENDING l) (done ++ rest) := by
  intro rest
  induction rest with
  | nil => intro l done h _ _ _; simpa using h
  | cons a rest ih =>
    intro l done h hnd hnodup hlive
    obtain ⟨e0, he, hp⟩ := hlive a (List.mem_cons_self _ _)
    have h1 := h.push a e0 (hnd a (List.mem_cons_self _ _)) he hp
    have := ih (EVENT_PENDING l a) (done ++ [a]) h1
      (fun b hb hbd => by
        rcases List.mem_append.mp hbd with hbd | hbd
        · exact hnd b (List.mem_cons_of_mem _ hb) hbd
        · have : b = a := by simpa using hbd
          subst this
          exact (List.nodup_cons.mp hnodup).1 hb)
      (List.nodup_cons.mp hnodup).2
      (fun b hb => hlive b (List.mem_cons_of_mem _ hb))
    simpa using this

theorem Pushed.wf {l0 l : Loop} {hs : List Nat} (h : Pushed l0 l hs) (hnd : hs.Nodup) :
    PendingWF l (pushed_lane l0.mem hs) :=
  ⟨h.chain, fun _ => (List.nodup_reverse.mpr hnd).filter _,
    fun _ _ hij _ hi hj => hij (Option.some.inj
      ((pushed_lane_mem hi).2.symm.trans (pushed_lane_mem hj).2))⟩

/-- `hloop_process_pendings` on a well-formed, non-empty queue, with callbacks
that leave the loop alone. -/
theorem pendings_quiet (fuel : Nat) (l : Loop) (q : Nat → List Nat) (hwf : PendingWF l q)
    (hnp : l.npendings ≠ 0) (hlen : ∀ j, j < 5 → (q j).length ≤ fuel) :
    ∃ l', hloop_process_pendings Env.quiet fuel l
        = some (l', ((List.range 5).map (fun j => lane_ncbs l.mem (q j))).sum) ∧
      l'.trace = l.trace ++ (List.range 5).reverse.flatMap (fun j => lane_obs l.mem (q j)) ∧
      (∀ a, (∀ j, j < 5 → a ∉ q j) → l'.mem a = l.mem a) ∧
      (∀ j, j < 5 → ∀ a ∈ q j, l'.mem a = dispatched (l.mem a)) ∧
      (∀ j, j < 5 → l'.pendings j = none) ∧
      l'.npendings = 0 ∧ l'.timers = l.timers := by
  obtain ⟨l', g1, g2, g3, g4, g5, _, _, g8⟩ := lanes_quiet fuel q 5 l 0
    (fun j _ => hwf.chain j) (fun j _ => hwf.nodup j)
    (fun j k _ _ hjk => hwf.disjoint j k hjk) hlen
  refine ⟨{ l' with npendings := 0 }, ?_, g2, g3, g4, g5, rfl, g8⟩
  unfold hloop_process_pendings
  simp only [hnp, if_false, HEVENT_PRIORITY_SIZE, g1, Nat.zero_add]

theorem handle_obs_mem {mem : Nat → Option Hevent} {a : Nat} {x : Obs}
    (h : x ∈ handle_obs mem a) : (∃ c, x = Obs.cb a c) ∨ x = Obs.free a := by
  unfold handle_obs at h
  cases hm : mem a with
  | none => simp [hm] at h
  | some e =>
    simp only [hm, List.mem_append] at h
    rcases h with h | h
    · cases hc : e.cb with
      | none => simp [hc] at h
      | some c =>
        simp only [hc] at h
        split_ifs at h
        · exact Or.inl ⟨c, by simpa using h⟩
        · simp at h
    · split_ifs at h
      · exact Or.inr (by simpa using h)
      · simp at h

theorem handle_obs_nodup (mem : Nat → Option Hevent) (a : Nat) : (handle_obs mem a).Nodup := by
  unfold handle_obs
  cases mem a with
  | none => simp
  | some e =>
    cases hc : e.cb <;> cases hp : e.pending <;> cases hd : e.destroy <;> simp [hc, hp, hd]

theorem handle_obs_disjoint (mem : Nat → Option Hevent) {a b : Nat} (hab : a ≠ b) :
    List.Disjoint (handle_obs mem a) (handle_obs mem b) := by
  intro x hxa hxb
  rcases handle_obs_mem hxa with ⟨c, rfl⟩ | rfl <;>
    rcases handle_obs_mem hxb with ⟨c', h⟩ | h <;> simp at h
  · exact hab h.1
  · exact hab h

theorem lane_obs_mem {mem : Nat → Option Hevent} {xs : List Nat} {x : Obs}
    (h : x ∈ lane_obs mem xs) : ∃ a ∈ xs, x ∈ handle_obs mem a := by
  simpa [lane_obs, List.mem_flatMap] using h

theorem lane_obs_nodup (mem : Nat → Option Hevent) {xs : List Nat} (hnd : xs.Nodup) :
    (lane_obs mem xs).Nodup :=
  List.nodup_flatMap.mpr ⟨fun a _ => handle_obs_nodup mem a,
    hnd.pairwise_of_forall_ne (fun _ _ _ _ hab => handle_obs_disjoint mem hab)⟩

theorem lanes_obs_nodup (mem : Nat → Option Hevent) (q : Nat → List Nat) {idx : List Nat}
    (hidx : idx.Nodup) (hnd : ∀ i, (q i).Nodup)
    (hdis : ∀ i j, i ≠ j → ∀ a ∈ q i, a ∉ q j) :
    (idx.flatMap (fun i => lane_obs mem (q i))).Nodup := by
  refine List.nodup_flatMap.mpr ⟨fun i _ => lane_obs_nodup mem (hnd i),
    hidx.pairwise_of_forall_ne (fun i _ j _ hij => ?_)⟩
  intro x hxi hxj
  obtain ⟨a, ha, hxa⟩ := lane_obs_mem hxi
  obtain ⟨b, hb, hxb⟩ := lane_obs_mem hxj
  by_cases hab : a = b
  · subst hab
    exact hdis i j hij a ha hb
  · exact handle_obs_disjoint mem hab hxa hxb

/-! ## C3: order of dispatch -/

theorem sublist_flatMap {α β : Type} (f : α → List β) {l1 l2 : List α} (h : List.Sublist l1 l2) :
    List.Sublist (l1.flatMap f) (l2.flatMap f) := by
  induction h with
  | slnil => simp
  | cons a _ ih =>
    simp only [List.flatMap_cons]
    exact ih.trans (List.sublist_append_right _ _)
  | cons₂ a _ ih =>
    simp only [List.flatMap_cons]
    exact List.Sublist.append (List.Sublist.refl _) ih

theorem pair_sublist_lanes (i j : Nat) (hi : i < 5) (hj : j < i) :
    List.Sublist [i, j] ((List.range 5).reverse) := by
  interval_cases i <;> interval_cases j <;> decide

theorem single_sublist_lanes (i : Nat) (hi : i < 5) :
    List.Sublist [i] ((List.range 5).reverse) := by
  interval_cases i <;> decide

theorem priority_index_lt (p : Priority) : HEVENT_PRIORITY_INDEX p < 5 := by
  cases p <;> decide

theorem Pushed.cb_obs {l0 l : Loop} {hs : List Nat} (h : Pushed l0 l hs) {a c : Nat}
    {e : Hevent} (ha : a ∈ hs) (he : l0.mem a = some e) (hc : e.cb = some c) :
    List.Sublist [Obs.cb a c] (handle_obs l.mem a) := by
  obtain ⟨e0, h1, nx, h2⟩ := h.inq a ha
  have : e0 = e := Option.some.inj (h1.symm.trans he)
  subst this
  simp [handle_obs, h2, hc]

theorem Pushed.mem_lane {l0 l : Loop} {hs : List Nat} (_h : Pushed l0 l hs) {a : Nat}
    {e : Hevent} (ha : a ∈ hs) (he : l0.mem a = some e) :
    a ∈ pushed_lane l0.mem hs (HEVENT_PRIORITY_INDEX e.priority) := by
  simp [pushed_lane, lane_of, he, ha]

/-- C3: after the handles of `hs` (live, distinct, not yet pending) were made
pending in the order of the list on a loop with an empty queue,
`hloop_process_pendings`, run with callbacks that leave the loop alone,
returns, and what it does to the outside world is the list `t`: the lanes
from index 4 down to 0, each lane latest-pushed first. `t` has no repetition,
and for two handles `a`, `b` of `hs` with callbacks the invocation of `a`'s
callback precedes that of `b`'s whenever `a`'s lane index is higher, or the
lanes are equal and `a` was made pending after `b`. -/
theorem C3_dispatch_order (l0 : Loop) (hs : List Nat) (fuel : Nat)
    (hlanes : ∀ i, l0.pendings i = none) (hnp : l0.npendings = 0)
    (hnd : hs.Nodup) (hlive : ∀ a ∈ hs, ∃ e, l0.mem a = some e ∧ e.pending = false)
    (hlen : hs.length < 2 ^ 32) (hfuel : hs.length ≤ fuel) :
    ∃ lf ncbs t,
      hloop_process_pendings Env.quiet fuel (hs.foldl EVENT_PENDING l0) = some (lf, ncbs) ∧
      lf.trace = l0.trace ++ t ∧
      t = (List.range 5).reverse.flatMap (fun i =>
        lane_obs (hs.foldl EVENT_PENDING l0).mem (pushed_lane l0.mem hs i)) ∧
      t.Nodup ∧
      ∀ a b ea eb ca cb, a ∈ hs → b ∈ hs → l0.mem a = some ea → l0.mem b = some eb →
        ea.cb = some ca → eb.cb = some cb →
        (HEVENT_PRIORITY_INDEX eb.priority < HEVENT_PRIORITY_INDEX ea.priority ∨
          (HEVENT_PRIORITY_INDEX ea.priority = HEVENT_PRIORITY_INDEX eb.priority ∧
            List.Sublist [b, a] hs)) →
        List.Sublist [Obs.cb a ca, Obs.cb b cb] t := by
  have hP : Pushed l0 (hs.foldl EVENT_PENDING l0) hs := by
    simpa using Pushed.foldl hs l0 [] (Pushed.init l0 hlanes hnp) (fun _ _ h => by simp at h)
      hnd hlive
  -- the order among the lanes' observations
  have hord : ∀ a b ea eb ca cb, a ∈ hs → b ∈ hs → l0.mem a = some ea → l0.mem b = some eb →
        ea.cb = some ca → eb.cb = some cb →
        (HEVENT_PRIORITY_INDEX eb.priority < HEVENT_PRIORITY_INDEX ea.priority ∨
          (HEVENT_PRIORITY_INDEX ea.priority = HEVENT_PRIORITY_INDEX eb.priority ∧
            List.Sublist [b, a] hs)) →
        List.Sublist [Obs.cb a ca, Obs.cb b cb] ((List.range 5).reverse.flatMap (fun i =>
          lane_obs (hs.foldl EVENT_PENDING l0).mem (pushed_lane l0.mem hs i))) := by
    intro a b ea eb ca cb ha hb hea heb hca hcb hcase
    have oa := hP.cb_obs ha hea hca
    have ob := hP.cb_obs hb heb hcb
    have la : List.Sublist [Obs.cb a ca] (lane_obs (hs.foldl EVENT_PENDING l0).mem
        (pushed_lane l0.mem hs (HEVENT_PRIORITY_INDEX ea.priority))) := by
      have := sublist_flatMap (handle_obs (hs.foldl EVENT_PENDING l0).mem)
        (List.singleton_sublist.mpr (hP.mem_lane ha hea))
      simp only [List.flatMap_cons, List.flatMap_nil, List.append_nil] at this
      exact oa.trans this
    have lb : List.Sublist [Obs.cb b cb] (lane_obs (hs.foldl EVENT_PENDING l0).mem
        (pushed_lane l0.mem hs (HEVENT_PRIORITY_INDEX eb.priority))) := by
      have := sublist_flatMap (handle_obs (hs.foldl EVENT_PENDING l0).mem)
        (List.singleton_sublist.mpr (hP.mem_lane hb heb))
      simp only [List.flatMap_cons, List.flatMap_nil, List.append_nil] at this
      exact ob.trans this
    rcases hcase with hlt | ⟨heq, hsub⟩
    · have := sublist_flatMap (fun i =>
          lane_obs (hs.foldl EVENT_PENDING l0).mem (pushed_lane l0.mem hs i))
        (pair_sublist_lanes _ _ (priority_index_lt ea.priority) hlt)
      simp only [List.flatMap_cons, List.flatMap_nil, List.append_nil] at this
      exact (List.Sublist.append la lb).trans this
    · have h1 : List.Sublist [a, b] (hs.reverse) := by simpa using hsub.reverse
      have h2 : List.Sublist [a, b] (pushed_lane l0.mem hs (HEVENT_PRIORITY_INDEX ea.priority)) := by
        have := h1.filter (fun x => lane_of l0.mem x = some (HEVENT_PRIORITY_INDEX ea.priority))
        simpa [pushed_lane, lane_of, hea, heb, heq] using this
      have h3 := sublist_flatMap (handle_obs (hs.foldl EVENT_PENDING l0).mem) h2
      simp only [List.flatMap_cons, List.flatMap_nil, List.append_nil] at h3
      have h4 := sublist_flatMap (fun i =>
          lane_obs (hs.foldl EVENT_PENDING l0).mem (pushed_lane l0.mem hs i))
        (single_sublist_lanes _ (priority_index_lt ea.priority))
      simp only [List.flatMap_cons, List.flatMap_nil, List.append_nil] at h4
      exact ((List.Sublist.append oa ob).trans h3).trans h4
  have hnodup : ((List.range 5).reverse.flatMap (fun i =>
      lane_obs (hs.foldl EVENT_PENDING l0).mem (pushed_lane l0.mem hs i))).Nodup :=
    lanes_obs_nodup _ _ (List.nodup_reverse.mpr (List.nodup_range 5)) (hP.wf hnd).nodup
      (hP.wf hnd).disjoint
  by_cases hempty : hs = []
  · subst hempty
    refine ⟨l0, 0, _, ?_, ?_, rfl, hnodup, hord⟩
    · simp [hloop_process_pendings, hnp]
    · simp [lane_obs, pushed_lane]
  · have hnp1 : (hs.foldl EVENT_PENDING l0).npendings ≠ 0 := by
      rw [hP.np, hnp, Nat.zero_add, Nat.mod_eq_of_lt hlen]
      exact fun h => hempty (List.length_eq_zero.mp h)
    obtain ⟨lf, g1, g2, _⟩ := pendings_quiet fuel _ _ (hP.wf hnd) hnp1
      (fun j _ => le_trans (by
        unfold pushed_lane
        exact (List.length_filter_le _ _).trans (by simp)) hfuel)
    exact ⟨lf, _, _, g1, by rw [g2, hP.trace], rfl, hnodup, hord⟩

/-- C3, instance: the low-priority handle 1 is made pending before the
high-priority handle 0. -/
theorem C3_dispatch_order_witness :
    ∃ lf ncbs t,
      hloop_process_pendings Env.quiet 2 ([1, 0].foldl EVENT_PENDING C3_example_loop)
        = some (lf, ncbs) ∧
      lf.trace = C3_example_loop.trace ++ t ∧
      t = (List.range 5).reverse.flatMap (fun i =>
        lane_obs ([1, 0].foldl EVENT_PENDING C3_example_loop).mem
          (pushed_lane C3_example_loop.mem [1, 0] i)) ∧
      t.Nodup ∧
      ∀ a b ea eb ca cb, a ∈ [1, 0] → b ∈ [1, 0] → C3_example_loop.mem a = some ea →
        C3_example_loop.mem b = some eb → ea.cb = some ca → eb.cb = some cb →
        (HEVENT_PRIORITY_INDEX eb.priority < HEVENT_PRIORITY_INDEX ea.priority ∨
          (HEVENT_PRIORITY_INDEX ea.priority = HEVENT_PRIORITY_INDEX eb.priority ∧
            List.Sublist [b, a] [1, 0])) →
        List.Sublist [Obs.cb a ca, Obs.cb b cb] t :=
  C3_dispatch_order C3_example_loop [1, 0] 2 (fun _ => rfl) rfl (by decide)
    (fun a ha => by
      rcases List.mem_cons.mp ha with rfl | ha
      · exact ⟨_, rfl, rfl⟩
      · rcases List.mem_cons.mp ha with rfl | ha
        · exact ⟨_, rfl, rfl⟩
        · exact absurd ha (List.not_mem_nil a))
    (by decide) (by decide)

/-! ## C4: heap order -/

/-- C4 fails on the code. Three timers A, B, C of 100, 200 and 300 ms are added
at time 0 (addresses 0, 1, 2), B is deleted, and a 1 ms timer D (address 3)
is added at 60 µs. `htimer_del` has written `now` into the deadline of B
without moving it, D is attached below B and does not rise past it: the heap
is A, B, C, D with deadlines 100000, 0, 300000, 1060, where D is active and
earlier than its ancestor, the active root A. A tick at 2000 µs, when D has
expired, dispatches nothing. -/
theorem C4_heap_order_broken :
    heap_scenario.map (fun l =>
      (l.timers, l.timers.map l.key, l.timers.map l.timer_active, heap_ordered_active l))
      = some ([0, 1, 2, 3], [100000, 0, 300000, 1060], [true, false, true, true], false) ∧
    (heap_scenario.bind (fun l => timer_tick Env.quiet 10 l 2000)).map
      (fun l => (l.trace, l.timers)) = some ([], [0, 1, 2, 3]) := by
  decide!

/-! ## C5: the counter invariant -/

/-- The four counters of the invariant are the same in both loops. -/
theorem counters_ok_congr {l l' : Loop} (h1 : l'.nactives = l.nactives) (h2 : l'.nios = l.nios)
    (h3 : l'.ntimers = l.ntimers) (h4 : l'.nidles = l.nidles) :
    counters_ok l' ↔ counters_ok l := by
  unfold counters_ok
  rw [h1, h2, h3, h4]

theorem upd_counters (l : Loop) (a : Nat) (f : Hevent → Hevent) :
    counters_ok (l.upd a f) ↔ counters_ok l :=
  counters_ok_congr rfl rfl rfl rfl

theorem emit_counters (l : Loop) (o : Obs) : counters_ok (l.emit o) ↔ counters_ok l :=
  counters_ok_congr rfl rfl rfl rfl

theorem free_counters (l : Loop) (a : Nat) : counters_ok (l.free a) ↔ counters_ok l :=
  counters_ok_congr rfl rfl rfl rfl

theorem update_time_counters (l : Loop) (now : Nat) :
    counters_ok (hloop_update_time l now) ↔ counters_ok l :=
  counters_ok_congr rfl rfl rfl rfl

theorem EVENT_PENDING_counters (l : Loop) (a : Nat) :
    counters_ok (EVENT_PENDING l a) ↔ counters_ok l := by
  unfold EVENT_PENDING
  cases l.mem a with
  | none => rfl
  | some ev =>
    cases hp : ev.pending with
    | true => simp [hp]
    | false => simp only [hp]; exact counters_ok_congr rfl rfl rfl rfl

theorem hloop_init_counters (now : Nat) : counters_ok (hloop_init now) := by
  simp [counters_ok, hloop_init]

theorem hidle_add_counters (l : Loop) (cb : Option Nat) (r : Nat) (h : counters_ok l) :
    counters_ok (hidle_add l cb r).1 := by
  unfold counters_ok at *
  simp [hidle_add, Loop.alloc, Loop.upd, EVENT_ADD, EVENT_ACTIVE, inc32]
  omega

theorem hidle_del_counters (l : Loop) (idle : Nat) (h : counters_ok l) :
    counters_ok (hidle_del l idle) := by
  unfold hidle_del
  cases hm : l.mem idle with
  | none => simpa using h
  | some ev =>
    cases ha : ev.active with
    | false => simpa [ha] using h
    | true =>
      unfold counters_ok at *
      simp [ha, EVENT_DEL, EVENT_INACTIVE, Loop.upd, hm, inc32, dec32]
      omega

theorem htimer_add_counters (l : Loop) (now : Nat) (cb : Option Nat) (timeout r : Nat)
    (h : counters_ok l) (l' : Loop) (a : Nat)
    (hr : htimer_add l now cb timeout r = some (l', a)) : counters_ok l' := by
  unfold htimer_add at hr
  split_ifs at hr
  simp only [Option.some.injEq, Prod.mk.injEq] at hr
  rw [← hr.1]
  unfold counters_ok at *
  simp [Loop.alloc, Loop.upd, EVENT_ADD, EVENT_ACTIVE, inc32, hloop_update_time]
  omega

theorem htimer_add_period_counters (env : Env) (l : Loop) (cb : Option Nat)
    (minute hour day week month : Int) (r : Nat)
    (h : counters_ok l) (l' : Loop) (a : Nat)
    (hr : htimer_add_period env l cb minute hour day week month r = some (l', a)) :
    counters_ok l' := by
  simp only [htimer_add_period] at hr
  split_ifs at hr
  simp only [Option.some.injEq, Prod.mk.injEq] at hr
  rw [← hr.1]
  unfold counters_ok at *
  simp [Loop.alloc, Loop.upd, EVENT_ADD, EVENT_ACTIVE, inc32]
  omega

theorem htimer_del_counters (l : Loop) (timer : Nat) (h : counters_ok l) :
    counters_ok (htimer_del l timer) := by
  unfold htimer_del
  cases hm : l.mem timer with
  | none => simpa using h
  | some ev =>
    cases ha : ev.active with
    | false => simpa [ha] using h
    | true =>
      unfold counters_ok at *
      simp [ha, EVENT_DEL, EVENT_INACTIVE, Loop.upd, hm, inc32, dec32]
      omega

theorem upd_upd (l : Loop) (a : Nat) (f g : Hevent → Hevent) :
    (l.upd a f).upd a g = l.upd a (fun e => g (f e)) := by
  simp [Loop.upd, Option.map_map, Function.comp_def]

theorem upd_none (l : Loop) (a : Nat) (f : Hevent → Hevent) (h : l.mem a = none) :
    l.upd a f = l := by
  have e : Function.update l.mem a none = l.mem := by
    conv_lhs => rw [← h]
    exact Function.update_eq_self a l.mem
  simp only [Loop.upd, h, Option.map_none', e]

/-- `hio_reset` touches nothing but the handle, and there only the fields
`io_type`, `localaddr`, `peeraddr` and `peeraddrlen`. -/
theorem hio_reset_eq (env : Env) (l : Loop) (io : Nat) :
    ∃ f : Hevent → Hevent,
      (∀ e, f e = { e with io_type := (f e).io_type, localaddr := (f e).localaddr,
                           peeraddr := (f e).peeraddr, peeraddrlen := (f e).peeraddrlen }) ∧
      hio_reset env l io = l.upd io f := by
  refine ⟨fun e =>
    if (fill_io_type_result env e).isSocket then
      { e with io_type := fill_io_type_result env e, localaddr := true, peeraddr := true,
               peeraddrlen := if e.peeraddr = false then 28 else e.peeraddrlen }
    else { e with io_type := fill_io_type_result env e }, ?_, ?_⟩
  · intro e
    by_cases h : (fill_io_type_result env e).isSocket = true <;> simp [h]
  · unfold hio_reset fill_io_type hio_socket_init
    cases hm : l.mem io with
    | none => simp [upd_none, hm]
    | some ev =>
      by_cases h : (fill_io_type_result env ev).isSocket = true
      · cases hl : ev.localaddr <;> cases hp : ev.peeraddr <;>
          simp [Loop.upd, hm, h, hl, hp]
      · simp [Loop.upd, hm, h]

theorem hio_reset_active (env : Env) (l : Loop) (io : Nat) :
    ∃ f : Hevent → Hevent, (∀ e, (f e).active = e.active) ∧ hio_reset env l io = l.upd io f := by
  obtain ⟨f, hf, h⟩ := hio_reset_eq env l io
  exact ⟨f, fun e => by rw [hf e], h⟩

theorem hio_add_counters (env : Env) (l : Loop) (io : Nat) (cb : Option Nat) (events : Nat)
    (h : counters_ok l) : counters_ok (hio_add env l io cb events) := by
  unfold hio_add
  cases hm : l.mem io with
  | none => simpa using h
  | some ev =>
    obtain ⟨f, hf, hr⟩ := hio_reset_active env l io
    simp only [upd_counters, emit_counters]
    cases ha : ev.active with
    | true =>
      simp only [Bool.not_true, Bool.false_eq_true, if_false]
      split_ifs
      · exact (upd_counters _ _ _).mpr h
      · exact h
    | false =>
      have hfa : (f ev).active = false := (hf ev).trans ha
      have key : counters_ok
          { EVENT_ADD (hio_reset env l io) io cb with
            nios := inc32 (EVENT_ADD (hio_reset env l io) io cb).nios } := by
        unfold counters_ok at *
        simp [hr, EVENT_ADD, EVENT_ACTIVE, Loop.upd, hm, hfa, inc32]
        omega
      simp only [Bool.not_false, if_true]
      split_ifs
      · exact (upd_counters _ _ _).mpr key
      · exact key

theorem hio_del_counters (l : Loop) (io : Nat) (events : Nat)
    (h : counters_ok l) : counters_ok (hio_del l io events) := by
  unfold hio_del
  cases hm : l.mem io with
  | none => simpa using h
  | some ev =>
    cases ha : ev.active with
    | false => simpa [ha] using h
    | true =>
      simp only [ha, Bool.not_true, Bool.false_eq_true, if_false]
      by_cases h0 : andNot32 ev.events events = 0
      · unfold counters_ok at *
        simp [Loop.upd, Loop.emit, hm, h0, EVENT_INACTIVE, hio_deinit, hio_deinit_state, ha, dec32]
        omega
      · unfold counters_ok at *
        simp [Loop.upd, Loop.emit, hm, h0]
        exact h

theorem hclose_counters (env : Env) (l : Loop) (io : Nat)
    (hcb : ∀ c a l, counters_ok l → counters_ok (env.cb c a l))
    (h : counters_ok l) : counters_ok (hclose env l io) := by
  unfold hclose
  cases hm : l.mem io with
  | none => simpa using h
  | some ev =>
    cases hc : ev.closed with
    | true => simpa [hc] using h
    | false =>
      simp only [hc, Bool.false_eq_true, if_false]
      apply hio_del_counters
      cases hcc : ev.close_cb with
      | none => simpa [Loop.upd, Loop.emit, hm, hcc] using h
      | some c =>
        simp only [Loop.upd, Loop.emit, hm, hcc, Function.update_same, Option.map_some']
        exact hcb _ _ _ h

theorem repeat_countdown_counters (l : Loop) (a : Nat) (h : counters_ok l) :
    counters_ok (repeat_countdown l a) := by
  unfold repeat_countdown
  split
  · exact h
  · split_ifs
    · exact (upd_counters _ _ _).mpr h
    · exact h

theorem htimer_del_if_done_counters (l : Loop) (a : Nat) (h : counters_ok l) :
    counters_ok (htimer_del_if_done l a) := by
  unfold htimer_del_if_done
  split
  · exact h
  · split_ifs
    · exact htimer_del_counters _ _ h
    · exact h

theorem hidle_del_if_done_counters (l : Loop) (a : Nat) (h : counters_ok l) :
    counters_ok (hidle_del_if_done l a) := by
  unfold hidle_del_if_done
  split
  · exact h
  · split_ifs
    · exact hidle_del_counters _ _ h
    · exact h

theorem timer_requeue_counters (env : Env) (l : Loop) (a : Nat) (h : counters_ok l) :
    counters_ok (timer_requeue env l a) := by
  unfold timer_requeue
  simp only
  split
  · exact h
  · split_ifs <;> exact h

theorem idle_unlink_counters (l : Loop) (a : Nat) (h : counters_ok l) :
    counters_ok (idle_unlink l a) := by
  unfold idle_unlink
  split
  · exact h
  · split_ifs
    · exact h
    · exact h

theorem timers_step_counters (env : Env) (l : Loop) (timer : Nat) (h : counters_ok l) :
    counters_ok (hloop_process_timers_step env l timer) :=
  timer_requeue_counters _ _ _ ((EVENT_PENDING_counters _ _).mpr
    (htimer_del_if_done_counters _ _ (repeat_countdown_counters _ _ h)))

theorem idles_step_counters (l : Loop) (idle : Nat) (h : counters_ok l) :
    counters_ok (hloop_process_idles_step l idle) :=
  idle_unlink_counters _ _ ((EVENT_PENDING_counters _ _).mpr
    (hidle_del_if_done_counters _ _ (repeat_countdown_counters _ _ h)))

theorem timers_loop_counters (env : Env) (now : Nat) :
    ∀ (fuel : Nat) (l : Loop) (n : Nat) (l' : Loop) (n' : Nat), counters_ok l →
      hloop_process_timers_loop env now fuel l n = some (l', n') → counters_ok l' := by
  intro fuel
  induction fuel with
  | zero =>
    intro l n l' n' h hr
    rw [hloop_process_timers_loop] at hr
    split at hr
    · simp only [Option.some.injEq, Prod.mk.injEq] at hr; rw [← hr.1]; exact h
    · split_ifs at hr
      simp only [Option.some.injEq, Prod.mk.injEq] at hr; rw [← hr.1]; exact h
  | succ fuel ih =>
    intro l n l' n' h hr
    rw [hloop_process_timers_loop] at hr
    split at hr
    · simp only [Option.some.injEq, Prod.mk.injEq] at hr; rw [← hr.1]; exact h
    · split_ifs at hr
      · simp only [Option.some.injEq, Prod.mk.injEq] at hr; rw [← hr.1]; exact h
      · exact ih _ _ _ _ (timers_step_counters env l _ h) hr

theorem foldl_counters {α : Type} (f : Loop → α → Loop)
    (hf : ∀ l x, counters_ok l → counters_ok (f l x)) :
    ∀ (xs : List α) (l : Loop), counters_ok l → counters_ok (xs.foldl f l) := by
  intro xs
  induction xs with
  | nil => intro l h; exact h
  | cons x xs ih => intro l h; exact ih _ (hf l x h)

theorem idles_counters (l : Loop) (h : counters_ok l) :
    counters_ok (hloop_process_idles l).1 :=
  foldl_counters _ idles_step_counters _ _ h

theorem poll_counters (l : Loop) (timeout : Int) (r : PollResult) (h : counters_ok l) :
    counters_ok (hloop_process_ios l timeout r).1 := by
  unfold hloop_process_ios iowatcher_poll_events
  cases r with
  | error code => exact (emit_counters _ _).mpr h
  | ready fds =>
    apply foldl_counters
    · intro l p hl
      split
      · exact (EVENT_PENDING_counters _ _).mpr ((upd_counters _ _ _).mpr hl)
      · exact hl
    · exact (emit_counters _ _).mpr h

theorem dispatch_pending_counters (env : Env) (l : Loop) (a n : Nat)
    (hcb : ∀ c a l, counters_ok l → counters_ok (env.cb c a l)) (h : counters_ok l) :
    counters_ok (dispatch_pending env l a n).1 := by
  unfold dispatch_pending
  split
  · exact h
  · split
    · split_ifs
      · exact hcb _ _ _ ((emit_counters _ _).mpr h)
      · exact h
    · exact h

theorem unlink_pending_counters (l : Loop) (a : Nat) (h : counters_ok l) :
    counters_ok (unlink_pending l a) := by
  unfold unlink_pending
  split
  · exact h
  · simp only
    split_ifs
    · exact (free_counters _ _).mpr ((upd_counters _ _ _).mpr h)
    · exact (upd_counters _ _ _).mpr h

theorem walk_counters (env : Env)
    (hcb : ∀ c a l, counters_ok l → counters_ok (env.cb c a l)) :
    ∀ (fuel : Nat) (l : Loop) (next : Option Nat) (n : Nat) (l' : Loop) (n' : Nat),
      counters_ok l → hloop_process_pendings_walk env fuel l next n = some (l', n') →
      counters_ok l' := by
  intro fuel
  induction fuel with
  | zero =>
    intro l next n l' n' h hr
    cases next with
    | none =>
      simp only [hloop_process_pendings_walk, Option.some.injEq, Prod.mk.injEq] at hr
      rw [← hr.1]; exact h
    | some a => simp [hloop_process_pendings_walk] at hr
  | succ fuel ih =>
    intro l next n l' n' h hr
    cases next with
    | none =>
      simp only [hloop_process_pendings_walk, Option.some.injEq, Prod.mk.injEq] at hr
      rw [← hr.1]; exact h
    | some a =>
      rw [hloop_process_pendings_walk] at hr
      split at hr
      · exact absurd hr (by simp)
      · simp only at hr
        split at hr
        · exact absurd hr (by simp)
        · exact ih _ _ _ _ _ (unlink_pending_counters _ _
            (dispatch_pending_counters env l a n hcb h)) hr

theorem lanes_counters (env : Env) (fuel : Nat)
    (hcb : ∀ c a l, counters_ok l → counters_ok (env.cb c a l)) :
    ∀ (i : Nat) (l : Loop) (n : Nat) (l' : Loop) (n' : Nat),
      counters_ok l → hloop_process_pendings_lanes env fuel i l n = some (l', n') →
      counters_ok l' := by
  intro i
  induction i with
  | zero =>
    intro l n l' n' h hr
    simp only [hloop_process_pendings_lanes, Option.some.injEq, Prod.mk.injEq] at hr
    rw [← hr.1]; exact h
  | succ i ih =>
    intro l n l' n' h hr
    rw [hloop_process_pendings_lanes] at hr
    split at hr
    · exact absurd hr (by simp)
    · rename_i l1 n1 hw
      have h1 : counters_ok l1 := walk_counters env hcb _ _ _ _ _ _ h hw
      exact ih { l1 with pendings := Function.update l1.pendings i none } _ _ _ h1 hr

theorem pendings_counters (env : Env) (fuel : Nat)
    (hcb : ∀ c a l, counters_ok l → counters_ok (env.cb c a l))
    (l : Loop) (l' : Loop) (n' : Nat) (h : counters_ok l)
    (hr : hloop_process_pendings env fuel l = some (l', n')) : counters_ok l' := by
  unfold hloop_process_pendings at hr
  split_ifs at hr
  · simp only [Option.some.injEq, Prod.mk.injEq] at hr; rw [← hr.1]; exact h
  · split at hr
    · exact absurd hr (by simp)
    · rename_i l1 n1 hw
      simp only [Option.some.injEq, Prod.mk.injEq] at hr
      rw [← hr.1]
      have h1 : counters_ok l1 := lanes_counters env fuel hcb _ _ _ _ _ h hw
      exact h1

theorem events_tail_counters (env : Env) (fuel : Nat)
    (hcb : ∀ c a l, counters_ok l → counters_ok (env.cb c a l))
    (l : Loop) (l' : Loop) (n' : Nat) (h : counters_ok l)
    (hr : hloop_process_events_tail env fuel l = some (l', n')) : counters_ok l' := by
  unfold hloop_process_events_tail at hr
  split at hr
  · exact absurd hr (by simp)
  · rename_i l1 n1 ht
    have h1 : counters_ok l1 := by
      split_ifs at ht
      · exact timers_loop_counters env _ _ _ _ _ _ h ht
      · simp only [Option.some.injEq, Prod.mk.injEq] at ht; rw [← ht.1]; exact h
    refine pendings_counters env fuel hcb _ _ _ ?_ hr
    split_ifs
    · exact idles_counters _ h1
    · exact h1
    · exact h1

theorem events_counters (env : Env) (fuel : Nat)
    (hcb : ∀ c a l, counters_ok l → counters_ok (env.cb c a l))
    (l : Loop) (t1 t2 : Nat) (r : PollResult) (l' : Loop) (n' : Nat) (h : counters_ok l)
    (hr : hloop_process_events env fuel l t1 t2 r = some (l', n')) : counters_ok l' := by
  unfold hloop_process_events at hr
  simp only at hr
  split at hr
  · exact events_tail_counters env fuel hcb _ _ _ ((update_time_counters _ _).mpr h) hr
  · refine events_tail_counters env fuel hcb _ _ _ ((update_time_counters _ _).mpr ?_) hr
    split_ifs
    · exact poll_counters _ _ _ ((update_time_counters _ _).mpr h)
    · exact (emit_counters _ _).mpr ((update_time_counters _ _).mpr h)

/-- C5: `nactives == nios + ntimers + nidles` (in the 32-bit arithmetic of the
counters) holds after `hloop_init` and is preserved by `hidle_add`,
`hidle_del`, `htimer_add`, `htimer_add_period`, `htimer_del`, `hio_add`,
`hio_del`, `hclose` and by every tick of `hloop_process_events` that returns,
provided the user callbacks, which may call any of these, preserve it too. -/
theorem C5_counters_invariant (env : Env) (l : Loop)
    (hcb : ∀ c a l, counters_ok l → counters_ok (env.cb c a l)) (h : counters_ok l) :
    (∀ now, counters_ok (hloop_init now)) ∧
    (∀ cb r, counters_ok (hidle_add l cb r).1) ∧
    (∀ idle, counters_ok (hidle_del l idle)) ∧
    (∀ now cb timeout r l' a, htimer_add l now cb timeout r = some (l', a) → counters_ok l') ∧
    (∀ cb minute hour day week month r l' a,
      htimer_add_period env l cb minute hour day week month r = some (l', a) → counters_ok l') ∧
    (∀ timer, counters_ok (htimer_del l timer)) ∧
    (∀ io cb events, counters_ok (hio_add env l io cb events)) ∧
    (∀ io events, counters_ok (hio_del l io events)) ∧
    (∀ io, counters_ok (hclose env l io)) ∧
    (∀ fuel t1 t2 r l' n,
      hloop_process_events env fuel l t1 t2 r = some (l', n) → counters_ok l') :=
  ⟨hloop_init_counters,
    fun cb r => hidle_add_counters l cb r h,
    fun idle => hidle_del_counters l idle h,
    fun now cb timeout r l' a hr => htimer_add_counters l now cb timeout r h l' a hr,
    fun cb minute hour day week month r l' a hr =>
      htimer_add_period_counters env l cb minute hour day week month r h l' a hr,
    fun timer => htimer_del_counters l timer h,
    fun io cb events => hio_add_counters env l io cb events h,
    fun io events => hio_del_counters l io events h,
    fun io => hclose_counters env l io hcb h,
    fun fuel t1 t2 r l' n hr => events_counters env fuel hcb l t1 t2 r l' n h hr⟩

/-- C5, instance: a loop with one idle handle; its tick returns and the counters
still agree. -/
theorem C5_counters_invariant_witness :
    counters_ok (hidle_add (hloop_init 0) (some 1) 1).1 ∧
    ∃ p, hloop_process_events Env.quiet 4 (hidle_add (hloop_init 0) (some 1) 1).1 10 1010
        (.ready []) = some p ∧ counters_ok p.1 := by
  have h0 : counters_ok (hidle_add (hloop_init 0) (some 1) 1).1 :=
    hidle_add_counters _ _ _ (hloop_init_counters 0)
  have hs : (hloop_process_events Env.quiet 4 (hidle_add (hloop_init 0) (some 1) 1).1 10 1010
      (.ready [])).isSome = true := by decide!
  obtain ⟨p, hp⟩ := Option.isSome_iff_exists.mp hs
  exact ⟨h0, p, hp,
    (C5_counters_invariant Env.quiet (hidle_add (hloop_init 0) (some 1) 1).1
      (fun _ _ _ hl => hl) h0).2.2.2.2.2.2.2.2.2 4 10 1010 (.ready []) p.1 p.2 hp⟩

/-! ## IO handles -/

/-- The head of `hio_get` changes nothing but the capacity of the table. -/
theorem hio_get_grow_eq (l : Loop) (fd : Nat) :
    ∃ n, hio_get_grow l fd = { l with ios_maxsize := n } := by
  refine ⟨(hio_get_grow l fd).ios_maxsize, ?_⟩
  unfold hio_get_grow
  by_cases h0 : l.ios_maxsize = 0
  · by_cases h1 : fd ≥ IO_ARRAY_INIT_SIZE
    · simp only [h0, h1, if_true]
    · simp only [h0, h1, if_true, if_false]
  · by_cases h1 : fd ≥ l.ios_maxsize
    · simp only [h0, h1, if_true, if_false]
    · simp only [h0, h1, if_false]

/-- `hio_get` for a descriptor that has a handle: the handle is returned, only
the capacity may change. -/
theorem hio_get_registered (l : Loop) (fd io : Nat) (h : l.ios_ptr fd = some io) :
    ∃ n, hio_get l fd = ({ l with ios_maxsize := n }, io) := by
  obtain ⟨n, hn⟩ := hio_get_grow_eq l fd
  refine ⟨n, ?_⟩
  unfold hio_get
  rw [hn]
  simp only [h]

/-- `hio_get` for a descriptor without a handle: a zeroed handle is allocated,
initialised and stored in the slot. -/
theorem hio_get_fresh (l : Loop) (fd : Nat) (h : l.ios_ptr fd = none) :
    ∃ n, hio_get l fd = ({ l with
      ios_maxsize := n
      mem := Function.update l.mem l.brk (some
        { event_type := .HEVENT_TYPE_IO_, event_index0 := -1, event_index1 := -1,
          loop := true, fd := fd })
      brk := l.brk + 1
      ios_ptr := Function.update l.ios_ptr fd (some l.brk) }, l.brk) := by
  obtain ⟨n, hn⟩ := hio_get_grow_eq l fd
  refine ⟨n, ?_⟩
  unfold hio_get
  rw [hn]
  simp [h, Loop.alloc, hio_init, Loop.upd]

theorem hio_get_counters (l : Loop) (fd : Nat) (h : counters_ok l) :
    counters_ok (hio_get l fd).1 := by
  cases hp : l.ios_ptr fd with
  | some io =>
    obtain ⟨n, hn⟩ := hio_get_registered l fd io hp
    rw [hn]
    exact (counters_ok_congr (l := l) rfl rfl rfl rfl).mpr h
  | none =>
    obtain ⟨n, hn⟩ := hio_get_fresh l fd hp
    rw [hn]
    exact (counters_ok_congr (l := l) rfl rfl rfl rfl).mpr h

/-! ## C8: `hio_del` -/

theorem hio_del_inactive (l : Loop) (io events : Nat) (ev : Hevent)
    (hm : l.mem io = some ev) (ha : ev.active = false) : hio_del l io events = l := by
  simp [hio_del, hm, ha]

theorem hio_del_keep (l : Loop) (io events : Nat) (ev : Hevent)
    (hm : l.mem io = some ev) (ha : ev.active = true)
    (h0 : andNot32 ev.events events ≠ 0) :
    hio_del l io events = { l with
      mem := Function.update l.mem io (some { ev with events := andNot32 ev.events events })
      trace := l.trace ++ [Obs.watcher_del ev.fd events] } := by
  simp [hio_del, hm, ha, Loop.emit, Loop.upd, h0]

theorem hio_del_last (l : Loop) (io events : Nat) (ev : Hevent)
    (hm : l.mem io = some ev) (ha : ev.active = true)
    (h0 : andNot32 ev.events events = 0) :
    hio_del l io events = { l with
      mem := Function.update l.mem io
        (some (hio_deinit_state { ev with events := 0, active := false }))
      nios := dec32 l.nios
      nactives := dec32 l.nactives
      trace := l.trace ++ [Obs.watcher_del ev.fd events] } := by
  simp [hio_del, hm, ha, Loop.emit, Loop.upd, h0, EVENT_INACTIVE, hio_deinit]

theorem or_ne_zero_right (x m : Nat) (h : m ≠ 0) : x ||| m ≠ 0 := by
  intro h0
  apply h
  apply Nat.zero_of_testBit_eq_false
  intro i
  have := congrArg (fun n => n.testBit i) h0
  simp only [Nat.testBit_or, Nat.zero_testBit, Bool.or_eq_false_iff] at this
  exact this.2

theorem io_inv_upd (l : Loop) (a : Nat) (f : Hevent → Hevent)
    (hf : ∀ e, l.mem a = some e → io_handle_ok (f e)) (h : io_inv l) :
    io_inv (l.upd a f) := by
  intro b e hb
  by_cases hba : b = a
  · subst hba
    simp only [Loop.upd, Function.update_same] at hb
    cases hm : l.mem b with
    | none => simp [hm] at hb
    | some e0 =>
      simp only [hm, Option.map_some', Option.some.injEq] at hb
      rw [← hb]
      exact hf e0 hm
  · simp only [Loop.upd, Function.update_noteq hba] at hb
    exact h b e hb

theorem io_inv_congr {l l' : Loop} (hm : l'.mem = l.mem) (h : io_inv l) : io_inv l' := by
  intro a e ha
  rw [hm] at ha
  exact h a e ha

theorem hio_add_mem_ne (env : Env) (l : Loop) (io : Nat) (cb : Option Nat) (events b : Nat)
    (hb : b ≠ io) : (hio_add env l io cb events).mem b = l.mem b := by
  unfold hio_add
  cases hm : l.mem io with
  | none => rfl
  | some ev =>
    obtain ⟨f, _, hr⟩ := hio_reset_active env l io
    cases ha : ev.active <;> cases cb <;>
      simp [hr, EVENT_ADD, EVENT_ACTIVE, Loop.upd, Loop.emit, hm, Function.update_noteq hb]
    all_goals
      split_ifs <;> simp [Function.update_noteq hb]

theorem hio_add_mem_self (env : Env) (l : Loop) (io : Nat) (cb : Option Nat) (events : Nat)
    (e' : Hevent) (h : (hio_add env l io cb events).mem io = some e') :
    l.mem io = none ∨ ∃ x, e'.events = x ||| (events % 2 ^ 32) := by
  unfold hio_add at h
  cases hm : l.mem io with
  | none => exact Or.inl rfl
  | some ev =>
    right
    simp only [hm] at h
    generalize hX : (if cb.isSome = true then _ else _ : Loop) = X at h
    simp only [Loop.upd, Loop.emit, Function.update_same] at h
    cases hx : X.mem io with
    | none => simp [hx] at h
    | some ex =>
      simp only [hx, Option.map_some', Option.some.injEq] at h
      exact ⟨ex.events, by rw [← h]⟩

theorem io_inv_hloop_init (now : Nat) : io_inv (hloop_init now) := by
  intro a e h
  simp [hloop_init] at h

theorem io_inv_hio_get (l : Loop) (fd : Nat) (h : io_inv l) : io_inv (hio_get l fd).1 := by
  cases hp : l.ios_ptr fd with
  | some io =>
    obtain ⟨n, hn⟩ := hio_get_registered l fd io hp
    rw [hn]
    exact io_inv_congr rfl h
  | none =>
    obtain ⟨n, hn⟩ := hio_get_fresh l fd hp
    rw [hn]
    intro a e ha
    by_cases hab : a = l.brk
    · subst hab
      simp only [Function.update_same, Option.some.injEq] at ha
      rw [← ha]
      intro _ _
      rfl
    · simp only [Function.update_noteq hab] at ha
      exact h a e ha

theorem io_inv_hio_add (env : Env) (l : Loop) (io : Nat) (cb : Option Nat) (events : Nat)
    (hev : events % 2 ^ 32 ≠ 0) (h : io_inv l) : io_inv (hio_add env l io cb events) := by
  intro a e ha
  by_cases hab : a = io
  · subst hab
    rcases hio_add_mem_self env l a cb events e ha with hn | ⟨x, hx⟩
    · have : hio_add env l a cb events = l := by simp [hio_add, hn]
      rw [this] at ha
      exact h a e ha
    · intro _ h0
      exact absurd (hx ▸ h0) (or_ne_zero_right x _ hev)
  · rw [hio_add_mem_ne env l io cb events a hab] at ha
    exact h a e ha

theorem io_inv_hio_del (l : Loop) (io events : Nat) (h : io_inv l) :
    io_inv (hio_del l io events) := by
  cases hm : l.mem io with
  | none =>
    have : hio_del l io events = l := by simp [hio_del, hm]
    rw [this]; exact h
  | some ev =>
    cases ha : ev.active
    · rw [hio_del_inactive l io events ev hm ha]; exact h
    · intro a e hae
      by_cases h0 : andNot32 ev.events events = 0
      · rw [hio_del_last l io events ev hm ha h0] at hae
        by_cases hab : a = io
        · subst hab
          simp only [Function.update_same, Option.some.injEq] at hae
          rw [← hae]
          intro _ _
          rfl
        · simp only [Function.update_noteq hab] at hae
          exact h a e hae
      · rw [hio_del_keep l io events ev hm ha h0] at hae
        by_cases hab : a = io
        · subst hab
          simp only [Function.update_same, Option.some.injEq] at hae
          rw [← hae]
          intro _ hz
          exact absurd hz h0
        · simp only [Function.update_noteq hab] at hae
          exact h a e hae

theorem io_inv_hclose (env : Env) (l : Loop) (io : Nat)
    (hcb : ∀ c a l, io_inv l → io_inv (env.cb c a l)) (h : io_inv l) :
    io_inv (hclose env l io) := by
  unfold hclose
  cases hm : l.mem io with
  | none => exact h
  | some ev =>
    cases hc : ev.closed
    · simp only [hc, Bool.false_eq_true, if_false]
      apply io_inv_hio_del
      have h1 : io_inv ((l.upd io (fun e => { e with closed := true })).emit (Obs.hio_close io)) := by
        refine io_inv_congr (l := l.upd io (fun e => { e with closed := true })) rfl ?_
        exact io_inv_upd l io _ (fun e he => h io e he) h
      split
      · split
        · exact hcb _ _ _ (io_inv_congr rfl h1)
        · exact h1
      · exact h1
    · simpa [hc] using h

/-- C9 (as the code has it): in every state reachable from `hloop_init` through
`hio_get`, `hio_add` with a non-zero event mask, `hio_del` and `hclose`
(whose `close_cb` callbacks keep the property), an IO handle whose `events`
mask is 0 is not active. -/
theorem C9_events_zero_inactive (env : Env) (l : Loop)
    (hcb : ∀ c a l, io_inv l → io_inv (env.cb c a l)) (h : IOReach env l) :
    ∀ a e, l.mem a = some e → e.event_type = .HEVENT_TYPE_IO_ → e.events = 0 →
      e.active = false := by
  have : io_inv l := by
    induction h with
    | init now => exact io_inv_hloop_init now
    | get l fd _ ih => exact io_inv_hio_get l fd ih
    | add l io cb events _ hev ih => exact io_inv_hio_add env l io cb events hev ih
    | del l io events _ ih => exact io_inv_hio_del l io events ih
    | close l io _ ih => exact io_inv_hclose env l io hcb ih
  exact this

/-! ## C6, C7: `hclose` -/

theorem chain_congr_next {mem mem' : Nat → Option Hevent} {head : Option Nat} {xs : List Nat}
    (h : Chain mem head xs)
    (hm : ∀ a ∈ xs, (mem' a).map (fun e => e.pending_next) = (mem a).map (fun e => e.pending_next)) :
    Chain mem' head xs := by
  induction h with
  | nil => exact Chain.nil
  | @cons a e xs he _ ih =>
    have h1 := hm a (List.mem_cons_self _ _)
    rw [he] at h1
    cases hm' : mem' a with
    | none => simp [hm'] at h1
    | some e' =>
      simp only [hm', Option.map_some', Option.some.injEq] at h1
      refine Chain.cons hm' ?_
      rw [h1]
      exact ih (fun b hb => hm b (List.mem_cons_of_mem _ hb))

/-- `hclose` on an active handle that is not closed and whose subscription lies
within `ALL_EVENTS`, with callbacks that leave the loop alone. -/
theorem hclose_active_eq (l : Loop) (io : Nat) (e : Hevent) (hm : l.mem io = some e)
    (hact : e.active = true) (hcl : e.closed = false)
    (hev : andNot32 e.events ALL_EVENTS = 0) :
    ∃ tr, hclose Env.quiet l io = { l with
      mem := Function.update l.mem io
        (some (hio_deinit_state { e with closed := true, events := 0, active := false }))
      nios := dec32 l.nios
      nactives := dec32 l.nactives
      trace := l.trace ++ tr } := by
  cases hc : e.close_cb with
  | none =>
    refine ⟨[Obs.hio_close io, Obs.watcher_del e.fd ALL_EVENTS], ?_⟩
    simp [hclose, hm, hcl, hc, hio_del, hact, hev, Loop.upd, Loop.emit, EVENT_INACTIVE,
      hio_deinit, hio_deinit_state]
  | some c =>
    refine ⟨[Obs.hio_close io, Obs.close_cb io c, Obs.watcher_del e.fd ALL_EVENTS], ?_⟩
    simp [hclose, hm, hcl, hc, hio_del, hact, hev, Loop.upd, Loop.emit, EVENT_INACTIVE,
      hio_deinit, hio_deinit_state, Env.quiet]

/-- C6 (as the code has it): `hclose` on an active, not yet closed handle whose
subscription lies within `ALL_EVENTS` and which is already on a pending lane
(callbacks leave the loop alone). When `hclose` returns, the handle is
inactive, its `events` and `revents` are 0 and its `read_cb`, `write_cb`,
`close_cb`, `accept_cb` and `connect_cb` are null; but it is still pending
with its event callback `cb`, and the following `hloop_process_pendings`
invokes that callback exactly once. -/
theorem C6_hclose_keeps_pending (l : Loop) (q : Nat → List Nat) (io i c fuel : Nat) (e : Hevent)
    (hwf : PendingWF l q) (hnp : l.npendings ≠ 0) (hi : i < 5) (hq : io ∈ q i)
    (hfuel : ∀ j, j < 5 → (q j).length ≤ fuel)
    (hm : l.mem io = some e) (hact : e.active = true) (hcl : e.closed = false)
    (hpend : e.pending = true) (hcb : e.cb = some c)
    (hev : andNot32 e.events ALL_EVENTS = 0) :
    (∃ e1, (hclose Env.quiet l io).mem io = some e1 ∧ e1.active = false ∧ e1.events = 0 ∧
      e1.revents = 0 ∧ e1.read_cb = none ∧ e1.write_cb = none ∧ e1.close_cb = none ∧
      e1.accept_cb = none ∧ e1.connect_cb = none ∧ e1.pending = true ∧ e1.cb = some c) ∧
    ∃ lf n t, hloop_process_pendings Env.quiet fuel (hclose Env.quiet l io) = some (lf, n) ∧
      lf.trace = (hclose Env.quiet l io).trace ++ t ∧ t.count (Obs.cb io c) = 1 := by
  obtain ⟨tr, htr⟩ := hclose_active_eq l io e hm hact hcl hev
  rw [htr]
  refine ⟨⟨_, Function.update_same _ _ _, rfl, rfl, rfl, rfl, rfl, rfl, rfl, rfl,
    by simpa [hio_deinit_state] using hpend, by simpa [hio_deinit_state] using hcb⟩, ?_⟩
  -- the queue is as well formed as before
  have hnext : ∀ a, (Function.update l.mem io
      (some (hio_deinit_state { e with closed := true, events := 0, active := false })) a).map
        (fun x => x.pending_next) = (l.mem a).map (fun x => x.pending_next) := by
    intro a
    by_cases ha : a = io
    · subst ha; simp [hm, hio_deinit_state]
    · rw [Function.update_noteq ha]
  have hwf1 : PendingWF { l with
      mem := Function.update l.mem io
        (some (hio_deinit_state { e with closed := true, events := 0, active := false }))
      nios := dec32 l.nios
      nactives := dec32 l.nactives
      trace := l.trace ++ tr } q :=
    ⟨fun j => chain_congr_next (hwf.chain j) (fun a _ => hnext a), hwf.nodup, hwf.disjoint⟩
  obtain ⟨lf, g1, g2, _⟩ := pendings_quiet fuel _ q hwf1 hnp hfuel
  refine ⟨lf, _, _, g1, g2, ?_⟩
  apply List.count_eq_one_of_mem
  · exact lanes_obs_nodup _ q (List.nodup_reverse.mpr (List.nodup_range 5)) hwf.nodup
      hwf.disjoint
  · rw [List.mem_flatMap]
    refine ⟨i, by simpa using hi, ?_⟩
    simp only [lane_obs, List.mem_flatMap]
    refine ⟨io, hq, ?_⟩
    simp [handle_obs, hio_deinit_state, hcb, hpend]

/-- C7 fails on the code. `hclose` twice on an active handle (descriptor 5,
subscribed to READ, `close_cb` 3): the first call emits `hio_close`, invokes
`close_cb` and, through `hio_del` and `hio_deinit`, leaves the handle inactive
with `closed` reset to 0; the second call therefore passes the `closed` test,
emits `hio_close` again and leaves `closed = 1`, a state different from the
one after the first call. -/
theorem C7_hclose_twice :
    (hclose Env.quiet io_example_close_cb 0).trace
      = [Obs.watcher_add 5 1, Obs.hio_close 0, Obs.close_cb 0 3, Obs.watcher_del 5 5] ∧
    ((hclose Env.quiet io_example_close_cb 0).mem 0).map (fun e => (e.closed, e.active))
      = some (false, false) ∧
    (hclose Env.quiet (hclose Env.quiet io_example_close_cb 0) 0).trace
      = [Obs.watcher_add 5 1, Obs.hio_close 0, Obs.close_cb 0 3, Obs.watcher_del 5 5,
          Obs.hio_close 0] ∧
    ((hclose Env.quiet (hclose Env.quiet io_example_close_cb 0) 0).mem 0).map
      (fun e => (e.closed, e.active)) = some (true, false) := by
  decide!

/-- C6 fails as stated. The IO handle at address 0 (event callback 9) is made
pending by the poll, the timer at address 1 expires in the same tick, and the
timer's callback (number 7) calls `hclose` on the IO handle. The dispatcher
runs the timer callback first, `hclose` returns, and then the event callback
of the closed handle is still invoked. -/
theorem C6_counterexample :
    ((htimer_add io_example 0 (some 7) 1 1).bind
        (fun p => hloop_process_events closing_env 10 p.1 500 1500 (.ready [(5, 1)]))).map
      (fun q => (q.1.trace, q.2))
      = some ([Obs.watcher_add 5 1, Obs.poll 1, Obs.cb 1 7, Obs.hio_close 0, Obs.watcher_del 5 5,
          Obs.free 1, Obs.cb 0 9], 2) := by
  decide!

/-- C9 fails as stated: `hio_add` with the event mask 0 on a fresh handle leaves
an IO handle that is active with `events == 0`. -/
theorem C9_counterexample :
    ((hio_add Env.quiet (hio_get (hloop_init 0) 5).1 0 (some 9) 0).mem 0).map
      (fun e => (e.event_type, e.events, e.active))
      = some (hevent_type_e.HEVENT_TYPE_IO_, 0, true) := by
  decide!

/-! ## C10: capacity of the IO table -/

theorem ceil2e_loop_spec (num : Nat) :
    ∀ (fuel k : Nat), (k = 0 ∨ 2 ^ (k - 1) < num) → num ≤ 2 ^ (k + fuel) →
      ∃ j, ceil2e_loop num fuel (2 ^ k) = 2 ^ j ∧ num ≤ 2 ^ j ∧ (j = 0 ∨ 2 ^ (j - 1) < num) := by
  intro fuel
  induction fuel with
  | zero =>
    intro k hk hle
    exact ⟨k, rfl, by simpa using hle, hk⟩
  | succ fuel ih =>
    intro k hk hle
    unfold ceil2e_loop
    by_cases h : num ≤ 2 ^ k
    · simp only [h, if_true]
      exact ⟨k, rfl, h, hk⟩
    · simp only [h, if_false]
      have e : 2 * 2 ^ k = 2 ^ (k + 1) := by rw [pow_succ]; ring
      rw [e]
      exact ih (k + 1) (Or.inr (by simpa using Nat.lt_of_not_le h))
        (by rw [Nat.add_assoc, Nat.add_comm 1 fuel]; exact hle)

/-- `ceil2e` is the smallest power of two that is not below its argument. -/
theorem ceil2e_spec (num : Nat) :
    ∃ j, ceil2e num = 2 ^ j ∧ num ≤ 2 ^ j ∧ ∀ m, num ≤ 2 ^ m → 2 ^ j ≤ 2 ^ m := by
  obtain ⟨j, h1, h2, h3⟩ := ceil2e_loop_spec num num 0 (Or.inl rfl)
    (by rw [Nat.zero_add]; exact Nat.le_of_lt (Nat.lt_two_pow num))
  refine ⟨j, by simpa [ceil2e] using h1, h2, ?_⟩
  intro m hm
  apply Nat.pow_le_pow_right (by norm_num)
  rcases h3 with rfl | h3
  · exact Nat.zero_le m
  · have : 2 ^ (j - 1) < 2 ^ m := lt_of_lt_of_le h3 hm
    have := (Nat.pow_lt_pow_iff_right (by norm_num : 1 < 2)).mp this
    omega

theorem ceil2e_le_of_lt_pow (num m : Nat) (h : num ≤ 2 ^ m) : ceil2e num ≤ 2 ^ m := by
  obtain ⟨j, h1, _, h3⟩ := ceil2e_spec num
  rw [h1]; exact h3 m h

theorem le_ceil2e (num : Nat) : num ≤ ceil2e num := by
  obtain ⟨j, h1, h2, _⟩ := ceil2e_spec num
  rw [h1]; exact h2

theorem toInt32_natCast (n : Nat) (h : n < 2 ^ 31) : toInt32 (n : Int) = (n : Int) :=
  toInt32_of_range _ (Int.natCast_nonneg n) (by exact_mod_cast h)

/-- C10 (as the code has it): the table has 64 slots on first use; a descriptor
inside the capacity leaves it alone; a descriptor `fd` at or beyond it
(`fd < 2^30`, so that the 32-bit `int` arithmetic is exact) grows the table to
`ceil2e(fd)`, the smallest power of two not below `fd`, when that exceeds
`fd`, and to `2*fd` when `fd` is itself a power of two. -/
theorem C10_io_table_capacity (l : Loop) (fd : Nat) (hfd : fd < 2 ^ 30) :
    (hio_get l fd).1.ios_maxsize =
      (if fd < (if l.ios_maxsize = 0 then 64 else l.ios_maxsize) then
        (if l.ios_maxsize = 0 then 64 else l.ios_maxsize)
      else if ceil2e fd > fd then ceil2e fd else 2 * fd) ∧
    (∃ j, ceil2e fd = 2 ^ j ∧ fd ≤ 2 ^ j ∧ ∀ m, fd ≤ 2 ^ m → 2 ^ j ≤ 2 ^ m) := by
  have hcap : (hio_get l fd).1.ios_maxsize = (hio_get_grow l fd).ios_maxsize := by
    obtain ⟨n, hn⟩ := hio_get_grow_eq l fd
    cases hp : l.ios_ptr fd with
    | some io =>
      unfold hio_get
      rw [hn]
      simp only [hp]
    | none =>
      unfold hio_get
      rw [hn]
      simp [hp, Loop.alloc, hio_init, Loop.upd]
  refine ⟨?_, ceil2e_spec fd⟩
  rw [hcap]
  have hc1 : ceil2e fd ≤ 2 ^ 30 := ceil2e_le_of_lt_pow fd 30 (Nat.le_of_lt hfd)
  have hc2 : toInt32 ((ceil2e fd : Nat) : Int) = ((ceil2e fd : Nat) : Int) :=
    toInt32_natCast _ (by omega)
  have hc3 : toInt32 (2 * (fd : Int)) = ((2 * fd : Nat) : Int) := by
    have := toInt32_natCast (2 * fd) (by omega)
    simpa using this
  unfold hio_get_grow
  by_cases h0 : l.ios_maxsize = 0
  · by_cases hge : fd ≥ IO_ARRAY_INIT_SIZE
    · have hlt : ¬ (fd < 64) := by unfold IO_ARRAY_INIT_SIZE at hge; omega
      simp only [h0, hge, hlt, if_true, if_false, hc2, hc3]
      by_cases hgt : ceil2e fd > fd
      · have : ((ceil2e fd : Nat) : Int) > (fd : Int) := by exact_mod_cast hgt
        simp only [this, hgt, if_true]
        omega
      · have : ¬ (((ceil2e fd : Nat) : Int) > (fd : Int)) := by exact_mod_cast hgt
        simp only [this, hgt, if_false]
        omega
    · have hlt : fd < 64 := by unfold IO_ARRAY_INIT_SIZE at hge; omega
      simp only [h0, hge, hlt, if_true, if_false]
      rfl
  · by_cases hge : fd ≥ l.ios_maxsize
    · have hlt : ¬ (fd < l.ios_maxsize) := by omega
      simp only [h0, hge, hlt, if_true, if_false, hc2, hc3]
      by_cases hgt : ceil2e fd > fd
      · have : ((ceil2e fd : Nat) : Int) > (fd : Int) := by exact_mod_cast hgt
        simp only [this, hgt, if_true]
        omega
      · have : ¬ (((ceil2e fd : Nat) : Int) > (fd : Int)) := by exact_mod_cast hgt
        simp only [this, hgt, if_false]
        omega
    · have hlt : fd < l.ios_maxsize := by omega
      simp only [h0, hge, hlt, if_true, if_false]

/-- C10, instance: descriptor 65 on a fresh loop grows the table to 128 slots. -/
theorem C10_io_table_capacity_witness :
    (65 : Nat) < 2 ^ 30 ∧
    (hio_get (hloop_init 0) 65).1.ios_maxsize =
      (if 65 < (if (hloop_init 0).ios_maxsize = 0 then 64 else (hloop_init 0).ios_maxsize) then
        (if (hloop_init 0).ios_maxsize = 0 then 64 else (hloop_init 0).ios_maxsize)
      else if ceil2e 65 > 65 then ceil2e 65 else 2 * 65) :=
  ⟨by decide, (C10_io_table_capacity (hloop_init 0) 65 (by decide)).1⟩

/-- C10 fails as stated: on a table of 64 slots, `hio_get` for descriptor 65 grows
the table to 128 slots, while the larger of the smallest power of two not
below 65 (128) and `2 * 65` is 130. -/
theorem C10_counterexample :
    (hio_get (hloop_init 0) 5).1.ios_maxsize = 64 ∧
    (hio_get (hio_get (hloop_init 0) 5).1 65).1.ios_maxsize = 128 ∧
    max (ceil2e 65) (2 * 65) = 130 := by
  decide!

/-! ## Instances -/

theorem pending_io_example_wf :
    PendingWF pending_io_example (fun j => if j = 2 then [0] else []) := by
  refine ⟨?_, ?_, ?_⟩
  · intro j
    by_cases hj : j = 2
    · subst hj
      exact @Chain.cons pending_io_example.mem 0 pending_io_handle [] rfl Chain.nil
    · have : pending_io_example.pendings j = none := by simp [pending_io_example, hj]
      rw [this]
      simp only [hj, if_false]
      exact Chain.nil
  · intro j
    by_cases hj : j = 2 <;> simp [hj]
  · intro j k hjk a ha hk
    by_cases hj : j = 2
    · by_cases hk2 : k = 2
      · exact hjk (hj.trans hk2.symm)
      · simp [hk2] at hk
    · simp [hj] at ha

/-- C6, instance: the pending IO handle of `pending_io_example` is closed, then
the queue is dispatched. -/
theorem C6_hclose_keeps_pending_witness :
    (∃ e1, (hclose Env.quiet pending_io_example 0).mem 0 = some e1 ∧ e1.active = false ∧
      e1.events = 0 ∧ e1.revents = 0 ∧ e1.read_cb = none ∧ e1.write_cb = none ∧
      e1.close_cb = none ∧ e1.accept_cb = none ∧ e1.connect_cb = none ∧ e1.pending = true ∧
      e1.cb = some 9) ∧
    ∃ lf n t, hloop_process_pendings Env.quiet 1 (hclose Env.quiet pending_io_example 0)
        = some (lf, n) ∧
      lf.trace = (hclose Env.quiet pending_io_example 0).trace ++ t ∧
      t.count (Obs.cb 0 9) = 1 :=
  C6_hclose_keeps_pending pending_io_example (fun j => if j = 2 then [0] else []) 0 2 9 1
    pending_io_handle pending_io_example_wf (by decide) (by decide) (by simp)
    (fun j _ => by by_cases hj : j = 2 <;> simp [hj])
    rfl rfl rfl rfl rfl (by decide)

/-- C9, instance: the state after `hio_get`, `hio_add(READ)`, `hio_del(READ)`. -/
theorem C9_events_zero_inactive_witness :
    IOReach Env.quiet (hio_del io_example 0 READ_EVENT) ∧
    ∀ a e, (hio_del io_example 0 READ_EVENT).mem a = some e →
      e.event_type = .HEVENT_TYPE_IO_ → e.events = 0 → e.active = false :=
  have hr : IOReach Env.quiet (hio_del io_example 0 READ_EVENT) :=
    IOReach.del _ _ _ (IOReach.add _ _ _ _ (IOReach.get _ _ (IOReach.init 0)) (by decide))
  ⟨hr, C9_events_zero_inactive Env.quiet _ (fun _ _ _ h => h) hr⟩

/-! ## Input validation of the timer constructors -/

theorem toInt8_of_range (x : Int) (h0 : -128 ≤ x) (h1 : x ≤ 127) : toInt8 x = x := by
  unfold toInt8
  split_ifs <;> omega

theorem htimer_add_period_none (env : Env) (l : Loop) (cb : Option Nat)
    (minute hour day week month : Int) (r : Nat)
    (h : toInt8 minute > 59 ∨ toInt8 hour > 23 ∨ toInt8 day > 31 ∨ toInt8 week > 6 ∨
      toInt8 month > 12) :
    htimer_add_period env l cb minute hour day week month r = none := by
  simp only [htimer_add_period, Bool.or_eq_true, decide_eq_true_eq]
  rw [if_pos]
  tauto

theorem htimer_add_period_some (env : Env) (l : Loop) (cb : Option Nat)
    (minute hour day week month : Int) (r : Nat)
    (h : ¬ (toInt8 minute > 59 ∨ toInt8 hour > 23 ∨ toInt8 day > 31 ∨ toInt8 week > 6 ∨
      toInt8 month > 12)) :
    ∃ x, htimer_add_period env l cb minute hour day week month r = some x := by
  simp only [htimer_add_period, Bool.or_eq_true, decide_eq_true_eq]
  rw [if_neg]
  · exact ⟨_, rfl⟩
  · tauto

/-- C16: input validation is atomic. `htimer_add` returns null exactly when the
64-bit timeout is 0. The calendar fields of `htimer_add_period` are `int8_t`:
it returns null exactly when the values it receives (the arguments converted
to `int8_t`) have `minute > 59`, `hour > 23`, `day > 31`, `week > 6` or
`month > 12`; for arguments that are `int8_t` values (-128..127) the
conversion changes nothing, so the test is on the arguments themselves, and
fields that are all negative are accepted. A call that returns null leaves the
loop as it was. -/
theorem C16_validation_atomic (env : Env) (l : Loop) (now : Nat) (cb : Option Nat)
    (timeout r : Nat) (minute hour day week month : Int) :
    ((htimer_add_call l now cb timeout r).2 = none ↔ timeout % 2 ^ 64 = 0) ∧
    ((htimer_add_call l now cb timeout r).2 = none →
      (htimer_add_call l now cb timeout r).1 = l) ∧
    ((htimer_add_period_call env l cb minute hour day week month r).2 = none ↔
      (toInt8 minute > 59 ∨ toInt8 hour > 23 ∨ toInt8 day > 31 ∨ toInt8 week > 6 ∨
        toInt8 month > 12)) ∧
    ((-128 ≤ minute ∧ minute ≤ 127) ∧ (-128 ≤ hour ∧ hour ≤ 127) ∧ (-128 ≤ day ∧ day ≤ 127) ∧
      (-128 ≤ week ∧ week ≤ 127) ∧ (-128 ≤ month ∧ month ≤ 127) →
      ((htimer_add_period_call env l cb minute hour day week month r).2 = none ↔
        (minute > 59 ∨ hour > 23 ∨ day > 31 ∨ week > 6 ∨ month > 12))) ∧
    ((htimer_add_period_call env l cb minute hour day week month r).2 = none →
      (htimer_add_period_call env l cb minute hour day week month r).1 = l) ∧
    ((-128 ≤ minute ∧ minute < 0) ∧ (-128 ≤ hour ∧ hour < 0) ∧ (-128 ≤ day ∧ day < 0) ∧
      (-128 ≤ week ∧ week < 0) ∧ (-128 ≤ month ∧ month < 0) →
      (htimer_add_period_call env l cb minute hour day week month r).2 ≠ none) := by
  have hA : ∀ x, htimer_add l now cb timeout r = some x →
      (htimer_add_call l now cb timeout r).2 ≠ none := by
    intro x hx
    simp [htimer_add_call, hx]
  have hP : ∀ x, htimer_add_period env l cb minute hour day week month r = some x →
      (htimer_add_period_call env l cb minute hour day week month r).2 ≠ none := by
    intro x hx
    simp [htimer_add_period_call, hx]
  have hiff : (htimer_add_period_call env l cb minute hour day week month r).2 = none ↔
      (toInt8 minute > 59 ∨ toInt8 hour > 23 ∨ toInt8 day > 31 ∨ toInt8 week > 6 ∨
        toInt8 month > 12) := by
    by_cases h : toInt8 minute > 59 ∨ toInt8 hour > 23 ∨ toInt8 day > 31 ∨ toInt8 week > 6 ∨
        toInt8 month > 12
    · have := htimer_add_period_none env l cb minute hour day week month r h
      simp [htimer_add_period_call, this, h]
    · obtain ⟨x, hx⟩ := htimer_add_period_some env l cb minute hour day week month r h
      exact ⟨fun h' => absurd h' (hP x hx), fun h' => absurd h' h⟩
  refine ⟨?_, ?_, hiff, ?_, ?_, ?_⟩
  · by_cases h : timeout % 2 ^ 64 = 0
    · have h0 : htimer_add l now cb timeout r = none := by
        unfold htimer_add
        rw [if_pos h]
      exact ⟨fun _ => h, fun _ => by simp [htimer_add_call, h0]⟩
    · have : ∃ x, htimer_add l now cb timeout r = some x := by
        unfold htimer_add
        rw [if_neg h]
        exact ⟨_, rfl⟩
      obtain ⟨x, hx⟩ := this
      exact ⟨fun h' => absurd h' (hA x hx), fun h' => absurd h' h⟩
  · intro h
    cases hx : htimer_add l now cb timeout r with
    | none => simp [htimer_add_call, hx]
    | some x => exact absurd h (hA x hx)
  · rintro ⟨⟨a1, a2⟩, ⟨b1, b2⟩, ⟨c1, c2⟩, ⟨d1, d2⟩, ⟨e1, e2⟩⟩
    rw [hiff, toInt8_of_range minute a1 a2, toInt8_of_range hour b1 b2,
      toInt8_of_range day c1 c2, toInt8_of_range week d1 d2, toInt8_of_range month e1 e2]
  · intro h
    cases hx : htimer_add_period env l cb minute hour day week month r with
    | none => simp [htimer_add_period_call, hx]
    | some x => exact absurd h (hP x hx)
  · rintro ⟨⟨a1, a2⟩, ⟨b1, b2⟩, ⟨c1, c2⟩, ⟨d1, d2⟩, ⟨e1, e2⟩⟩
    intro h
    rw [hiff, toInt8_of_range minute a1 (by omega), toInt8_of_range hour b1 (by omega),
      toInt8_of_range day c1 (by omega), toInt8_of_range week d1 (by omega),
      toInt8_of_range month e1 (by omega)] at h
    omega

/-- C16 at a concrete input: a zero timeout and an out-of-range minute are
rejected and leave the loop as it was, wildcard fields are accepted, and the
argument 200, which is not an `int8_t` value, arrives as -56 and is
accepted. -/
theorem C16_validation_atomic_witness :
    ((htimer_add_call (hloop_init 5) 9 (some 1) 0 1).2 = none ∧
      (htimer_add_call (hloop_init 5) 9 (some 1) 0 1).1 = hloop_init 5) ∧
    ((htimer_add_period_call Env.quiet (hloop_init 5) (some 1) 60 0 0 0 0 1).2 = none ∧
      (htimer_add_period_call Env.quiet (hloop_init 5) (some 1) 60 0 0 0 0 1).1 = hloop_init 5) ∧
    (htimer_add_period_call Env.quiet (hloop_init 5) (some 1) (-1) (-1) (-1) (-1) (-1) 1).2
      ≠ none ∧
    (htimer_add_call (hloop_init 5) 9 (some 1) 3 1).2 = some 0 ∧
    (toInt8 200 = -56 ∧
      (htimer_add_period_call Env.quiet (hloop_init 5) (some 1) 200 0 0 0 0 1).2 = some 0) :=
  have h := C16_validation_atomic Env.quiet (hloop_init 5) 9 (some 1) 0 1 60 0 0 0 0
  have w := C16_validation_atomic Env.quiet (hloop_init 5) 9 (some 1) 0 1 (-1) (-1) (-1) (-1) (-1)
  ⟨⟨h.1.2 (by decide), h.2.1 (h.1.2 (by decide))⟩,
    ⟨(h.2.2.2.1 (by decide)).2 (by decide),
      h.2.2.2.2.1 ((h.2.2.2.1 (by decide)).2 (by decide))⟩,
    w.2.2.2.2.2 (by decide), by decide, by decide, by decide⟩

/-! ## Status machine -/

theorem run_loop_stop (env : Env) (fuel : Nat) (ins : List TickInput) (l : Loop)
    (h : l.status = .HLOOP_STATUS_STOP) : hloop_run_loop env fuel ins l = some l := by
  unfold hloop_run_loop
  simp [h]

/-! ## Block time beyond 32 bits -/

/-- C19: the block time is not always in 1..1000. A root deadline
2147483648000 µs ahead (a timer of 2147483648 ms, about 24.9 days) gives the
block time -2147483647 ms, a deadline 4294967295000 µs ahead gives 0 ms: the
millisecond count is narrowed to 32 bits before it is clamped. The tick passes
the negative value to `msleep`. -/
theorem C19_blocktime_truncated :
    toInt64 (sub64 2147483648000 0) = 2147483648000 ∧
    hloop_blocktime (some 2147483648000) 0 = some (-2147483647) ∧
    toInt64 (sub64 4294967295000 0) = 4294967295000 ∧
    hloop_blocktime (some 4294967295000) 0 = some 0 ∧
    ((htimer_add (hloop_init 0) 0 (some 7) 2147483648 1).bind
        (fun p => hloop_process_events Env.quiet 10 p.1 0 5 (.ready []))).map
      (fun q => q.1.trace) = some [Obs.msleep (-2147483647)] := by
  decide!

/-! ## The IO table -/

theorem Stage.trans {S : Nat → Prop} {l l1 l2 : Loop} (h1 : Stage S l l1) (h2 : Stage S l1 l2) :
    Stage S l l2 := by
  induction h2 with
  | refl => exact h1
  | upd a f _ hS hf ih => exact Stage.upd a f ih hS hf
  | pend a _ hS ih => exact Stage.pend a ih hS
  | frame l3 _ e1 e2 e3 e4 e5 ih => exact Stage.frame l3 ih e1 e2 e3 e4 e5

theorem Stage.mono {S T : Nat → Prop} {l l1 : Loop} (hST : ∀ a, S a → T a) (h : Stage S l l1) :
    Stage T l l1 := by
  induction h with
  | refl => exact Stage.refl _
  | upd a f _ hS hf ih => exact Stage.upd a f ih (hST a hS) hf
  | pend a _ hS ih => exact Stage.pend a ih (hST a hS)
  | frame l3 _ e1 e2 e3 e4 e5 ih => exact Stage.frame l3 ih e1 e2 e3 e4 e5

theorem upd_mem_ne (l : Loop) (a b : Nat) (f : Hevent → Hevent) (h : b ≠ a) :
    (l.upd a f).mem b = l.mem b := by
  simp [Loop.upd, Function.update_noteq h]

theorem upd_mem_self (l : Loop) (a : Nat) (f : Hevent → Hevent) :
    (l.upd a f).mem a = (l.mem a).map f := by
  simp [Loop.upd]

theorem EVENT_PENDING_mem_ne (l : Loop) (a b : Nat) (h : b ≠ a) :
    (EVENT_PENDING l a).mem b = l.mem b := by
  unfold EVENT_PENDING
  split
  · rfl
  · split
    · rfl
    · simp [Loop.upd, Function.update_noteq h]

theorem EVENT_PENDING_fields (l : Loop) (a : Nat) :
    (EVENT_PENDING l a).brk = l.brk ∧ (EVENT_PENDING l a).ios_ptr = l.ios_ptr ∧
    (EVENT_PENDING l a).idles = l.idles ∧ (EVENT_PENDING l a).timers = l.timers ∧
    (EVENT_PENDING l a).trace = l.trace ∧ (EVENT_PENDING l a).cur_hrtime = l.cur_hrtime := by
  unfold EVENT_PENDING
  split
  · exact ⟨rfl, rfl, rfl, rfl, rfl, rfl⟩
  · split
    · exact ⟨rfl, rfl, rfl, rfl, rfl, rfl⟩
    · exact ⟨rfl, rfl, rfl, rfl, rfl, rfl⟩

/-- A stage leaves alone every handle outside `S`, the allocator and the IO
table. -/
theorem Stage.frame_out {S : Nat → Prop} {l l1 : Loop} (h : Stage S l l1) :
    (∀ b, ¬ S b → l1.mem b = l.mem b) ∧ l1.brk = l.brk ∧ l1.ios_ptr = l.ios_ptr := by
  induction h with
  | refl => exact ⟨fun _ _ => rfl, rfl, rfl⟩
  | @upd l1 a f _ hS hf ih =>
    refine ⟨fun b hb => ?_, ih.2.1, ih.2.2⟩
    have hne : b ≠ a := fun hba => hb (hba ▸ hS)
    rw [upd_mem_ne _ _ _ _ hne]
    exact ih.1 b hb
  | @pend l1 a _ hS ih =>
    refine ⟨fun b hb => ?_, (EVENT_PENDING_fields l1 a).1.trans ih.2.1,
      (EVENT_PENDING_fields l1 a).2.1.trans ih.2.2⟩
    have hne : b ≠ a := fun hba => hb (hba ▸ hS)
    rw [EVENT_PENDING_mem_ne _ _ _ hne]
    exact ih.1 b hb
  | frame l3 _ e1 e2 e3 e4 e5 ih =>
    exact ⟨fun b hb => by rw [e1]; exact ih.1 b hb, e4.trans ih.2.1, e5.trans ih.2.2⟩

theorem EVENT_PENDING_live (l : Loop) (a b : Nat) :
    ((EVENT_PENDING l a).mem b).isSome = (l.mem b).isSome := by
  by_cases h : b = a
  · subst h
    unfold EVENT_PENDING
    split
    · rfl
    · rename_i ev he
      split
      · rfl
      · simp [Loop.upd, he]
  · rw [EVENT_PENDING_mem_ne _ _ _ h]

/-- A stage neither frees nor creates a handle. -/
theorem Stage.live {S : Nat → Prop} {l l1 : Loop} (h : Stage S l l1) :
    ∀ b, (l1.mem b).isSome = (l.mem b).isSome := by
  induction h with
  | refl => exact fun _ => rfl
  | @upd l1 a f _ hS hf ih =>
    intro b
    by_cases hb : b = a
    · subst hb
      rw [upd_mem_self, ← ih b]
      cases l1.mem b <;> rfl
    · rw [upd_mem_ne _ _ _ _ hb]
      exact ih b
  | @pend l1 a _ hS ih =>
    intro b
    rw [EVENT_PENDING_live]
    exact ih b
  | frame l3 _ e1 e2 e3 e4 e5 ih =>
    intro b
    rw [e1]
    exact ih b

theorem stage_upd {S : Nat → Prop} (l : Loop) (a : Nat) (f : Hevent → Hevent) (hS : S a)
    (hf : ∀ e, (f e).pending = e.pending ∧ (f e).pending_next = e.pending_next) :
    Stage S l (l.upd a f) :=
  Stage.upd a f (Stage.refl l) hS hf

theorem stage_EVENT_PENDING {S : Nat → Prop} (l : Loop) (a : Nat) (hS : S a) :
    Stage S l (EVENT_PENDING l a) :=
  Stage.pend a (Stage.refl l) hS

theorem stage_set_timers {S : Nat → Prop} {l l1 : Loop} (h : Stage S l l1) (ts : List Nat) :
    Stage S l { l1 with timers := ts } :=
  Stage.frame _ h rfl rfl rfl rfl rfl

theorem stage_set_idles {S : Nat → Prop} {l l1 : Loop} (h : Stage S l l1) (ts : List Nat) :
    Stage S l { l1 with idles := ts } :=
  Stage.frame _ h rfl rfl rfl rfl rfl

theorem stage_set_nactives {S : Nat → Prop} {l l1 : Loop} (h : Stage S l l1) (n : Nat) :
    Stage S l { l1 with nactives := n } :=
  Stage.frame _ h rfl rfl rfl rfl rfl

theorem stage_set_ntimers {S : Nat → Prop} {l l1 : Loop} (h : Stage S l l1) (n : Nat) :
    Stage S l { l1 with ntimers := n } :=
  Stage.frame _ h rfl rfl rfl rfl rfl

theorem stage_set_nidles {S : Nat → Prop} {l l1 : Loop} (h : Stage S l l1) (n : Nat) :
    Stage S l { l1 with nidles := n } :=
  Stage.frame _ h rfl rfl rfl rfl rfl

theorem stage_emit {S : Nat → Prop} {l l1 : Loop} (h : Stage S l l1) (o : Obs) :
    Stage S l (l1.emit o) :=
  Stage.frame _ h rfl rfl rfl rfl rfl

theorem stage_update_time {S : Nat → Prop} {l l1 : Loop} (h : Stage S l l1) (now : Nat) :
    Stage S l (hloop_update_time l1 now) :=
  Stage.frame _ h rfl rfl rfl rfl rfl

theorem stage_EVENT_INACTIVE {S : Nat → Prop} (l : Loop) (a : Nat) (hS : S a) :
    Stage S l (EVENT_INACTIVE l a) := by
  unfold EVENT_INACTIVE
  split
  · exact Stage.refl l
  · split
    · apply stage_set_nactives
      refine Stage.upd a _ (Stage.refl l) hS ?_
      exact fun _ => ⟨rfl, rfl⟩
    · exact Stage.refl l

theorem stage_EVENT_DEL {S : Nat → Prop} (l : Loop) (a : Nat) (hS : S a) :
    Stage S l (EVENT_DEL l a) := by
  unfold EVENT_DEL
  refine Stage.trans (Stage.upd a _ (Stage.refl l) hS ?_) (stage_EVENT_INACTIVE _ a hS)
  exact fun _ => ⟨rfl, rfl⟩

theorem stage_repeat_countdown {S : Nat → Prop} (l : Loop) (a : Nat) (hS : S a) :
    Stage S l (repeat_countdown l a) := by
  unfold repeat_countdown
  split
  · exact Stage.refl l
  · split
    · refine Stage.upd a _ (Stage.refl l) hS ?_
      exact fun _ => ⟨rfl, rfl⟩
    · exact Stage.refl l

theorem stage_htimer_del {S : Nat → Prop} (l : Loop) (a : Nat) (hS : S a) :
    Stage S l (htimer_del l a) := by
  unfold htimer_del
  split
  · exact Stage.refl l
  · split
    · exact Stage.refl l
    · refine Stage.upd a _ ?_ hS ?_
      · exact (stage_set_ntimers (Stage.refl l) _).trans (stage_EVENT_DEL _ a hS)
      · exact fun _ => ⟨rfl, rfl⟩

theorem stage_htimer_del_if_done {S : Nat → Prop} (l : Loop) (a : Nat) (hS : S a) :
    Stage S l (htimer_del_if_done l a) := by
  unfold htimer_del_if_done
  split
  · exact Stage.refl l
  · split
    · exact stage_htimer_del l a hS
    · exact Stage.refl l

theorem stage_hidle_del {S : Nat → Prop} (l : Loop) (a : Nat) (hS : S a) :
    Stage S l (hidle_del l a) := by
  unfold hidle_del
  split
  · exact Stage.refl l
  · split
    · exact Stage.refl l
    · exact (stage_set_nidles (Stage.refl l) _).trans (stage_EVENT_DEL _ a hS)

theorem stage_hidle_del_if_done {S : Nat → Prop} (l : Loop) (a : Nat) (hS : S a) :
    Stage S l (hidle_del_if_done l a) := by
  unfold hidle_del_if_done
  split
  · exact Stage.refl l
  · split
    · exact stage_hidle_del l a hS
    · exact Stage.refl l

theorem stage_idle_unlink {S : Nat → Prop} (l : Loop) (a : Nat) :
    Stage S l (idle_unlink l a) := by
  unfold idle_unlink
  split
  · exact Stage.refl l
  · split
    · exact stage_set_idles (Stage.refl l) _
    · exact Stage.refl l

theorem stage_idles_step {S : Nat → Prop} (l : Loop) (a : Nat) (hS : S a) :
    Stage S l (hloop_process_idles_step l a) :=
  (((stage_repeat_countdown l a hS).trans (stage_hidle_del_if_done _ a hS)).trans
    (stage_EVENT_PENDING _ a hS)).trans (stage_idle_unlink _ a)

theorem stage_timer_requeue {S : Nat → Prop} (env : Env) (l : Loop) (a : Nat) (hS : S a) :
    Stage S l (timer_requeue env l a) := by
  unfold timer_requeue
  have h0 : Stage S l { l with timers := heap_dequeue (timers_compare l) l.timers } :=
    stage_set_timers (Stage.refl l) _
  simp only
  split
  · exact h0
  · split
    · apply stage_set_timers
      split
      · refine Stage.upd a _ h0 hS ?_
        exact fun _ => ⟨rfl, rfl⟩
      · split
        · refine Stage.upd a _ h0 hS ?_
          exact fun _ => ⟨rfl, rfl⟩
        · exact h0
    · exact h0

theorem stage_timers_step {S : Nat → Prop} (env : Env) (l : Loop) (a : Nat) (hS : S a) :
    Stage S l (hloop_process_timers_step env l a) :=
  (((stage_repeat_countdown l a hS).trans (stage_htimer_del_if_done _ a hS)).trans
    (stage_EVENT_PENDING _ a hS)).trans (stage_timer_requeue env _ a hS)
/-! ## Timers that are not due, timers that stay due -/

/-- A timer whose deadline lies after the loop time is left alone by
`hloop_process_timers`: it is not marked pending and none of its fields
changes. -/
theorem timers_loop_untouched (env : Env) (now a : Nat) (e : Hevent) :
    ∀ (fuel : Nat) (l : Loop) (n : Nat) (l1 : Loop) (n1 : Nat),
      l.mem a = some e → now < e.next_timeout →
      hloop_process_timers_loop env now fuel l n = some (l1, n1) → l1.mem a = some e := by
  intro fuel
  induction fuel with
  | zero =>
    intro l n l1 n1 he hlt hr
    unfold hloop_process_timers_loop at hr
    cases ht : l.timers with
    | nil => simp [ht] at hr; rw [← hr.1]; exact he
    | cons r rest =>
      by_cases hk : l.key r > now
      · simp [ht, hk] at hr; rw [← hr.1]; exact he
      · simp [ht, hk] at hr
  | succ fuel ih =>
    intro l n l1 n1 he hlt hr
    unfold hloop_process_timers_loop at hr
    cases ht : l.timers with
    | nil => simp [ht] at hr; rw [← hr.1]; exact he
    | cons r rest =>
      by_cases hk : l.key r > now
      · simp [ht, hk] at hr; rw [← hr.1]; exact he
      · simp only [ht, hk, if_false] at hr
        have hne : a ≠ r := by
          intro h
          subst h
          apply hk
          unfold Loop.key
          rw [he]
          exact hlt
        have hst : Stage (fun x => x = r) l (hloop_process_timers_step env l r) :=
          stage_timers_step env l r rfl
        have hm : (hloop_process_timers_step env l r).mem a = some e := by
          rw [hst.frame_out.1 a hne]
          exact he
        exact ih _ _ _ _ hm hlt hr

theorem stuck_step (env : Env) (l : Loop) (a : Nat) (e : Hevent)
    (hheap : l.timers = [a]) (he : l.mem a = some e) (hrep : e.«repeat» = INFINITE)
    (hact : e.active = true) (hty : e.event_type = .HEVENT_TYPE_TIMEOUT)
    (hmul : mul64 e.timeout 1000 = 0) (hlt : e.next_timeout < 2 ^ 64) :
    (hloop_process_timers_step env l a).timers = [a] ∧
    ∃ e1, (hloop_process_timers_step env l a).mem a = some e1 ∧ e1.«repeat» = INFINITE ∧
      e1.active = true ∧ e1.event_type = .HEVENT_TYPE_TIMEOUT ∧ e1.timeout = e.timeout ∧
      e1.next_timeout = e.next_timeout := by
  have h0 : ¬ (INFINITE = 0) := by decide
  have ha : add64 e.next_timeout 0 = e.next_timeout := by unfold add64; omega
  cases hp : e.pending
  · simp [hloop_process_timers_step, repeat_countdown, htimer_del_if_done, timer_requeue, he,
      hrep, h0, Loop.upd, EVENT_PENDING, hp, hheap, heap_dequeue_singleton, hact, hty,
      heap_insert_nil, hmul, ha]
  · simp [hloop_process_timers_step, repeat_countdown, htimer_del_if_done, timer_requeue, he,
      hrep, h0, Loop.upd, EVENT_PENDING, hp, hheap, heap_dequeue_singleton, hact, hty,
      heap_insert_nil, hmul, ha]

/-- A lone repeating timer whose interval is 0 µs in 64-bit arithmetic and whose
deadline has passed keeps `hloop_process_timers` busy for ever: the bound is
reached whatever it is. -/
theorem stuck_loop (env : Env) (now a : Nat) :
    ∀ (fuel : Nat) (l : Loop) (n : Nat) (e : Hevent),
      l.timers = [a] → l.mem a = some e → e.«repeat» = INFINITE → e.active = true →
      e.event_type = .HEVENT_TYPE_TIMEOUT → mul64 e.timeout 1000 = 0 →
      e.next_timeout < 2 ^ 64 → e.next_timeout ≤ now →
      hloop_process_timers_loop env now fuel l n = none := by
  intro fuel
  induction fuel with
  | zero =>
    intro l n e hheap he hrep hact hty hmul hlt hle
    unfold hloop_process_timers_loop
    have hk : ¬ (l.key a > now) := by simp only [Loop.key, he]; omega
    simp [hheap, hk]
  | succ fuel ih =>
    intro l n e hheap he hrep hact hty hmul hlt hle
    have hk : l.key a ≤ now := by simp only [Loop.key, he]; omega
    rw [timers_loop_step env now fuel n l a [] hheap hk]
    obtain ⟨h1, e1, h2, h3, h4, h5, h6, h7⟩ := stuck_step env l a e hheap he hrep hact hty hmul hlt
    exact ih _ _ e1 h1 h2 h3 h4 h5 (by rw [h6]; exact hmul) (by rw [h7]; exact hlt)
      (by rw [h7]; exact hle)

/-- C20: `hloop_process_timers` does not terminate for every heap of TIMEOUT
timers. `htimer_add` accepts the timeout `2^61` ms; its interval
`timeout*1000` is 0 in 64-bit arithmetic, so with `repeat = INFINITE` the
timer is due at once and stays the due root after every re-insertion: the
`while` never ends (whatever bound is put on the number of iterations, it is
reached), and the tick that runs it never returns. -/
theorem C20_timers_loop_forever (fuel : Nat) :
    mul64 (2 ^ 61) 1000 = 0 ∧
    ((htimer_add (hloop_init 0) 0 (some 7) (2 ^ 61) INFINITE).map
      (fun p => (p.1.timers, p.1.timers.map p.1.key))) = some ([0], [0]) ∧
    ((htimer_add (hloop_init 0) 0 (some 7) (2 ^ 61) INFINITE).bind
      (fun p => hloop_process_timers Env.quiet fuel p.1)) = none ∧
    ((htimer_add (hloop_init 0) 0 (some 7) (2 ^ 61) INFINITE).bind
      (fun p => hloop_process_events Env.quiet fuel p.1 0 0 (.ready []))) = none := by
  have e1 : (htimer_add (hloop_init 0) 0 (some 7) (2 ^ 61) INFINITE).map
      (fun p => (p.1.timers, p.1.mem 0, p.1.cur_hrtime, p.1.ntimers)) =
      some ([0], some (
        { priority := .HEVENT_HIGHEST_PRIORITY, loop := true,
          event_type := .HEVENT_TYPE_TIMEOUT, cb := some 7, active := true,
          timeout := 2 ^ 61, next_timeout := 0, «repeat» := INFINITE } : Hevent), 0, 1) := by
    decide!
  refine ⟨by decide, by decide!, ?_, ?_⟩
  · cases h : htimer_add (hloop_init 0) 0 (some 7) (2 ^ 61) INFINITE with
    | none => rfl
    | some p =>
      rw [h] at e1
      simp only [Option.map_some', Option.some.injEq, Prod.mk.injEq] at e1
      obtain ⟨ht, hm, hc, _⟩ := e1
      show hloop_process_timers Env.quiet fuel p.1 = none
      unfold hloop_process_timers hloop_now_hrtime
      exact stuck_loop Env.quiet _ 0 fuel p.1 0 _ ht hm rfl rfl rfl (by decide) (by decide)
        (by rw [hc])
  · cases h : htimer_add (hloop_init 0) 0 (some 7) (2 ^ 61) INFINITE with
    | none => rfl
    | some p =>
      rw [h] at e1
      simp only [Option.map_some', Option.some.injEq, Prod.mk.injEq] at e1
      obtain ⟨ht, hm, hc, hn⟩ := e1
      show hloop_process_events Env.quiet fuel p.1 0 0 (.ready []) = none
      have hk : (hloop_update_time p.1 0).key 0 = 0 := by
        unfold Loop.key hloop_update_time
        simp [hm]
      have hb : hloop_blocktime ((hloop_update_time p.1 0).timers.head?.map
          (hloop_update_time p.1 0).key) (hloop_now_hrtime (hloop_update_time p.1 0)) = none := by
        have : (hloop_update_time p.1 0).timers = [0] := ht
        rw [this]
        simp only [List.head?_cons, Option.map_some', hk]
        show hloop_blocktime (some 0) (0 % 2 ^ 64) = none
        decide
      unfold hloop_process_events
      simp only [hb]
      unfold hloop_process_events_tail
      have hnt : (hloop_update_time p.1 0).ntimers ≠ 0 := by
        show p.1.ntimers ≠ 0
        rw [hn]; decide
      simp only [hnt, ne_eq, not_false_eq_true, if_true]
      have : hloop_process_timers Env.quiet fuel (hloop_update_time p.1 0) = none := by
        unfold hloop_process_timers hloop_now_hrtime
        exact stuck_loop Env.quiet _ 0 fuel (hloop_update_time p.1 0) 0 _ ht hm rfl rfl rfl
          (by decide) (by decide) (Nat.le_of_eq rfl)
      rw [this]

/-- C12: a timer can fire earlier than its timeout. The timeout `2^61 + 1` ms is
accepted by `htimer_add`; `timeout*1000` wraps to 1000 µs in 64-bit
arithmetic, so the deadline is 1 ms after the add and the tick whose loop
time is 1100 µs marks the timer pending and runs its callback, although
`t0 + T*1000` is 2305843009213693953000 µs. -/
theorem C12_timer_fires_early :
    mul64 (2 ^ 61 + 1) 1000 = 1000 ∧
    ((htimer_add (hloop_init 0) 0 (some 7) (2 ^ 61 + 1) INFINITE).map
      (fun p => p.1.timers.map p.1.key)) = some [1000] ∧
    ((htimer_add (hloop_init 0) 0 (some 7) (2 ^ 61 + 1) INFINITE).bind
        (fun p => hloop_process_events Env.quiet 10 p.1 500 1100 (.ready []))).map
      (fun q => (q.1.cur_hrtime, q.1.trace)) = some (1100, [Obs.msleep 1, Obs.cb 0 7]) := by
  decide!
/-- The handle that `htimer_add` creates, when the deadline `now0 + T*1000` fits
64 bits: it is not pending and its deadline is `now0 + T*1000`. -/
theorem htimer_add_handle (l : Loop) (now0 : Nat) (cb : Option Nat) (T k : Nat)
    (hT : 1 ≤ T) (hk : k < 2 ^ 32) (hov : now0 + T * 1000 < 2 ^ 64) :
    ∃ l0, htimer_add l now0 cb T k = some (l0, l.brk) ∧ l0.cur_hrtime = now0 ∧
      l0.mem l.brk = some
        { loop := true, event_type := .HEVENT_TYPE_TIMEOUT,
          priority := .HEVENT_HIGHEST_PRIORITY, cb := cb, active := true,
          «repeat» := k, timeout := T, next_timeout := now0 + T * 1000 } := by
  have hT' : T % 18446744073709551616 = T := Nat.mod_eq_of_lt (by omega)
  have hT0 : ¬ (T = 0) := by omega
  have hk' : k % 4294967296 = k := Nat.mod_eq_of_lt (by omega)
  have hn' : now0 % 18446744073709551616 = now0 := Nat.mod_eq_of_lt (by omega)
  have hm : mul64 T 1000 = T * 1000 := by unfold mul64; omega
  have ha : add64 now0 (T * 1000) = now0 + T * 1000 := by unfold add64; omega
  simp only [htimer_add, Loop.alloc, Loop.upd, hloop_update_time, hloop_now_hrtime, EVENT_ADD,
    EVENT_ACTIVE, Nat.reducePow, hT', hT0, hk', hn', hm, ha, if_false,
    Function.update_same, Option.map_some', Function.update_idem, Bool.false_eq_true]
  exact ⟨_, rfl, rfl, Function.update_same _ _ _⟩

/-- A timer added at time `t0` with timeout `T` ms, `t0 + T*1000 < 2^64`, is
left alone by every run of `hloop_process_timers` whose loop time is before
`t0 + T*1000` µs, as long as its deadline has not been moved below that. -/
theorem timer_not_early (env : Env) (l : Loop) (t0 : Nat) (cb : Option Nat) (T k : Nat)
    (hT : 1 ≤ T) (hk : k < 2 ^ 32) (hov : t0 + T * 1000 < 2 ^ 64) :
    ∃ l0 e0, htimer_add l t0 cb T k = some (l0, l.brk) ∧ l0.mem l.brk = some e0 ∧
      e0.pending = false ∧ e0.next_timeout = t0 + T * 1000 ∧
      ∀ (l1 : Loop) (e1 : Hevent) (fuel : Nat) (l2 : Loop) (n : Nat),
        l1.mem l.brk = some e1 → t0 + T * 1000 ≤ e1.next_timeout →
        l1.cur_hrtime < t0 + T * 1000 →
        hloop_process_timers env fuel l1 = some (l2, n) → l2.mem l.brk = some e1 := by
  obtain ⟨l0, h1, _, h3⟩ := htimer_add_handle l t0 cb T k hT hk hov
  refine ⟨l0, _, h1, h3, rfl, rfl, ?_⟩
  intro l1 e1 fuel l2 n he hd hc hr
  exact timers_loop_untouched env _ l.brk e1 fuel l1 0 l2 n he (by
    unfold hloop_now_hrtime; omega) hr

/-! ## The idle walk -/

theorem list_next_mid (kept rest : List Nat) (a : Nat) (hnd : (kept ++ a :: rest).Nodup) :
    list_next (kept ++ a :: rest) (some a) = rest.head? := by
  have ha : a ∉ kept := by
    intro h
    have := (List.nodup_append.mp hnd).2.2
    exact this h (List.mem_cons_self _ _) 
  unfold list_next
  simp only
  rw [List.indexOf_append_of_not_mem ha, List.indexOf_cons_self, Nat.add_zero,
    List.getElem?_append_right (by omega)]
  have : kept.length + 1 - kept.length = 1 := by omega
  rw [this]
  cases rest <;> simp

theorem list_prev_mid (kept rest : List Nat) (a : Nat) (hnd : (kept ++ a :: rest).Nodup) :
    list_prev (kept ++ a :: rest) rest.head? = some a := by
  have hnd' := List.nodup_append.mp hnd
  cases rest with
  | nil =>
    unfold list_prev
    simp only [List.head?_nil]
    exact List.getLast?_concat kept
  | cons b r =>
    have hb : b ∉ kept := fun h => hnd'.2.2 h (List.mem_cons_of_mem _ (List.mem_cons_self _ _))
    have hba : a ≠ b := by
      intro h
      have := (List.nodup_cons.mp hnd'.2.1).1
      exact this (h ▸ List.mem_cons_self _ _)
    unfold list_prev
    simp only [List.head?_cons]
    rw [List.indexOf_append_of_not_mem hb, List.indexOf_cons_ne _ hba, List.indexOf_cons_self]
    have h1 : ¬ (kept.length + Nat.succ 0 = 0) := by omega
    rw [if_neg h1]
    have h2 : kept.length + Nat.succ 0 - 1 = kept.length := by omega
    rw [h2, List.getElem?_append_right (le_refl _)]
    simp

theorem erase_mid (kept rest : List Nat) (a : Nat) (hnd : (kept ++ a :: rest).Nodup) :
    (kept ++ a :: rest).erase a = kept ++ rest := by
  have ha : a ∉ kept := fun h =>
    (List.nodup_append.mp hnd).2.2 h (List.mem_cons_self _ _)
  rw [List.erase_append_right _ ha, List.erase_cons_head]

theorem repeat_countdown_idles (l : Loop) (a : Nat) : (repeat_countdown l a).idles = l.idles := by
  unfold repeat_countdown
  split
  · rfl
  · split <;> rfl

theorem EVENT_INACTIVE_idles (l : Loop) (a : Nat) : (EVENT_INACTIVE l a).idles = l.idles := by
  unfold EVENT_INACTIVE
  split
  · rfl
  · split <;> rfl

theorem upd_idles (l : Loop) (a : Nat) (f : Hevent → Hevent) : (l.upd a f).idles = l.idles :=
  rfl

theorem hidle_del_if_done_idles (l : Loop) (a : Nat) :
    (hidle_del_if_done l a).idles = l.idles := by
  unfold hidle_del_if_done
  split
  · rfl
  · split
    · unfold hidle_del
      split
      · rfl
      · split
        · rfl
        · unfold EVENT_DEL
          rw [EVENT_INACTIVE_idles, upd_idles]
    · rfl

theorem idles_visit_idles (l : Loop) (a : Nat) :
    (EVENT_PENDING (hidle_del_if_done (repeat_countdown l a) a) a).idles = l.idles := by
  rw [(EVENT_PENDING_fields _ a).2.2.1, hidle_del_if_done_idles, repeat_countdown_idles]

theorem idle_unlink_prev_eq (l : Loop) (kept rest : List Nat) (a : Nat)
    (hl : l.idles = kept ++ a :: rest) (hnd : (kept ++ a :: rest).Nodup) :
    idle_unlink_prev l a rest.head? = idle_unlink l a := by
  unfold idle_unlink_prev idle_unlink
  cases l.mem a with
  | none => rfl
  | some ev =>
    simp only [hl, list_prev_mid kept rest a hnd, list_del]

/-- One iteration of the cursor walk is the step `hloop_process_idles_step`, and
the cursor moves to the node that followed the visited one. -/
theorem idles_walk_step (fuel : Nat) (l : Loop) (kept rest : List Nat) (a n : Nat)
    (hl : l.idles = kept ++ a :: rest) (hnd : (kept ++ a :: rest).Nodup) :
    hloop_process_idles_walk (fuel + 1) l (some a) n =
      hloop_process_idles_walk fuel (hloop_process_idles_step l a) rest.head? (n + 1) := by
  have hi := idles_visit_idles l a
  rw [hl] at hi
  conv_lhs => unfold hloop_process_idles_walk
  simp only [hi, list_next_mid kept rest a hnd]
  rw [idle_unlink_prev_eq _ kept rest a hi hnd]
  rfl

theorem idles_visit_live (l : Loop) (a b : Nat) :
    ((EVENT_PENDING (hidle_del_if_done (repeat_countdown l a) a) a).mem b).isSome
      = (l.mem b).isSome :=
  (((stage_repeat_countdown (S := fun x => x = a) l a rfl).trans
    (stage_hidle_del_if_done _ a rfl)).trans (stage_EVENT_PENDING _ a rfl)).live b

theorem idles_step_idles (l : Loop) (kept rest : List Nat) (a : Nat)
    (hl : l.idles = kept ++ a :: rest) (hnd : (kept ++ a :: rest).Nodup)
    (hlive : (l.mem a).isSome = true) :
    (hloop_process_idles_step l a).idles =
      if (hloop_process_idles_step l a).handle_active a then kept ++ a :: rest else kept ++ rest := by
  have hi := idles_visit_idles l a
  rw [hl] at hi
  have hm : (hloop_process_idles_step l a).mem a =
      (EVENT_PENDING (hidle_del_if_done (repeat_countdown l a) a) a).mem a := by
    unfold hloop_process_idles_step idle_unlink
    split
    · rfl
    · split <;> rfl
  have hlv := idles_visit_live l a a
  rw [hlive] at hlv
  unfold Loop.handle_active
  rw [hm]
  unfold hloop_process_idles_step idle_unlink
  cases hma : (EVENT_PENDING (hidle_del_if_done (repeat_countdown l a) a) a).mem a with
  | none => rw [hma] at hlv; cases hlv
  | some ev =>
    cases hact : ev.active
    · simp only [hact, Bool.not_false, if_true, hi, erase_mid kept rest a hnd]
      simp
    · simp only [hact, Bool.not_true]
      simpa using hi
theorem idle_unlink_mem (l : Loop) (a : Nat) : (idle_unlink l a).mem = l.mem := by
  unfold idle_unlink
  split
  · rfl
  · split <;> rfl

theorem repeat_countdown_mem_self (l : Loop) (a : Nat) (e : Hevent) (he : l.mem a = some e) :
    (repeat_countdown l a).mem a = some { e with
      «repeat» := if e.«repeat» ≠ INFINITE then dec32 e.«repeat» else e.«repeat» } := by
  unfold repeat_countdown
  by_cases h : e.«repeat» = INFINITE
  · simp only [he, h, ne_eq, not_true_eq_false, if_false]
    congr 1
    cases e
    simp_all
  · simp [he, h, Loop.upd]

theorem hidle_del_if_done_mem_self (l : Loop) (a : Nat) (e : Hevent) (he : l.mem a = some e) :
    (hidle_del_if_done l a).mem a = some
      (if e.«repeat» = 0 ∧ e.active = true then { e with destroy := true, active := false }
        else e) := by
  unfold hidle_del_if_done
  by_cases h : e.«repeat» = 0
  · cases hact : e.active
    · simp [he, h, hact, hidle_del]
    · simp [he, h, hact, hidle_del, EVENT_DEL, EVENT_INACTIVE, Loop.upd]
  · simp [he, h]

theorem EVENT_PENDING_mem_self (l : Loop) (a : Nat) (e : Hevent) (he : l.mem a = some e) :
    ∃ nx, (EVENT_PENDING l a).mem a = some { e with pending := true, pending_next := nx } := by
  unfold EVENT_PENDING
  cases hp : e.pending
  · refine ⟨l.pendings (HEVENT_PRIORITY_INDEX e.priority), ?_⟩
    simp [he, hp, Loop.upd]
  · refine ⟨e.pending_next, ?_⟩
    simp only [he, hp, if_true]
    congr 1
    cases e
    simp_all

/-- What one visit of the idle walk does to the idle it visits. -/
theorem idles_step_self (l : Loop) (a : Nat) (e : Hevent) (he : l.mem a = some e) :
    ∃ e1, (hloop_process_idles_step l a).mem a = some e1 ∧ e1.pending = true ∧
      { e1 with pending := e.pending, pending_next := e.pending_next } = idle_visited e := by
  unfold hloop_process_idles_step
  rw [idle_unlink_mem]
  have h1 := repeat_countdown_mem_self l a e he
  have h2 := hidle_del_if_done_mem_self _ a _ h1
  obtain ⟨nx, h3⟩ := EVENT_PENDING_mem_self _ a _ h2
  refine ⟨_, h3, rfl, ?_⟩
  unfold idle_visited
  simp only
  split_ifs <;> rfl

theorem idles_step_mem_ne (l : Loop) (a b : Nat) (h : b ≠ a) :
    (hloop_process_idles_step l a).mem b = l.mem b :=
  (stage_idles_step (S := fun x => x = a) l a rfl).frame_out.1 b h

/-- The cursor walk over the rest of the idle list does what the fold of the
visit over that rest does, and counts its nodes. -/
theorem idles_walk_eq (fuel : Nat) :
    ∀ (rest kept : List Nat) (l : Loop) (n : Nat),
      l.idles = kept ++ rest → (kept ++ rest).Nodup → rest.length ≤ fuel →
      (∀ a ∈ rest, (l.mem a).isSome = true) →
      hloop_process_idles_walk fuel l rest.head? n
        = some (rest.foldl hloop_process_idles_step l, n + rest.length) := by
  induction fuel with
  | zero =>
    intro rest kept l n _ _ hlen _
    have : rest = [] := List.length_eq_zero.mp (Nat.le_zero.mp hlen)
    subst this
    unfold hloop_process_idles_walk
    rfl
  | succ fuel ih =>
    intro rest kept l n hl hnd hlen hlive
    cases rest with
    | nil =>
      unfold hloop_process_idles_walk
      rfl
    | cons a rest =>
      simp only [List.head?_cons, List.foldl_cons, List.length_cons]
      rw [idles_walk_step fuel l kept rest a n hl hnd]
      have hstep := idles_step_idles l kept rest a hl hnd (hlive a (List.mem_cons_self _ _))
      have hlen' : rest.length ≤ fuel := by simpa using hlen
      have ha_rest : a ∉ rest :=
        (List.nodup_cons.mp (List.nodup_append.mp hnd).2.1).1
      have hlive' : ∀ x ∈ rest, ((hloop_process_idles_step l a).mem x).isSome = true := by
        intro x hx
        have hxa : x ≠ a := fun h => ha_rest (h ▸ hx)
        rw [idles_step_mem_ne l a x hxa]
        exact hlive x (List.mem_cons_of_mem _ hx)
      by_cases hact : (hloop_process_idles_step l a).handle_active a = true
      · rw [if_pos hact] at hstep
        have hl' : (hloop_process_idles_step l a).idles = (kept ++ [a]) ++ rest := by
          rw [hstep]; simp
        have hnd' : ((kept ++ [a]) ++ rest).Nodup := by simpa using hnd
        rw [ih rest (kept ++ [a]) _ (n + 1) hl' hnd' hlen' hlive']
        congr 2
        omega
      · rw [if_neg hact] at hstep
        have hnd' : (kept ++ rest).Nodup := by
          have := hnd
          rw [List.nodup_append] at this ⊢
          refine ⟨this.1, (List.nodup_cons.mp this.2.1).2, ?_⟩
          intro x hx hy
          exact this.2.2 hx (List.mem_cons_of_mem _ hy)
        rw [ih rest kept _ (n + 1) hstep hnd' hlen' hlive']
        congr 2
        omega

/-- The fold of the visit over the rest of the idle list: handles outside the
rest are untouched, and the list afterwards is what was kept followed by the
visited idles that are still active. -/
theorem idles_fold_result :
    ∀ (rest kept : List Nat) (l : Loop),
      l.idles = kept ++ rest → (kept ++ rest).Nodup →
      (∀ a ∈ rest, (l.mem a).isSome = true) →
      (∀ b, b ∉ rest → (rest.foldl hloop_process_idles_step l).mem b = l.mem b) ∧
      (rest.foldl hloop_process_idles_step l).idles =
        kept ++ rest.filter (fun a => (rest.foldl hloop_process_idles_step l).handle_active a) ∧
      (∀ a ∈ rest, ∀ e, l.mem a = some e →
        ∃ e1, (rest.foldl hloop_process_idles_step l).mem a = some e1 ∧ e1.pending = true ∧
          { e1 with pending := e.pending, pending_next := e.pending_next } = idle_visited e) := by
  intro rest
  induction rest with
  | nil =>
    intro kept l hl _ _
    refine ⟨fun _ _ => rfl, by simpa using hl, ?_⟩
    intro a ha
    cases ha
  | cons a rest ih =>
    intro kept l hl hnd hlive
    simp only [List.foldl_cons]
    have hnd0 := List.nodup_append.mp hnd
    have ha_rest : a ∉ rest := (List.nodup_cons.mp hnd0.2.1).1
    have hstep := idles_step_idles l kept rest a hl hnd (hlive a (List.mem_cons_self _ _))
    have hlive' : ∀ x ∈ rest, ((hloop_process_idles_step l a).mem x).isSome = true := by
      intro x hx
      have hxa : x ≠ a := fun h => ha_rest (h ▸ hx)
      rw [idles_step_mem_ne l a x hxa]
      exact hlive x (List.mem_cons_of_mem _ hx)
    have main : ∀ kept1, (hloop_process_idles_step l a).idles = kept1 ++ rest →
        (kept1 ++ rest).Nodup →
        (kept1 = if (hloop_process_idles_step l a).handle_active a then kept ++ [a] else kept) →
        (∀ b, b ∉ a :: rest →
          (rest.foldl hloop_process_idles_step (hloop_process_idles_step l a)).mem b = l.mem b) ∧
        (rest.foldl hloop_process_idles_step (hloop_process_idles_step l a)).idles =
          kept ++ (a :: rest).filter (fun x =>
            (rest.foldl hloop_process_idles_step (hloop_process_idles_step l a)).handle_active x) ∧
        (∀ x ∈ a :: rest, ∀ e, l.mem x = some e →
          ∃ e1, (rest.foldl hloop_process_idles_step (hloop_process_idles_step l a)).mem x
              = some e1 ∧ e1.pending = true ∧
            { e1 with pending := e.pending, pending_next := e.pending_next } = idle_visited e) := by
      intro kept1 hl1 hnd1 hk
      obtain ⟨f1, f2, f3⟩ := ih kept1 _ hl1 hnd1 hlive'
      have hma : (rest.foldl hloop_process_idles_step (hloop_process_idles_step l a)).mem a =
          (hloop_process_idles_step l a).mem a := f1 a ha_rest
      have hact : (rest.foldl hloop_process_idles_step
          (hloop_process_idles_step l a)).handle_active a =
          (hloop_process_idles_step l a).handle_active a := by
        unfold Loop.handle_active
        rw [hma]
      refine ⟨?_, ?_, ?_⟩
      · intro b hb
        have hb1 : b ≠ a := fun h => hb (h ▸ List.mem_cons_self _ _)
        have hb2 : b ∉ rest := fun h => hb (List.mem_cons_of_mem _ h)
        rw [f1 b hb2, idles_step_mem_ne l a b hb1]
      · rw [f2, hk, List.filter_cons, hact]
        by_cases hc : (hloop_process_idles_step l a).handle_active a = true
        · simp [hc]
        · simp [hc]
      · intro x hx e he
        rcases List.mem_cons.mp hx with hxa | hxr
        · subst hxa
          rw [hma]
          exact idles_step_self l x e he
        · have hxa : x ≠ a := fun h => ha_rest (h ▸ hxr)
          exact f3 x hxr e (by rw [idles_step_mem_ne l a x hxa]; exact he)
    by_cases hact : (hloop_process_idles_step l a).handle_active a = true
    · rw [if_pos hact] at hstep
      exact main (kept ++ [a]) (by rw [hstep]; simp) (by simpa using hnd) (by rw [if_pos hact])
    · rw [if_neg hact] at hstep
      have hnd' : (kept ++ rest).Nodup := by
        have := hnd
        rw [List.nodup_append] at this ⊢
        refine ⟨this.1, (List.nodup_cons.mp this.2.1).2, ?_⟩
        intro x hx hy
        exact this.2.2 hx (List.mem_cons_of_mem _ hy)
      exact main kept hstep hnd' (by rw [if_neg hact])

/-- C18: `hloop_process_idles`, for an idle list without repeated nodes whose
nodes are live handles. The cursor walk, given a bound of at least the length of the
list, returns; it visits the nodes of the list at entry in list order, each
once (it is the fold of the visit over that list, which is what the tick
runs), and returns their number. Every visited idle is pending afterwards; its
finite `repeat` is one less (32-bit), and it is deleted (inactive, `destroy`
set) when it was active and its `repeat` is then 0. Handles outside the list
are untouched. The list afterwards holds the visited idles that are still
active, in their original order. -/
theorem C18_idle_walk (l : Loop) (fuel : Nat) (hnd : l.idles.Nodup)
    (hlive : ∀ a ∈ l.idles, (l.mem a).isSome = true) (hfuel : l.idles.length ≤ fuel) :
    hloop_process_idles_cursor fuel l
      = some (l.idles.foldl hloop_process_idles_step l, l.idles.length) ∧
    hloop_process_idles_cursor fuel l = some (hloop_process_idles l) ∧
    (hloop_process_idles l).1.idles =
      l.idles.filter (fun a => (hloop_process_idles l).1.handle_active a) ∧
    (∀ a ∈ l.idles, ∀ e, l.mem a = some e →
      ∃ e1, (hloop_process_idles l).1.mem a = some e1 ∧ e1.pending = true ∧
        { e1 with pending := e.pending, pending_next := e.pending_next } = idle_visited e) ∧
    (∀ b, b ∉ l.idles → (hloop_process_idles l).1.mem b = l.mem b) := by
  have hw : hloop_process_idles_cursor fuel l
      = some (l.idles.foldl hloop_process_idles_step l, l.idles.length) := by
    unfold hloop_process_idles_cursor list_next
    have := idles_walk_eq fuel l.idles [] l 0 (by simp) (by simpa using hnd) hfuel hlive
    simpa using this
  obtain ⟨f1, f2, f3⟩ := idles_fold_result l.idles [] l (by simp) (by simpa using hnd) hlive
  refine ⟨hw, hw, ?_, f3, f1⟩
  simpa using f2

/-- C18 at a concrete input: two idles, the first with one firing left, the
second with three; the walk visits both, deletes and unlinks the first and
keeps the second. -/
theorem C18_idle_walk_witness :
    hloop_process_idles_cursor 2 (hidle_add (hidle_add (hloop_init 0) (some 1) 1).1 (some 2) 3).1
      = some (hloop_process_idles (hidle_add (hidle_add (hloop_init 0) (some 1) 1).1 (some 2) 3).1) ∧
    (hidle_add (hidle_add (hloop_init 0) (some 1) 1).1 (some 2) 3).1.idles = [0, 1] ∧
    (hloop_process_idles (hidle_add (hidle_add (hloop_init 0) (some 1) 1).1 (some 2) 3).1).1.idles
      = [1] ∧
    (hloop_process_idles (hidle_add (hidle_add (hloop_init 0) (some 1) 1).1 (some 2) 3).1).2 = 2 :=
  ⟨(C18_idle_walk (hidle_add (hidle_add (hloop_init 0) (some 1) 1).1 (some 2) 3).1 2
      (by decide!) (by decide!) (by decide!)).2.1, by decide!, by decide!, by decide!⟩

/-! ## The timer heap: same nodes, heap order -/

theorem heap_swap_getElem? (h : List Nat) (i j : Nat) (hi : i < h.length) (hj : j < h.length)
    (m : Nat) :
    (heap_swap h i j)[m]? = if m = j then h[i]? else if m = i then h[j]? else h[m]? := by
  unfold heap_swap
  have e1 : h[i]? = some h[i] := List.getElem?_eq_getElem hi
  have e2 : h[j]? = some h[j] := List.getElem?_eq_getElem hj
  rw [e1, e2]
  simp only
  rw [List.getElem?_set, List.getElem?_set]
  have hj' : j < (h.set i h[j]).length := by simpa using hj
  by_cases hmj : m = j
  · subst hmj
    simp [hj', hj]
  · have hjm : ¬ (j = m) := fun h' => hmj h'.symm
    simp only [hjm, if_false, hmj]
    by_cases hmi : m = i
    · subst hmi
      simp [hi, e2]
    · have him : ¬ (i = m) := fun h' => hmi h'.symm
      simp [him, hmi]

theorem heap_swap_length (h : List Nat) (i j : Nat) : (heap_swap h i j).length = h.length := by
  unfold heap_swap
  split <;> simp

theorem heap_swap_perm (h : List Nat) (i j : Nat) : (heap_swap h i j).Perm h := by
  unfold heap_swap
  cases hi : h[i]? with
  | none => exact List.Perm.refl _
  | some x =>
    cases hj : h[j]? with
    | none => exact List.Perm.refl _
    | some y =>
      simp only
      obtain ⟨hil, hix⟩ := List.getElem?_eq_some.mp hi
      obtain ⟨hjl, hjy⟩ := List.getElem?_eq_some.mp hj
      rw [List.perm_iff_count]
      intro b
      have hjl' : j < (h.set i y).length := by simpa using hjl
      rw [List.count_set _ _ _ _ hjl', List.count_set _ _ _ _ hil]
      have hy : (h.set i y)[j] = y := by
        rw [List.getElem_set]
        split
        · rfl
        · exact hjy
      rw [hy, hix]
      have hx : (if (x == b) = true then 1 else 0) ≤ List.count b h := by
        by_cases hxb : x = b
        · subst hxb
          simp only [beq_self_eq_true, if_true]
          exact List.count_pos_iff.mpr (hix ▸ List.getElem_mem _)
        · simp [hxb]
      omega

theorem sift_up_perm (cmp : Nat → Nat → Bool) :
    ∀ (fuel : Nat) (h : List Nat) (i : Nat), (sift_up cmp fuel h i).Perm h := by
  intro fuel
  induction fuel with
  | zero => intro h i; exact List.Perm.refl _
  | succ fuel ih =>
    intro h i
    unfold sift_up
    split
    · exact List.Perm.refl _
    · split
      · split
        · exact (ih _ _).trans (heap_swap_perm _ _ _)
        · exact List.Perm.refl _
      · exact List.Perm.refl _

theorem sift_down_perm (cmp : Nat → Nat → Bool) :
    ∀ (fuel : Nat) (h : List Nat) (i : Nat), (sift_down cmp fuel h i).1.Perm h := by
  intro fuel
  induction fuel with
  | zero => intro h i; exact List.Perm.refl _
  | succ fuel ih =>
    intro h i
    unfold sift_down
    simp only
    split
    · exact List.Perm.refl _
    · exact (ih _ _).trans (heap_swap_perm _ _ _)

theorem heap_insert_perm (cmp : Nat → Nat → Bool) (h : List Nat) (a : Nat) :
    (heap_insert cmp h a).Perm (h ++ [a]) :=
  sift_up_perm cmp _ _ _

theorem set_last_dropLast_perm (h : List Nat) (a : Nat) (ha : a ∈ h) (last : Nat)
    (hlast : h.getLast? = some last) :
    ((h.set (h.indexOf a) last).dropLast).Perm (h.erase a) := by
  have hi : h.indexOf a < h.length := List.indexOf_lt_length.mpr ha
  have hne : h.set (h.indexOf a) last ≠ [] := by
    intro hnil
    have := congrArg List.length hnil
    simp only [List.length_set, List.length_nil] at this
    omega
  have hlast' : (h.set (h.indexOf a) last).getLast hne = last := by
    rw [List.getLast_eq_getElem, List.getElem_set]
    split
    · rfl
    · have h2 := hlast
      rw [List.getLast?_eq_getElem?, List.getElem?_eq_some] at h2
      obtain ⟨_, h3⟩ := h2
      simpa using h3
  have hsplit := List.dropLast_append_getLast hne
  rw [hlast'] at hsplit
  rw [List.perm_iff_count]
  intro b
  have hc := congrArg (List.count b) hsplit
  rw [List.count_append, List.count_set _ _ _ _ hi] at hc
  have hga : h[h.indexOf a] = a := List.getElem_indexOf hi
  rw [hga] at hc
  rw [List.count_erase]
  simp only [List.count_cons, List.count_nil] at hc
  have hx : (if (a == b) = true then 1 else 0) ≤ List.count b h := by
    by_cases hab : a = b
    · subst hab
      simp only [beq_self_eq_true, if_true]
      exact List.count_pos_iff.mpr ha
    · simp [hab]
  omega

theorem heap_remove_perm (cmp : Nat → Nat → Bool) (h : List Nat) (a : Nat) (ha : a ∈ h) :
    (heap_remove cmp h a).Perm (h.erase a) := by
  have hi : h.indexOf a < h.length := List.indexOf_lt_length.mpr ha
  unfold heap_remove
  simp only [hi, if_true]
  cases hlast : h.getLast? with
  | none =>
    have : h = [] := List.getLast?_eq_none_iff.mp hlast
    subst this
    cases ha
  | some last =>
    simp only
    have hp := set_last_dropLast_perm h a ha last hlast
    split
    · exact ((sift_up_perm cmp _ _ _).trans (sift_down_perm cmp _ _ _)).trans hp
    · exact hp

theorem heap_dequeue_perm (cmp : Nat → Nat → Bool) (r : Nat) (rest : List Nat) :
    (heap_dequeue cmp (r :: rest)).Perm rest := by
  unfold heap_dequeue
  have := heap_remove_perm cmp (r :: rest) r (List.mem_cons_self _ _)
  simpa using this

theorem sift_up_ord (k : Nat → Nat) (cmp : Nat → Nat → Bool)
    (hcmp : ∀ a b, cmp a b = decide (k a < k b)) :
    ∀ (fuel : Nat) (h : List Nat) (i : Nat), i < fuel → i < h.length →
      (∀ j x p, 0 < j → j ≠ i → h[j]? = some x → h[(j - 1) / 2]? = some p → k p ≤ k x) →
      (∀ j x g, 0 < j → 0 < i → (j - 1) / 2 = i → h[j]? = some x →
        h[(i - 1) / 2]? = some g → k g ≤ k x) →
      HeapOrd k (sift_up cmp fuel h i) := by
  intro fuel
  induction fuel with
  | zero => intro h i hf; omega
  | succ fuel ih =>
    intro h i hf hi E G
    unfold sift_up
    by_cases hi0 : i = 0
    · rw [if_pos hi0]
      intro j x p hj hx hp
      exact E j x p hj (by omega) hx hp
    · rw [if_neg hi0]
      have hql : (i - 1) / 2 < h.length := by omega
      obtain ⟨xi, hxi⟩ : ∃ xi, h[i]? = some xi := ⟨_, List.getElem?_eq_getElem hi⟩
      obtain ⟨xq, hxq⟩ : ∃ xq, h[(i - 1) / 2]? = some xq := ⟨_, List.getElem?_eq_getElem hql⟩
      simp only [hxi, hxq]
      by_cases hc : cmp xi xq = true
      · rw [if_pos hc]
        have hlt : k xi < k xq := by
          rw [hcmp] at hc
          exact of_decide_eq_true hc
        have hsw := heap_swap_getElem? h ((i - 1) / 2) i hql hi
        apply ih
        · omega
        · rw [heap_swap_length]; exact hql
        · intro j x p hj hjq hx hp
          rw [hsw] at hx hp
          by_cases hji : j = i
          · subst hji
            rw [if_pos rfl] at hx
            have h1 : ¬ ((j - 1) / 2 = j) := by omega
            rw [if_neg h1, if_pos rfl] at hp
            rw [hxq] at hx
            rw [hxi] at hp
            cases hx
            cases hp
            omega
          · rw [if_neg hji, if_neg hjq] at hx
            by_cases hp1 : (j - 1) / 2 = i
            · rw [if_pos hp1] at hp
              rw [hxq] at hp
              cases hp
              exact G j x _ hj (by omega) hp1 hx hxq
            · rw [if_neg hp1] at hp
              by_cases hp2 : (j - 1) / 2 = (i - 1) / 2
              · rw [if_pos hp2] at hp
                rw [hxi] at hp
                cases hp
                have := E j x xq hj hji hx (by rw [hp2]; exact hxq)
                omega
              · rw [if_neg hp2] at hp
                exact E j x p hj hji hx hp
        · intro j x g hj hq0 hpj hx hg
          rw [hsw] at hx hg
          have h1 : ¬ (((i - 1) / 2 - 1) / 2 = i) := by omega
          have h2 : ¬ (((i - 1) / 2 - 1) / 2 = (i - 1) / 2) := by omega
          rw [if_neg h1, if_neg h2] at hg
          have hqg : k g ≤ k xq := E ((i - 1) / 2) xq g hq0 (by omega) hxq hg
          by_cases hji : j = i
          · rw [if_pos hji, hxq] at hx
            cases hx
            exact hqg
          · have hjq : ¬ (j = (i - 1) / 2) := by omega
            rw [if_neg hji, if_neg hjq] at hx
            have := E j x xq hj hji hx (by rw [hpj]; exact hxq)
            omega
      · rw [if_neg hc]
        have hge : k xq ≤ k xi := by
          rw [hcmp] at hc
          simpa using hc
        intro j x p hj hx hp
        by_cases hji : j = i
        · subst hji
          rw [hxi] at hx
          rw [hxq] at hp
          cases hx
          cases hp
          exact hge
        · exact E j x p hj hji hx hp

theorem heap_est_spec (k : Nat → Nat) (cmp : Nat → Nat → Bool)
    (hcmp : ∀ a b, cmp a b = decide (k a < k b)) (h : List Nat) (i v : Nat)
    (hv : h[i]? = some v) :
    ∃ w, h[heap_est cmp h i]? = some w ∧
      (heap_est cmp h i = i ∨
        ((heap_est cmp h i = 2 * i + 1 ∨ heap_est cmp h i = 2 * i + 2) ∧ k w < k v)) ∧
      k w ≤ k v ∧
      ∀ j x, (j = 2 * i + 1 ∨ j = 2 * i + 2) → h[j]? = some x → k w ≤ k x := by
  have hdec : ∀ a b, cmp a b = true ↔ k a < k b := by
    intro a b
    rw [hcmp]
    exact decide_eq_true_iff
  cases h1 : h[2 * i + 1]? with
  | none =>
    have h2 : h[2 * i + 2]? = none := by
      rw [List.getElem?_eq_none_iff] at h1 ⊢
      omega
    have he : heap_est cmp h i = i := by
      unfold heap_est
      simp [hv, h1, h2]
    rw [he]
    refine ⟨v, hv, Or.inl rfl, le_refl _, ?_⟩
    intro j x hj hx
    rcases hj with hj | hj <;> subst hj
    · rw [h1] at hx; cases hx
    · rw [h2] at hx; cases hx
  | some c1 =>
    by_cases hc1 : cmp c1 v = true
    · have hlt1 := (hdec _ _).mp hc1
      cases h2 : h[2 * i + 2]? with
      | none =>
        have he : heap_est cmp h i = 2 * i + 1 := by
          unfold heap_est
          simp [hv, h1, h2, hc1]
        rw [he]
        refine ⟨c1, h1, Or.inr ⟨Or.inl rfl, hlt1⟩, Nat.le_of_lt hlt1, ?_⟩
        intro j x hj hx
        rcases hj with hj | hj <;> subst hj
        · rw [h1] at hx; cases hx; exact le_refl _
        · rw [h2] at hx; cases hx
      | some c2 =>
        by_cases hc2 : cmp c2 c1 = true
        · have hlt2 := (hdec _ _).mp hc2
          have he : heap_est cmp h i = 2 * i + 2 := by
            unfold heap_est
            simp [hv, h1, h2, hc1, hc2]
          rw [he]
          refine ⟨c2, h2, Or.inr ⟨Or.inr rfl, by omega⟩, by omega, ?_⟩
          intro j x hj hx
          rcases hj with hj | hj <;> subst hj
          · rw [h1] at hx; cases hx; omega
          · rw [h2] at hx; cases hx; exact le_refl _
        · have hge2 : ¬ (k c2 < k c1) := fun hh => hc2 ((hdec _ _).mpr hh)
          have he : heap_est cmp h i = 2 * i + 1 := by
            unfold heap_est
            simp [hv, h1, h2, hc1, hc2]
          rw [he]
          refine ⟨c1, h1, Or.inr ⟨Or.inl rfl, hlt1⟩, Nat.le_of_lt hlt1, ?_⟩
          intro j x hj hx
          rcases hj with hj | hj <;> subst hj
          · rw [h1] at hx; cases hx; exact le_refl _
          · rw [h2] at hx; cases hx; omega
    · have hge1 : ¬ (k c1 < k v) := fun hh => hc1 ((hdec _ _).mpr hh)
      cases h2 : h[2 * i + 2]? with
      | none =>
        have he : heap_est cmp h i = i := by
          unfold heap_est
          simp [hv, h1, h2, hc1]
        rw [he]
        refine ⟨v, hv, Or.inl rfl, le_refl _, ?_⟩
        intro j x hj hx
        rcases hj with hj | hj <;> subst hj
        · rw [h1] at hx; cases hx; omega
        · rw [h2] at hx; cases hx
      | some c2 =>
        by_cases hc2 : cmp c2 v = true
        · have hlt2 := (hdec _ _).mp hc2
          have he : heap_est cmp h i = 2 * i + 2 := by
            unfold heap_est
            simp [hv, h1, h2, hc1, hc2]
          rw [he]
          refine ⟨c2, h2, Or.inr ⟨Or.inr rfl, hlt2⟩, by omega, ?_⟩
          intro j x hj hx
          rcases hj with hj | hj <;> subst hj
          · rw [h1] at hx; cases hx; omega
          · rw [h2] at hx; cases hx; exact le_refl _
        · have hge2 : ¬ (k c2 < k v) := fun hh => hc2 ((hdec _ _).mpr hh)
          have he : heap_est cmp h i = i := by
            unfold heap_est
            simp [hv, h1, h2, hc1, hc2]
          rw [he]
          refine ⟨v, hv, Or.inl rfl, le_refl _, ?_⟩
          intro j x hj hx
          rcases hj with hj | hj <;> subst hj
          · rw [h1] at hx; cases hx; omega
          · rw [h2] at hx; cases hx; omega

theorem sift_down_ord (k : Nat → Nat) (cmp : Nat → Nat → Bool)
    (hcmp : ∀ a b, cmp a b = decide (k a < k b)) :
    ∀ (fuel : Nat) (h : List Nat) (i : Nat), h.length ≤ fuel + i → i < h.length →
      (∀ j x p, 0 < j → j ≠ i → (j - 1) / 2 ≠ i → h[j]? = some x →
        h[(j - 1) / 2]? = some p → k p ≤ k x) →
      (∀ j x g, 0 < j → 0 < i → (j - 1) / 2 = i → h[j]? = some x →
        h[(i - 1) / 2]? = some g → k g ≤ k x) →
      (sift_down cmp fuel h i).2 < (sift_down cmp fuel h i).1.length ∧
      (sift_down cmp fuel h i).1.length = h.length ∧
      (∀ j x p, 0 < j → j ≠ (sift_down cmp fuel h i).2 →
        (sift_down cmp fuel h i).1[j]? = some x →
        (sift_down cmp fuel h i).1[(j - 1) / 2]? = some p → k p ≤ k x) ∧
      (∀ j x g, 0 < j → 0 < (sift_down cmp fuel h i).2 →
        (j - 1) / 2 = (sift_down cmp fuel h i).2 →
        (sift_down cmp fuel h i).1[j]? = some x →
        (sift_down cmp fuel h i).1[((sift_down cmp fuel h i).2 - 1) / 2]? = some g →
        k g ≤ k x) := by
  intro fuel
  induction fuel with
  | zero => intro h i hf hi; omega
  | succ fuel ih =>
    intro h i hf hi E G
    obtain ⟨v, hv⟩ : ∃ v, h[i]? = some v := ⟨_, List.getElem?_eq_getElem hi⟩
    obtain ⟨w, hw, hcase, hwv, hmin⟩ := heap_est_spec k cmp hcmp h i v hv
    unfold sift_down
    simp only
    by_cases hest : heap_est cmp h i = i
    · rw [if_pos hest]
      rw [hest, hv] at hw
      cases hw
      refine ⟨hi, rfl, ?_, G⟩
      intro j x p hj hji hx hp
      by_cases hpj : (j - 1) / 2 = i
      · rw [hpj, hv] at hp
        cases hp
        exact hmin j x (by omega) hx
      · exact E j x p hj hji hpj hx hp
    · rw [if_neg hest]
      have hch : heap_est cmp h i = 2 * i + 1 ∨ heap_est cmp h i = 2 * i + 2 := by
        rcases hcase with h0 | h0
        · exact absurd h0 hest
        · exact h0.1
      generalize heap_est cmp h i = est at hw hch hest
      have hel : est < h.length := (List.getElem?_eq_some.mp hw).1
      have hsw := heap_swap_getElem? h i est hi hel
      have hlen := heap_swap_length h i est
      have hE2 : ∀ j x p, 0 < j → j ≠ est → (j - 1) / 2 ≠ est →
          (heap_swap h i est)[j]? = some x →
          (heap_swap h i est)[(j - 1) / 2]? = some p → k p ≤ k x := by
        intro j x p hj hje hpe hx hp
        rw [hsw] at hx hp
        rw [if_neg hje] at hx
        rw [if_neg hpe] at hp
        by_cases hji : j = i
        · rw [if_pos hji, hw] at hx
          cases hx
          have hpi : ¬ ((j - 1) / 2 = i) := by omega
          rw [if_neg hpi] at hp
          exact G est _ p (by omega) (by omega) (by omega) hw (by rw [← hji]; exact hp)
        · rw [if_neg hji] at hx
          by_cases hpi : (j - 1) / 2 = i
          · rw [if_pos hpi, hw] at hp
            cases hp
            exact hmin j x (by omega) hx
          · rw [if_neg hpi] at hp
            exact E j x p hj hji hpi hx hp
      have hG2 : ∀ j x g, 0 < j → 0 < est → (j - 1) / 2 = est →
          (heap_swap h i est)[j]? = some x →
          (heap_swap h i est)[(est - 1) / 2]? = some g → k g ≤ k x := by
        intro j x g hj he0 hpj hx hg
        rw [hsw] at hx hg
        have h1 : ¬ (j = est) := by omega
        have h2 : ¬ (j = i) := by omega
        have h3 : ¬ ((est - 1) / 2 = est) := by omega
        have h4 : (est - 1) / 2 = i := by omega
        rw [if_neg h1, if_neg h2] at hx
        rw [if_neg h3, if_pos h4, hw] at hg
        cases hg
        exact E j x _ hj h2 (by omega) hx (by rw [hpj]; exact hw)
      have hr := ih (heap_swap h i est) est (by rw [hlen]; omega) (by rw [hlen]; exact hel) hE2 hG2
      refine ⟨hr.1, hr.2.1.trans hlen, hr.2.2.1, hr.2.2.2⟩

theorem HeapOrd_congr {k k1 : Nat → Nat} {h : List Nat} (hk : ∀ x ∈ h, k1 x = k x)
    (ho : HeapOrd k h) : HeapOrd k1 h := by
  intro i x p hi hx hp
  have mx : x ∈ h := by
    obtain ⟨hl, he⟩ := List.getElem?_eq_some.mp hx
    exact he ▸ List.getElem_mem _
  have mp : p ∈ h := by
    obtain ⟨hl, he⟩ := List.getElem?_eq_some.mp hp
    exact he ▸ List.getElem_mem _
  rw [hk x mx, hk p mp]
  exact ho i x p hi hx hp

theorem heap_insert_ord (k : Nat → Nat) (cmp : Nat → Nat → Bool)
    (hcmp : ∀ a b, cmp a b = decide (k a < k b)) (h : List Nat) (a : Nat)
    (ho : HeapOrd k h) : HeapOrd k (heap_insert cmp h a) := by
  unfold heap_insert
  apply sift_up_ord k cmp hcmp
  · omega
  · simp
  · intro j x p hj hne hx hp
    by_cases hjl : j < h.length
    · rw [List.getElem?_append_left hjl] at hx
      rw [List.getElem?_append_left (by omega)] at hp
      exact ho j x p hj hx hp
    · have : (h ++ [a])[j]? = none := by
        rw [List.getElem?_eq_none_iff]
        simp
        omega
      rw [this] at hx
      cases hx
  · intro j x g hj _ hpj hx _
    have : (h ++ [a])[j]? = none := by
      rw [List.getElem?_eq_none_iff]
      simp
      omega
    rw [this] at hx
    cases hx

theorem heap_remove_ord (k : Nat → Nat) (cmp : Nat → Nat → Bool)
    (hcmp : ∀ a b, cmp a b = decide (k a < k b)) (h : List Nat) (a : Nat)
    (ho : HeapOrd k h) : HeapOrd k (heap_remove cmp h a) := by
  unfold heap_remove
  simp only
  by_cases hi : h.indexOf a < h.length
  · rw [if_pos hi]
    cases hlast : h.getLast? with
    | none => exact ho
    | some last =>
      simp only
      generalize h.indexOf a = i at hi
      have hget : ∀ m, ((h.set i last).dropLast)[m]? =
          if m < h.length - 1 then (if i = m then some last else h[m]?) else none := by
        intro m
        rw [List.getElem?_dropLast, List.length_set, List.getElem?_set]
        simp only [hi, if_true]
      have hlen : ((h.set i last).dropLast).length = h.length - 1 := by simp
      obtain ⟨v, hv⟩ : ∃ v, h[i]? = some v := ⟨_, List.getElem?_eq_getElem hi⟩
      by_cases hin : i < ((h.set i last).dropLast).length
      · rw [if_pos hin]
        have hE : ∀ j x p, 0 < j → j ≠ i → (j - 1) / 2 ≠ i →
            ((h.set i last).dropLast)[j]? = some x →
            ((h.set i last).dropLast)[(j - 1) / 2]? = some p → k p ≤ k x := by
          intro j x p hj hji hpi hx hp
          rw [hget] at hx hp
          have hjl : j < h.length - 1 := by
            by_contra hc
            rw [if_neg hc] at hx
            cases hx
          rw [if_pos hjl, if_neg (fun e => hji e.symm)] at hx
          rw [if_pos (by omega), if_neg (fun e => hpi e.symm)] at hp
          exact ho j x p hj hx hp
        have hG : ∀ j x g, 0 < j → 0 < i → (j - 1) / 2 = i →
            ((h.set i last).dropLast)[j]? = some x →
            ((h.set i last).dropLast)[(i - 1) / 2]? = some g → k g ≤ k x := by
          intro j x g hj hi0 hpj hx hg
          rw [hget] at hx hg
          have hjl : j < h.length - 1 := by
            by_contra hc
            rw [if_neg hc] at hx
            cases hx
          rw [if_pos hjl, if_neg (by omega)] at hx
          rw [if_pos (by omega), if_neg (by omega)] at hg
          have h1 := ho i v g hi0 hv hg
          have h2 := ho j x v hj hx (by rw [hpj]; exact hv)
          omega
        obtain ⟨r1, r2, r3, r4⟩ := sift_down_ord k cmp hcmp ((h.set i last).dropLast).length
          ((h.set i last).dropLast) i (by omega) hin hE hG
        apply sift_up_ord k cmp hcmp
        · rw [r2] at r1; omega
        · exact r1
        · exact r3
        · exact r4
      · rw [if_neg hin]
        intro j x p hj hx hp
        rw [hget] at hx hp
        have hjl : j < h.length - 1 := by
          by_contra hc
          rw [if_neg hc] at hx
          cases hx
        rw [hlen] at hin
        rw [if_pos hjl, if_neg (by omega)] at hx
        rw [if_pos (by omega), if_neg (by omega)] at hp
        exact ho j x p hj hx hp
  · rw [if_neg hi]
    exact ho

/-! ## `htimer_reset` -/

theorem key_congr {l l1 : Loop} (h : l1.mem = l.mem) : l1.key = l.key := by
  funext a
  unfold Loop.key
  rw [h]

theorem timers_compare_spec (l : Loop) :
    ∀ a b, timers_compare l a b = decide (l.key a < l.key b) :=
  fun _ _ => rfl

theorem htimer_reset_noop (l : Loop) (timer : Nat) (ev : Hevent) (he : l.mem timer = some ev)
    (h : ev.event_type ≠ .HEVENT_TYPE_TIMEOUT ∨ ev.pending = true) :
    htimer_reset l timer = l := by
  unfold htimer_reset
  simp only [he]
  rw [if_pos]
  rcases h with h | h
  · simp [h]
  · simp [h]

theorem htimer_reset_mem (l : Loop) (timer : Nat) (ev : Hevent) (he : l.mem timer = some ev)
    (hty : ev.event_type = .HEVENT_TYPE_TIMEOUT) (hp : ev.pending = false) :
    (htimer_reset l timer).mem = Function.update l.mem timer (some { ev with
      next_timeout := add64 l.cur_hrtime (mul64 ev.timeout 1000) }) ∧
    (htimer_reset l timer).timers =
      heap_insert (timers_compare (htimer_reset l timer))
        (heap_remove (timers_compare l) l.timers timer) timer ∧
    (htimer_reset l timer).cur_hrtime = l.cur_hrtime := by
  have hc : ¬ ((ev.event_type ≠ .HEVENT_TYPE_TIMEOUT || ev.pending) = true) := by
    simp [hty, hp]
  unfold htimer_reset
  simp only [he]
  rw [if_neg hc]
  refine ⟨?_, ?_, rfl⟩
  · simp [Loop.upd, he, hloop_now_hrtime]
  · rfl

/-- C13 (as the code has it): `htimer_reset` on a live handle. A handle that is
not a TIMEOUT timer, or is pending, is left alone together with the whole
loop. For a TIMEOUT timer that is not pending the deadline becomes the
loop's cached time `cur_hrtime` plus `timeout*1000` (64-bit), nothing else
of the timer and no other handle changes, and the cached time is not
refreshed; if the timer is in the heap, the heap afterwards holds the same
timers, and if moreover no timer occurs twice and the heap was in heap
order, it is in heap order again. Consequently, when
`cur_hrtime + timeout*1000` fits 64 bits, `hloop_process_timers` at a loop
time before `cur_hrtime + timeout*1000` leaves the timer untouched: it does
not fire before `timeout` ms after the cached time of the reset. -/
theorem C13_htimer_reset (l : Loop) (timer : Nat) (ev : Hevent)
    (he : l.mem timer = some ev) :
    ((ev.event_type ≠ .HEVENT_TYPE_TIMEOUT ∨ ev.pending = true) → htimer_reset l timer = l) ∧
    (ev.event_type = .HEVENT_TYPE_TIMEOUT → ev.pending = false →
      (htimer_reset l timer).mem timer
        = some { ev with next_timeout := add64 l.cur_hrtime (mul64 ev.timeout 1000) } ∧
      (∀ b, b ≠ timer → (htimer_reset l timer).mem b = l.mem b) ∧
      (htimer_reset l timer).cur_hrtime = l.cur_hrtime ∧
      (timer ∈ l.timers → (htimer_reset l timer).timers.Perm l.timers) ∧
      (timer ∈ l.timers → l.timers.Nodup → HeapOrd l.key l.timers →
        HeapOrd (htimer_reset l timer).key (htimer_reset l timer).timers) ∧
      (l.cur_hrtime + ev.timeout * 1000 < 2 ^ 64 →
        ∀ (env : Env) (fuel now : Nat) (l2 : Loop) (n : Nat),
          now < l.cur_hrtime + ev.timeout * 1000 →
          hloop_process_timers env fuel (hloop_update_time (htimer_reset l timer) now)
            = some (l2, n) →
          l2.mem timer = some { ev with next_timeout := l.cur_hrtime + ev.timeout * 1000 })) := by
  refine ⟨htimer_reset_noop l timer ev he, ?_⟩
  intro hty hp
  obtain ⟨hm, ht, hc⟩ := htimer_reset_mem l timer ev he hty hp
  have hself : (htimer_reset l timer).mem timer
      = some { ev with next_timeout := add64 l.cur_hrtime (mul64 ev.timeout 1000) } := by
    rw [hm]; exact Function.update_same _ _ _
  refine ⟨hself, ?_, hc, ?_, ?_, ?_⟩
  · intro b hb
    rw [hm]
    exact Function.update_noteq hb _ _
  · intro hin
    rw [ht]
    refine (heap_insert_perm _ _ _).trans ?_
    refine (List.Perm.append_right _ (heap_remove_perm _ _ _ hin)).trans ?_
    refine List.perm_append_comm.trans ?_
    exact (List.perm_cons_erase hin).symm
  · intro hin hnd ho
    rw [ht]
    apply heap_insert_ord _ _ (timers_compare_spec _)
    have ho1 : HeapOrd l.key (heap_remove (timers_compare l) l.timers timer) :=
      heap_remove_ord _ _ (timers_compare_spec l) _ _ ho
    refine HeapOrd_congr ?_ ho1
    intro x hx
    have hx1 : x ∈ l.timers.erase timer := (heap_remove_perm _ _ _ hin).subset hx
    have hxt : x ≠ timer := ((List.Nodup.mem_erase_iff hnd).mp hx1).1
    unfold Loop.key
    rw [hm, Function.update_noteq hxt]
  · intro hov env fuel now l2 n hnow hr
    have hm64 : mul64 ev.timeout 1000 = ev.timeout * 1000 := by unfold mul64; omega
    have ha64 : add64 l.cur_hrtime (ev.timeout * 1000) = l.cur_hrtime + ev.timeout * 1000 := by
      unfold add64; omega
    rw [hm64, ha64] at hself
    have hnow' : now % 2 ^ 64 < l.cur_hrtime + ev.timeout * 1000 :=
      lt_of_le_of_lt (Nat.mod_le _ _) hnow
    exact timers_loop_untouched env _ timer _ fuel
      (hloop_update_time (htimer_reset l timer) now) 0 l2 n hself hnow' hr

theorem reset_example_ord : HeapOrd reset_example.key reset_example.timers := by
  intro i x p hi hx hp
  have ht : reset_example.timers = [0, 1] := rfl
  rw [ht] at hx hp
  match i, hi with
  | 1, _ =>
    simp at hx hp
    subst hx
    subst hp
    decide
  | i + 2, _ =>
    simp at hx

/-- C13 at a concrete input: the 100 ms timer of `reset_example` is reset at the
cached time 50000 µs; its deadline becomes 150000 µs, the heap keeps both
timers and its order, and a run of `hloop_process_timers` at 149999 µs
leaves the timer alone. -/
theorem C13_htimer_reset_witness :
    (htimer_reset reset_example 0).key 0 = 150000 ∧
    (htimer_reset reset_example 0).timers.Perm reset_example.timers ∧
    HeapOrd (htimer_reset reset_example 0).key (htimer_reset reset_example 0).timers ∧
    (hloop_process_timers Env.quiet 5 (hloop_update_time (htimer_reset reset_example 0) 149999)).map
      (fun r => (r.1.timer_active 0, r.1.key 0, r.1.trace)) = some (true, 150000, []) :=
  have h := (C13_htimer_reset reset_example 0 _ rfl).2 rfl rfl
  ⟨by decide!, h.2.2.2.1 (by decide), h.2.2.2.2.1 (by decide) (by decide) reset_example_ord,
    by decide!⟩

/-- C13 fails as stated: a 100 ms timer is added at time 0 and reset before the
loop has refreshed its cached time (say 50 ms after the add: `htimer_reset`
reads no clock). The deadline stays at 100000 µs, and the tick whose clock
readings are 50000 and 101000 µs runs the callback, 101 ms after the add and
not 150 ms or later. -/
theorem C13_counterexample :
    ((htimer_add (hloop_init 0) 0 (some 7) 100 INFINITE).map
      (fun p => ((htimer_reset p.1 p.2).cur_hrtime, (htimer_reset p.1 p.2).key p.2)))
      = some (0, 100000) ∧
    ((htimer_add (hloop_init 0) 0 (some 7) 100 INFINITE).bind
        (fun p => hloop_process_events Env.quiet 10 (htimer_reset p.1 p.2) 50000 101000
          (.ready []))).map
      (fun q => (q.1.cur_hrtime, q.1.trace)) = some (101000, [Obs.msleep 51, Obs.cb 0 7]) := by
  decide!

/-! ## A tick, stage by stage -/

theorem events_split (env : Env) (fuel : Nat) (l : Loop) (t1 t2 : Nat) (r : PollResult) :
    hloop_process_events env fuel l t1 t2 r =
      (hloop_process_events_timers env fuel (hloop_process_events_poll l t1 t2 r)).bind
        (fun l1 => hloop_process_pendings env fuel (hloop_process_events_idles l1)) := by
  have tail : ∀ l0 : Loop, hloop_process_events_tail env fuel l0 =
      (hloop_process_events_timers env fuel l0).bind
        (fun l1 => hloop_process_pendings env fuel (hloop_process_events_idles l1)) := by
    intro l0
    unfold hloop_process_events_tail hloop_process_events_timers hloop_process_events_idles
    by_cases hn : l0.ntimers ≠ 0
    · rw [if_pos hn, if_pos hn]
      cases hloop_process_timers env fuel l0 with
      | none => rfl
      | some p => rfl
    · rw [if_neg hn, if_neg hn]
      rfl
  unfold hloop_process_events hloop_process_events_poll
  simp only
  cases hloop_blocktime ((hloop_update_time l t1).timers.head?.map (hloop_update_time l t1).key)
      (hloop_now_hrtime (hloop_update_time l t1)) with
  | none => exact tail _
  | some b => exact tail _

theorem dispatch_pending_congr {env env1 : Env} (h : env.cb = env1.cb) (l : Loop) (a n : Nat) :
    dispatch_pending env l a n = dispatch_pending env1 l a n := by
  unfold dispatch_pending
  rw [h]

theorem walk_congr {env env1 : Env} (h : env.cb = env1.cb) :
    ∀ (fuel : Nat) (l : Loop) (next : Option Nat) (n : Nat),
      hloop_process_pendings_walk env fuel l next n
        = hloop_process_pendings_walk env1 fuel l next n := by
  intro fuel
  induction fuel with
  | zero =>
    intro l next n
    cases next <;> rfl
  | succ fuel ih =>
    intro l next n
    cases next with
    | none => rfl
    | some a =>
      unfold hloop_process_pendings_walk
      rw [dispatch_pending_congr h]
      cases l.mem a with
      | none => rfl
      | some e =>
        simp only
        cases (dispatch_pending env1 l a n).1.mem a with
        | none => rfl
        | some prev => exact ih _ _ _

theorem lanes_congr {env env1 : Env} (h : env.cb = env1.cb) (fuel : Nat) :
    ∀ (i : Nat) (l : Loop) (n : Nat),
      hloop_process_pendings_lanes env fuel i l n
        = hloop_process_pendings_lanes env1 fuel i l n := by
  intro i
  induction i with
  | zero => intro l n; rfl
  | succ i ih =>
    intro l n
    unfold hloop_process_pendings_lanes
    rw [walk_congr h]
    cases hloop_process_pendings_walk env1 fuel l (l.pendings i) n with
    | none => rfl
    | some p => exact ih _ _

theorem pendings_congr {env env1 : Env} (h : env.cb = env1.cb) (fuel : Nat) (l : Loop) :
    hloop_process_pendings env fuel l = hloop_process_pendings env1 fuel l := by
  unfold hloop_process_pendings
  rw [lanes_congr h]

/-! ### What the stages touch -/

theorem stage_poll_fold {S : Nat → Prop} (l : Loop) (hS : ∀ fd a, l.ios_ptr fd = some a → S a) :
    ∀ (fds : List (Nat × Nat)) (l1 : Loop), Stage S l l1 →
      Stage S l (fds.foldl (fun l (p : Nat × Nat) =>
        match l.ios_ptr p.1 with
        | some io => EVENT_PENDING (l.upd io (fun e => { e with revents := e.revents ||| p.2 })) io
        | none => l) l1) := by
  intro fds
  induction fds with
  | nil => intro l1 h; exact h
  | cons p fds ih =>
    intro l1 h
    simp only [List.foldl_cons]
    apply ih
    cases hp : l1.ios_ptr p.1 with
    | none => exact h
    | some io =>
      simp only
      have hio : S io := hS p.1 io (by rw [← h.frame_out.2.2]; exact hp)
      refine Stage.pend io (Stage.upd io _ h hio ?_) hio
      exact fun _ => ⟨rfl, rfl⟩

theorem stage_poll {S : Nat → Prop} (l : Loop) (t1 t2 : Nat) (r : PollResult)
    (hS : ∀ fd a, l.ios_ptr fd = some a → S a) :
    Stage S l (hloop_process_events_poll l t1 t2 r) := by
  unfold hloop_process_events_poll
  simp only
  have h0 : Stage S l (hloop_update_time l t1) := stage_update_time (Stage.refl l) t1
  cases hloop_blocktime ((hloop_update_time l t1).timers.head?.map (hloop_update_time l t1).key)
      (hloop_now_hrtime (hloop_update_time l t1)) with
  | none => exact h0
  | some b =>
    simp only
    apply stage_update_time
    by_cases hn : (hloop_update_time l t1).nios ≠ 0
    · rw [if_pos hn]
      unfold hloop_process_ios iowatcher_poll_events
      cases r with
      | error code => exact stage_emit h0 _
      | ready fds => exact stage_poll_fold l hS fds _ (stage_emit h0 _)
    · rw [if_neg hn]
      exact stage_emit h0 _

theorem repeat_countdown_timers (l : Loop) (a : Nat) :
    (repeat_countdown l a).timers = l.timers := by
  unfold repeat_countdown
  split
  · rfl
  · split <;> rfl

theorem EVENT_INACTIVE_timers (l : Loop) (a : Nat) : (EVENT_INACTIVE l a).timers = l.timers := by
  unfold EVENT_INACTIVE
  split
  · rfl
  · split <;> rfl

theorem upd_timers (l : Loop) (a : Nat) (f : Hevent → Hevent) : (l.upd a f).timers = l.timers :=
  rfl

theorem htimer_del_if_done_timers (l : Loop) (a : Nat) :
    (htimer_del_if_done l a).timers = l.timers := by
  unfold htimer_del_if_done
  split
  · rfl
  · split
    · unfold htimer_del
      split
      · rfl
      · split
        · rfl
        · simp only
          unfold EVENT_DEL
          rw [upd_timers, EVENT_INACTIVE_timers, upd_timers]
    · rfl

theorem timer_requeue_subset (env : Env) (l : Loop) (r : Nat) (rest : List Nat)
    (ht : l.timers = r :: rest) : ∀ x ∈ (timer_requeue env l r).timers, x ∈ l.timers := by
  intro x hx
  have hd : ∀ y ∈ heap_dequeue (timers_compare l) l.timers, y ∈ l.timers := by
    intro y hy
    rw [ht] at hy ⊢
    exact List.mem_cons_of_mem _ ((heap_dequeue_perm _ r rest).subset hy)
  unfold timer_requeue at hx
  simp only at hx
  split at hx
  · exact hd x hx
  · split at hx
    · have := (heap_insert_perm _ _ _).subset hx
      rcases List.mem_append.mp this with h1 | h1
      · apply hd
        revert h1
        split
        · exact id
        · split <;> exact id
      · rw [List.mem_singleton.mp h1, ht]
        exact List.mem_cons_self _ _
    · exact hd x hx

theorem timers_step_subset (env : Env) (l : Loop) (r : Nat) (rest : List Nat)
    (ht : l.timers = r :: rest) :
    ∀ x ∈ (hloop_process_timers_step env l r).timers, x ∈ l.timers := by
  have h1 : (EVENT_PENDING (htimer_del_if_done (repeat_countdown l r) r) r).timers = l.timers := by
    rw [(EVENT_PENDING_fields _ r).2.2.2.1, htimer_del_if_done_timers, repeat_countdown_timers]
  intro x hx
  unfold hloop_process_timers_step at hx
  have := timer_requeue_subset env _ r rest (h1.trans ht) x hx
  rw [h1] at this
  exact this

theorem stage_timers_loop {S : Nat → Prop} (env : Env) (now : Nat) (l : Loop) :
    ∀ (fuel : Nat) (l1 : Loop) (n : Nat) (l2 : Loop) (n2 : Nat),
      Stage S l l1 → (∀ x ∈ l1.timers, S x) →
      hloop_process_timers_loop env now fuel l1 n = some (l2, n2) → Stage S l l2 := by
  intro fuel
  induction fuel with
  | zero =>
    intro l1 n l2 n2 h hS hr
    unfold hloop_process_timers_loop at hr
    cases ht : l1.timers with
    | nil => simp [ht] at hr; rw [← hr.1]; exact h
    | cons r rest =>
      by_cases hk : l1.key r > now
      · simp [ht, hk] at hr; rw [← hr.1]; exact h
      · simp [ht, hk] at hr
  | succ fuel ih =>
    intro l1 n l2 n2 h hS hr
    unfold hloop_process_timers_loop at hr
    cases ht : l1.timers with
    | nil => simp [ht] at hr; rw [← hr.1]; exact h
    | cons r rest =>
      by_cases hk : l1.key r > now
      · simp [ht, hk] at hr; rw [← hr.1]; exact h
      · simp only [ht, hk, if_false] at hr
        have hr0 : S r := hS r (by rw [ht]; exact List.mem_cons_self _ _)
        refine ih _ _ _ _ (h.trans (stage_timers_step env l1 r hr0)) ?_ hr
        intro x hx
        exact hS x (timers_step_subset env l1 r rest ht x hx)

theorem stage_timers {S : Nat → Prop} (env : Env) (fuel : Nat) (l l2 : Loop)
    (hS : ∀ x ∈ l.timers, S x)
    (hr : hloop_process_events_timers env fuel l = some l2) : Stage S l l2 := by
  unfold hloop_process_events_timers at hr
  by_cases hn : l.ntimers ≠ 0
  · rw [if_pos hn] at hr
    cases hp : hloop_process_timers env fuel l with
    | none => rw [hp] at hr; cases hr
    | some p =>
      rw [hp] at hr
      simp only [Option.map_some', Option.some.injEq] at hr
      subst hr
      unfold hloop_process_timers at hp
      exact stage_timers_loop env _ l fuel l 0 p.1 p.2 (Stage.refl l) hS hp
  · rw [if_neg hn] at hr
    cases hr
    exact Stage.refl l

theorem lanes_sum_push (q : Nat → List Nat) (i a : Nat) (hi : i < 5) :
    ((List.range 5).map (fun j => (Function.update q i (a :: q i) j).length)).sum
      = ((List.range 5).map (fun j => (q j).length)).sum + 1 := by
  have hr : List.range 5 = [0, 1, 2, 3, 4] := by decide
  rw [hr]
  simp only [List.map_cons, List.map_nil, List.sum_cons, List.sum_nil]
  interval_cases i <;> simp [Function.update] <;> omega

theorem QueueInv.of_frame {l l1 : Loop} {q : Nat → List Nat} (h : QueueInv l q)
    (e1 : l1.mem = l.mem) (e2 : l1.pendings = l.pendings) (e3 : l1.npendings = l.npendings)
    (e4 : l1.brk = l.brk) : QueueInv l1 q :=
  { chain := fun i => by rw [e1, e2]; exact h.chain i
    nodup := h.nodup
    disjoint := h.disjoint
    lanes := h.lanes
    queued := fun a e he => by rw [e1] at he; exact h.queued a e he
    count := by rw [e3]; exact h.count
    live := fun a e he => by rw [e1] at he; rw [e4]; exact h.live a e he }

theorem QueueInv.upd {l : Loop} {q : Nat → List Nat} (h : QueueInv l q) (a : Nat)
    (f : Hevent → Hevent)
    (hf : ∀ e, (f e).pending = e.pending ∧ (f e).pending_next = e.pending_next) :
    QueueInv (l.upd a f) q := by
  have hmem : ∀ b e1, (l.upd a f).mem b = some e1 →
      ∃ e0, l.mem b = some e0 ∧ e1.pending = e0.pending := by
    intro b e1 he1
    by_cases hb : b = a
    · subst hb
      rw [upd_mem_self] at he1
      cases hm : l.mem b with
      | none => rw [hm] at he1; cases he1
      | some e0 =>
        rw [hm] at he1
        simp only [Option.map_some', Option.some.injEq] at he1
        exact ⟨e0, rfl, by rw [← he1]; exact (hf e0).1⟩
    · rw [upd_mem_ne _ _ _ _ hb] at he1
      exact ⟨e1, he1, rfl⟩
  refine
    { chain := fun i => ?_
      nodup := h.nodup
      disjoint := h.disjoint
      lanes := h.lanes
      queued := ?_
      count := h.count
      live := ?_ }
  · refine chain_congr_next (h.chain i) ?_
    intro b _
    by_cases hb : b = a
    · subst hb
      rw [upd_mem_self]
      cases l.mem b with
      | none => rfl
      | some e0 => simp [(hf e0).2]
    · rw [upd_mem_ne _ _ _ _ hb]
  · intro b e1 he1
    obtain ⟨e0, h0, hp⟩ := hmem b e1 he1
    rw [hp]
    exact h.queued b e0 h0
  · intro b e1 he1
    obtain ⟨e0, h0, _⟩ := hmem b e1 he1
    exact h.live b e0 h0

theorem QueueInv.push_handle {l l1 : Loop} {q : Nat → List Nat} (h : QueueInv l q) (a : Nat)
    (e : Hevent) (i : Nat) (hm : l.mem a = some e) (hp : e.pending = false) (hi : i < 5)
    (hA : l1.mem a = some { e with pending := true, pending_next := l.pendings i })
    (hB : ∀ b, b ≠ a → l1.mem b = l.mem b)
    (hP : l1.pendings = Function.update l.pendings i (some a))
    (hN : l1.npendings = inc32 l.npendings) (hK : l1.brk = l.brk) :
    QueueInv l1 (Function.update q i (a :: q i)) := by
  have hnot : ∀ j, a ∉ q j := by
    intro j hj
    have := (h.queued a e hm).mpr ⟨j, hj⟩
    rw [hp] at this
    cases this
  refine
    { chain := fun j => ?_
      nodup := fun j => ?_
      disjoint := ?_
      lanes := ?_
      queued := ?_
      count := ?_
      live := ?_ }
  · rw [hP]
    by_cases hj : j = i
    · subst hj
      simp only [Function.update_same]
      refine @Chain.cons _ a { e with pending := true, pending_next := l.pendings j } _ hA ?_
      refine chain_congr (h.chain j) ?_
      intro b hb
      exact hB b (fun hba => hnot j (hba ▸ hb))
    · simp only [Function.update_noteq hj]
      refine chain_congr (h.chain j) ?_
      intro b hb
      exact hB b (fun hba => hnot j (hba ▸ hb))
  · by_cases hj : j = i
    · subst hj
      simp only [Function.update_same]
      exact List.nodup_cons.mpr ⟨hnot j, h.nodup j⟩
    · simp only [Function.update_noteq hj]
      exact h.nodup j
  · intro j1 j2 hne b hb1 hb2
    by_cases h1 : j1 = i
    · subst h1
      have h2 : j2 ≠ j1 := fun hh => hne hh.symm
      simp only [Function.update_same] at hb1
      simp only [Function.update_noteq h2] at hb2
      rcases List.mem_cons.mp hb1 with hba | hb1
      · exact hnot j2 (hba ▸ hb2)
      · exact h.disjoint j1 j2 hne b hb1 hb2
    · simp only [Function.update_noteq h1] at hb1
      by_cases h2 : j2 = i
      · subst h2
        simp only [Function.update_same] at hb2
        rcases List.mem_cons.mp hb2 with hba | hb2
        · exact hnot j1 (hba ▸ hb1)
        · exact h.disjoint j1 j2 hne b hb1 hb2
      · simp only [Function.update_noteq h2] at hb2
        exact h.disjoint j1 j2 hne b hb1 hb2
  · intro j hj
    have hji : j ≠ i := by omega
    simp only [Function.update_noteq hji]
    exact h.lanes j hj
  · intro b e1 he1
    by_cases hb : b = a
    · subst hb
      rw [hA] at he1
      simp only [Option.some.injEq] at he1
      subst he1
      simp only [true_iff]
      exact ⟨i, by simp⟩
    · rw [hB b hb] at he1
      rw [h.queued b e1 he1]
      constructor
      · rintro ⟨j, hj⟩
        refine ⟨j, ?_⟩
        by_cases hji : j = i
        · subst hji
          simp only [Function.update_same]
          exact List.mem_cons_of_mem _ hj
        · simp only [Function.update_noteq hji]
          exact hj
      · rintro ⟨j, hj⟩
        refine ⟨j, ?_⟩
        by_cases hji : j = i
        · subst hji
          simp only [Function.update_same] at hj
          rcases List.mem_cons.mp hj with hba | hj
          · exact absurd hba hb
          · exact hj
        · simp only [Function.update_noteq hji] at hj
          exact hj
  · rw [hN, lanes_sum_push q i a hi, h.count]
    unfold inc32
    omega
  · intro b e1 he1
    rw [hK]
    by_cases hb : b = a
    · subst hb
      exact h.live b e hm
    · rw [hB b hb] at he1
      exact h.live b e1 he1

theorem QueueInv.pend {l : Loop} {q : Nat → List Nat} (h : QueueInv l q) (a : Nat) :
    ∃ q1, QueueInv (EVENT_PENDING l a) q1 ∧ ∀ i b, b ∈ q1 i → b ∈ q i ∨ b = a := by
  cases hm : l.mem a with
  | none =>
    have : EVENT_PENDING l a = l := by unfold EVENT_PENDING; simp [hm]
    rw [this]
    exact ⟨q, h, fun _ _ hb => Or.inl hb⟩
  | some e =>
    cases hp : e.pending with
    | true =>
      have : EVENT_PENDING l a = l := by unfold EVENT_PENDING; simp [hm, hp]
      rw [this]
      exact ⟨q, h, fun _ _ hb => Or.inl hb⟩
    | false =>
      rw [EVENT_PENDING_eq l a e hm hp]
      refine ⟨Function.update q (HEVENT_PRIORITY_INDEX e.priority)
        (a :: q (HEVENT_PRIORITY_INDEX e.priority)), ?_, ?_⟩
      · exact h.push_handle a e _ hm hp (priority_index_lt e.priority) (Function.update_same _ _ _)
          (fun b hb => Function.update_noteq hb _ _) rfl rfl rfl
      · intro j b hb
        by_cases hji : j = HEVENT_PRIORITY_INDEX e.priority
        · subst hji
          simp only [Function.update_same] at hb
          rcases List.mem_cons.mp hb with hba | hb
          · exact Or.inr hba
          · exact Or.inl hb
        · simp only [Function.update_noteq hji] at hb
          exact Or.inl hb

/-- The stages of a tick keep the pending queue well formed, and whatever they
queue is a handle they may touch. -/
theorem Stage.queue_inv {S : Nat → Prop} {l l1 : Loop} (h : Stage S l l1) :
    ∀ q, QueueInv l q → ∃ q1, QueueInv l1 q1 ∧ ∀ i b, b ∈ q1 i → b ∈ q i ∨ S b := by
  induction h with
  | refl => exact fun q hq => ⟨q, hq, fun _ _ hb => Or.inl hb⟩
  | @upd l1 a f _ hS hf ih =>
    intro q hq
    obtain ⟨q1, h1, h2⟩ := ih q hq
    exact ⟨q1, h1.upd a f hf, h2⟩
  | @pend l1 a _ hS ih =>
    intro q hq
    obtain ⟨q1, h1, h2⟩ := ih q hq
    obtain ⟨q2, h3, h4⟩ := h1.pend a
    refine ⟨q2, h3, ?_⟩
    intro i b hb
    rcases h4 i b hb with hb1 | hb1
    · exact h2 i b hb1
    · exact Or.inr (hb1 ▸ hS)
  | frame l3 _ e1 e2 e3 e4 e5 ih =>
    intro q hq
    obtain ⟨q1, h1, h2⟩ := ih q hq
    exact ⟨q1, h1.of_frame e1 e2 e3 e4, h2⟩

theorem Quiescent.queue_empty {l : Loop} (h : Quiescent l) : QueueInv l (fun _ => []) :=
  { chain := fun i => by rw [h.lanes i]; exact Chain.nil
    nodup := fun _ => List.nodup_nil
    disjoint := fun _ _ _ _ hb _ => by cases hb
    lanes := fun _ _ => rfl
    queued := fun a e he => by
      rw [h.idle a e he]
      constructor
      · intro hh; cases hh
      · rintro ⟨_, hb⟩; cases hb
    count := by rw [h.npend]; rfl
    live := h.live }

/-! ### The dispatch of a well-formed queue -/

theorem walk_quiet_fields :
    ∀ (fuel : Nat) (l : Loop) (head : Option Nat) (n : Nat) (l1 : Loop) (n1 : Nat),
      hloop_process_pendings_walk Env.quiet fuel l head n = some (l1, n1) →
      l1.brk = l.brk ∧ l1.idles = l.idles := by
  intro fuel
  induction fuel with
  | zero =>
    intro l head n l1 n1 hr
    cases head with
    | none =>
      unfold hloop_process_pendings_walk at hr
      cases hr
      exact ⟨rfl, rfl⟩
    | some a =>
      unfold hloop_process_pendings_walk at hr
      cases hr
  | succ fuel ih =>
    intro l head n l1 n1 hr
    cases head with
    | none =>
      unfold hloop_process_pendings_walk at hr
      cases hr
      exact ⟨rfl, rfl⟩
    | some a =>
      cases hm : l.mem a with
      | none =>
        unfold hloop_process_pendings_walk at hr
        simp [hm] at hr
      | some e =>
        rw [walk_quiet_step fuel l a n e hm] at hr
        have h := ih _ _ _ _ _ hr
        exact ⟨h.1, h.2⟩

theorem lanes_quiet_fields (fuel : Nat) :
    ∀ (i : Nat) (l : Loop) (n : Nat) (l1 : Loop) (n1 : Nat),
      hloop_process_pendings_lanes Env.quiet fuel i l n = some (l1, n1) →
      l1.brk = l.brk ∧ l1.idles = l.idles := by
  intro i
  induction i with
  | zero =>
    intro l n l1 n1 hr
    unfold hloop_process_pendings_lanes at hr
    cases hr
    exact ⟨rfl, rfl⟩
  | succ i ih =>
    intro l n l1 n1 hr
    unfold hloop_process_pendings_lanes at hr
    cases hw : hloop_process_pendings_walk Env.quiet fuel l (l.pendings i) n with
    | none => rw [hw] at hr; cases hr
    | some p =>
      rw [hw] at hr
      have h1 := walk_quiet_fields fuel l _ n p.1 p.2 hw
      have h2 := ih _ _ _ _ hr
      exact ⟨h2.1.trans h1.1, h2.2.trans h1.2⟩

theorem pendings_quiet_fields (fuel : Nat) (l l1 : Loop) (n1 : Nat)
    (hr : hloop_process_pendings Env.quiet fuel l = some (l1, n1)) :
    l1.brk = l.brk ∧ l1.idles = l.idles := by
  unfold hloop_process_pendings at hr
  by_cases hn : l.npendings = 0
  · rw [if_pos hn] at hr
    cases hr
    exact ⟨rfl, rfl⟩
  · rw [if_neg hn] at hr
    cases hw : hloop_process_pendings_lanes Env.quiet fuel HEVENT_PRIORITY_SIZE l 0 with
    | none => rw [hw] at hr; cases hr
    | some p =>
      rw [hw] at hr
      simp only [Option.some.injEq, Prod.mk.injEq] at hr
      have h1 := lanes_quiet_fields fuel _ l 0 p.1 p.2 hw
      rw [← hr.1]
      exact h1

theorem chain_live {mem : Nat → Option Hevent} {head : Option Nat} {xs : List Nat}
    (h : Chain mem head xs) : ∀ a ∈ xs, ∃ e, mem a = some e := by
  induction h with
  | nil => intro a ha; cases ha
  | @cons a e xs he _ ih =>
    intro b hb
    rcases List.mem_cons.mp hb with hba | hb
    · exact ⟨e, hba ▸ he⟩
    · exact ih b hb

theorem chain_nil_head {mem : Nat → Option Hevent} {head : Option Nat}
    (h : Chain mem head []) : head = none := by
  cases h
  rfl

theorem nodup_lt_length (xs : List Nat) (n : Nat) (hnd : xs.Nodup) (hlt : ∀ a ∈ xs, a < n) :
    xs.length ≤ n := by
  have hsub : xs ⊆ List.range n := fun a ha => List.mem_range.mpr (hlt a ha)
  have := (List.subperm_of_subset hnd hsub).length_le
  simpa using this

theorem QueueInv.flat_nodup {l : Loop} {q : Nat → List Nat} (h : QueueInv l q)
    (idx : List Nat) (hidx : idx.Nodup) : (idx.flatMap q).Nodup := by
  refine List.nodup_flatMap.mpr ⟨fun i _ => h.nodup i,
    hidx.pairwise_of_forall_ne (fun i _ j _ hij => ?_)⟩
  intro x hxi hxj
  exact h.disjoint i j hij x hxi hxj

theorem lanes_sum_flat (q : Nat → List Nat) :
    ((List.range 5).map (fun i => (q i).length)).sum = ((List.range 5).flatMap q).length := by
  have hr : List.range 5 = [0, 1, 2, 3, 4] := by decide
  rw [hr]
  simp [List.flatMap]

theorem QueueInv.total_le {l : Loop} {q : Nat → List Nat} (h : QueueInv l q) :
    ((List.range 5).map (fun i => (q i).length)).sum ≤ l.brk := by
  rw [lanes_sum_flat]
  refine nodup_lt_length _ _ (h.flat_nodup _ (List.nodup_range 5)) ?_
  intro a ha
  obtain ⟨i, _, hai⟩ := List.mem_flatMap.mp ha
  obtain ⟨e, he⟩ := chain_live (h.chain i) a hai
  exact h.live a e he

theorem QueueInv.lane_le {l : Loop} {q : Nat → List Nat} (h : QueueInv l q) (i : Nat) :
    (q i).length ≤ l.brk := by
  refine nodup_lt_length _ _ (h.nodup i) ?_
  intro a ha
  obtain ⟨e, he⟩ := chain_live (h.chain i) a ha
  exact h.live a e he

theorem QueueInv.pending_wf {l : Loop} {q : Nat → List Nat} (h : QueueInv l q) : PendingWF l q :=
  ⟨h.chain, h.nodup, h.disjoint⟩

theorem handle_ncbs_pending (mem : Nat → Option Hevent) (a : Nat) (e : Hevent)
    (he : mem a = some e) (hp : e.pending = true) :
    handle_ncbs mem a = if has_cb mem a then 1 else 0 := by
  unfold handle_ncbs has_cb
  rw [he]
  cases hcb : e.cb <;> simp [hp, hcb]

theorem lane_ncbs_countP (mem : Nat → Option Hevent) :
    ∀ xs : List Nat, (∀ a ∈ xs, ∃ e, mem a = some e ∧ e.pending = true) →
      lane_ncbs mem xs = xs.countP (has_cb mem) := by
  intro xs
  induction xs with
  | nil => intro _; rfl
  | cons a xs ih =>
    intro h
    obtain ⟨e, he, hp⟩ := h a (List.mem_cons_self _ _)
    have := ih (fun b hb => h b (List.mem_cons_of_mem _ hb))
    unfold lane_ncbs at this ⊢
    rw [List.map_cons, List.sum_cons, this, List.countP_cons, handle_ncbs_pending mem a e he hp]
    omega

theorem handle_obs_count (mem : Nat → Option Hevent) (a : Nat) :
    (handle_obs mem a).countP Obs.is_cb = handle_ncbs mem a := by
  unfold handle_obs handle_ncbs
  cases mem a with
  | none => rfl
  | some e =>
    cases hc : e.cb <;> cases hp : e.pending <;> cases hd : e.destroy <;>
      simp [hc, hp, hd, Obs.is_cb]

theorem lane_obs_count (mem : Nat → Option Hevent) (xs : List Nat) :
    (lane_obs mem xs).countP Obs.is_cb = lane_ncbs mem xs := by
  induction xs with
  | nil => rfl
  | cons a xs ih =>
    unfold lane_obs lane_ncbs at ih ⊢
    rw [List.flatMap_cons, List.countP_append, ih, handle_obs_count, List.map_cons,
      List.sum_cons]

theorem lanes_obs_count (mem : Nat → Option Hevent) (q : Nat → List Nat) :
    ((List.range 5).reverse.flatMap (fun j => lane_obs mem (q j))).countP Obs.is_cb
      = ((List.range 5).map (fun j => lane_ncbs mem (q j))).sum := by
  have hr : List.range 5 = [0, 1, 2, 3, 4] := by decide
  rw [hr]
  simp only [List.reverse_cons, List.reverse_nil, List.nil_append, List.cons_append,
    List.flatMap_cons, List.flatMap_nil, List.countP_append, List.countP_nil, lane_obs_count,
    List.map_cons, List.map_nil, List.sum_cons, List.sum_nil]
  omega

theorem lanes_sum_zero (q : Nat → List Nat)
    (h : ((List.range 5).map (fun i => (q i).length)).sum = 0) : ∀ j, j < 5 → q j = [] := by
  have hr : List.range 5 = [0, 1, 2, 3, 4] := by decide
  rw [hr] at h
  simp only [List.map_cons, List.map_nil, List.sum_cons, List.sum_nil] at h
  intro j hj
  apply List.length_eq_zero.mp
  interval_cases j <;> omega

theorem QueueInv.pending_of_mem {l : Loop} {q : Nat → List Nat} (h : QueueInv l q) {i a : Nat}
    (ha : a ∈ q i) : ∃ e, l.mem a = some e ∧ e.pending = true := by
  obtain ⟨e, he⟩ := chain_live (h.chain i) a ha
  exact ⟨e, he, (h.queued a e he).mpr ⟨i, ha⟩⟩

/-- The dispatch of a well-formed pending queue by callbacks that leave the loop
alone, given a bound of at least the number of handles ever allocated: it
returns the number of queued handles with a callback, that many callbacks
are invoked, every queued handle is dispatched (freed when `destroy` is set,
otherwise no longer pending and unlinked), the others are untouched, and
the loop is quiescent afterwards. -/
theorem drain_quiet (fuel : Nat) (l : Loop) (q : Nat → List Nat) (hq : QueueInv l q)
    (hbrk : l.brk < 2 ^ 32) (hfuel : l.brk ≤ fuel) :
    ∃ l2 t, hloop_process_pendings Env.quiet fuel l
        = some (l2, ((List.range 5).map (fun j => (q j).countP (has_cb l.mem))).sum) ∧
      Quiescent l2 ∧ l2.trace = l.trace ++ t ∧
      t.countP Obs.is_cb = ((List.range 5).map (fun j => (q j).countP (has_cb l.mem))).sum ∧
      (∀ a, (∀ j, a ∉ q j) → l2.mem a = l.mem a) ∧
      (∀ j a, a ∈ q j → l2.mem a = dispatched (l.mem a)) ∧
      (∀ a c, Obs.cb a c ∈ t → ∃ j, a ∈ q j) ∧
      l2.idles = l.idles ∧ l2.brk = l.brk := by
  have htot := hq.total_le
  have hcnt : ((List.range 5).map (fun j => lane_ncbs l.mem (q j))).sum
      = ((List.range 5).map (fun j => (q j).countP (has_cb l.mem))).sum := by
    congr 1
    apply List.map_congr_left
    intro j _
    exact lane_ncbs_countP l.mem (q j) (fun a ha => hq.pending_of_mem ha)
  by_cases hnp : l.npendings = 0
  · have h0 : ((List.range 5).map (fun i => (q i).length)).sum = 0 := by
      have := hq.count
      rw [hnp] at this
      omega
    have hnil : ∀ j, q j = [] := by
      intro j
      by_cases hj : j < 5
      · exact lanes_sum_zero q h0 j hj
      · exact hq.lanes j (by omega)
    have hqe : q = fun _ => [] := funext hnil
    subst hqe
    refine ⟨l, [], ?_, ?_, by simp, ?_, fun _ _ => rfl, ?_, ?_, rfl, rfl⟩
    · unfold hloop_process_pendings
      rw [if_pos hnp]
      simp
    · refine ⟨fun i => chain_nil_head (hq.chain i), hnp, ?_, hq.live⟩
      intro a e he
      cases hp : e.pending with
      | false => rfl
      | true =>
        obtain ⟨i, hi⟩ := (hq.queued a e he).mp hp
        cases hi
    · simp
    · intro j a ha
      cases ha
    · intro a c hc
      cases hc
  · obtain ⟨l1, g1, g2, g3, g4, g5, g6, _, _⟩ := lanes_quiet fuel q 5 l 0
      (fun j _ => hq.chain j) (fun j _ => hq.nodup j)
      (fun j k _ _ hjk => hq.disjoint j k hjk) (fun j _ => (hq.lane_le j).trans hfuel)
    have hres : hloop_process_pendings Env.quiet fuel l
        = some ({ l1 with npendings := 0 },
          ((List.range 5).map (fun j => lane_ncbs l.mem (q j))).sum) := by
      unfold hloop_process_pendings
      simp only [hnp, if_false, HEVENT_PRIORITY_SIZE, g1, Nat.zero_add]
    have hf := pendings_quiet_fields fuel l _ _ hres
    have hout : ∀ a, (∀ j, a ∉ q j) → l1.mem a = l.mem a :=
      fun a ha => g3 a (fun j _ => ha j)
    have hin : ∀ j a, a ∈ q j → l1.mem a = dispatched (l.mem a) := by
      intro j a ha
      by_cases hj : j < 5
      · exact g4 j hj a ha
      · rw [hq.lanes j (by omega)] at ha
        cases ha
    refine ⟨{ l1 with npendings := 0 },
      (List.range 5).reverse.flatMap (fun j => lane_obs l.mem (q j)), ?_, ?_, g2, ?_, hout, hin,
      ?_, hf.2, hf.1⟩
    · rw [hres, hcnt]
    · refine ⟨?_, rfl, ?_, ?_⟩
      · intro i
        by_cases hi : i < 5
        · exact g5 i hi
        · have := g6 i (by omega)
          show l1.pendings i = none
          rw [this]
          have hc := hq.chain i
          rw [hq.lanes i (by omega)] at hc
          exact chain_nil_head hc
      · intro a e he
        have he1 : l1.mem a = some e := he
        by_cases hex : ∃ j, a ∈ q j
        · obtain ⟨j, hj⟩ := hex
          rw [hin j a hj] at he1
          obtain ⟨e0, h0, _⟩ := hq.pending_of_mem hj
          rw [h0] at he1
          unfold dispatched at he1
          simp only [Option.some_bind] at he1
          split at he1
          · cases he1
          · simp only [Option.some.injEq] at he1
            rw [← he1]
        · have hno : ∀ j, a ∉ q j := fun j hj => hex ⟨j, hj⟩
          rw [hout a hno] at he1
          cases hp : e.pending with
          | false => rfl
          | true => exact absurd ((hq.queued a e he1).mp hp) hex
      · intro a e he
        have he1 : l1.mem a = some e := he
        show a < l1.brk
        have hb : l1.brk = l.brk := hf.1
        rw [hb]
        by_cases hex : ∃ j, a ∈ q j
        · obtain ⟨j, hj⟩ := hex
          obtain ⟨e0, h0, _⟩ := hq.pending_of_mem hj
          exact hq.live a e0 h0
        · have hno : ∀ j, a ∉ q j := fun j hj => hex ⟨j, hj⟩
          rw [hout a hno] at he1
          exact hq.live a e he1
    · rw [lanes_obs_count, hcnt]
    · intro a c hc
      obtain ⟨j, _, hj⟩ := List.mem_flatMap.mp hc
      obtain ⟨b, hb, hx⟩ := lane_obs_mem hj
      rcases handle_obs_mem hx with ⟨c1, h1⟩ | h1
      · cases h1
        exact ⟨j, hb⟩
      · cases h1

/-! ### Quiescent loops -/

theorem Quiescent.of_init (now : Nat) : Quiescent (hloop_init now) :=
  { lanes := fun _ => rfl
    npend := rfl
    idle := fun a e he => by simp [hloop_init] at he
    live := fun a e he => by simp [hloop_init] at he }

theorem Quiescent.fresh {l l1 : Loop} (h : Quiescent l) (e : Hevent) (hp : e.pending = false)
    (hm : l1.mem = Function.update l.mem l.brk (some e)) (hb : l1.brk = l.brk + 1)
    (hl : l1.pendings = l.pendings) (hn : l1.npendings = l.npendings) : Quiescent l1 := by
  refine ⟨fun i => by rw [hl]; exact h.lanes i, by rw [hn]; exact h.npend, ?_, ?_⟩
  · intro a e1 he1
    rw [hm] at he1
    by_cases ha : a = l.brk
    · subst ha
      simp only [Function.update_same, Option.some.injEq] at he1
      rw [← he1]
      exact hp
    · rw [Function.update_noteq ha] at he1
      exact h.idle a e1 he1
  · intro a e1 he1
    rw [hm] at he1
    rw [hb]
    by_cases ha : a = l.brk
    · omega
    · rw [Function.update_noteq ha] at he1
      exact Nat.lt_succ_of_lt (h.live a e1 he1)

theorem Quiescent.after_hidle_add {l : Loop} (h : Quiescent l) (cb : Option Nat) (r : Nat) :
    Quiescent (hidle_add l cb r).1 := by
  refine h.fresh
    { event_type := .HEVENT_TYPE_IDLE, «repeat» := r % 2 ^ 32, loop := true, cb := cb,
      active := true, priority := .HEVENT_LOWEST_PRIORITY } rfl ?_ ?_ ?_ ?_
  · simp [hidle_add, Loop.alloc, Loop.upd, EVENT_ADD, EVENT_ACTIVE]
  · simp [hidle_add, Loop.alloc, Loop.upd, EVENT_ADD, EVENT_ACTIVE]
  · simp [hidle_add, Loop.alloc, Loop.upd, EVENT_ADD, EVENT_ACTIVE]
  · simp [hidle_add, Loop.alloc, Loop.upd, EVENT_ADD, EVENT_ACTIVE]

theorem Quiescent.after_htimer_add {l : Loop} (h : Quiescent l) (now : Nat) (cb : Option Nat)
    (T k : Nat) (l1 : Loop) (a : Nat) (hr : htimer_add l now cb T k = some (l1, a)) :
    Quiescent l1 := by
  unfold htimer_add at hr
  by_cases hT : T % 2 ^ 64 = 0
  · rw [if_pos hT] at hr
    cases hr
  · rw [if_neg hT] at hr
    simp only [Option.some.injEq, Prod.mk.injEq] at hr
    obtain ⟨hr1, _⟩ := hr
    subst hr1
    refine h.fresh
      { event_type := .HEVENT_TYPE_TIMEOUT, «repeat» := k % 2 ^ 32, loop := true, cb := cb,
        active := true, priority := .HEVENT_HIGHEST_PRIORITY, timeout := T % 2 ^ 64,
        next_timeout := add64 (now % 2 ^ 64) (mul64 (T % 2 ^ 64) 1000) } rfl ?_ ?_ ?_ ?_
    · simp [Loop.alloc, Loop.upd, EVENT_ADD, EVENT_ACTIVE, hloop_update_time, hloop_now_hrtime]
    · simp [Loop.alloc, Loop.upd, EVENT_ADD, EVENT_ACTIVE, hloop_update_time]
    · simp [Loop.alloc, Loop.upd, EVENT_ADD, EVENT_ACTIVE, hloop_update_time]
    · simp [Loop.alloc, Loop.upd, EVENT_ADD, EVENT_ACTIVE, hloop_update_time]

theorem tick_example_quiescent : Quiescent tick_example := by
  have h1 : Quiescent (hidle_add (hloop_init 0) (some 1) 1).1 :=
    (Quiescent.of_init 0).after_hidle_add (some 1) 1
  unfold tick_example
  cases hr : htimer_add (hidle_add (hloop_init 0) (some 1) 1).1 0 (some 7) 5 1 with
  | none => exact Quiescent.of_init 0
  | some p => exact h1.after_htimer_add 0 (some 7) 5 1 p.1 p.2 hr

/-! ### C14: the idle stage is skipped -/

theorem quiet_cb_eq {env : Env} (hcb : ∀ c a l, env.cb c a l = l) : env.cb = Env.quiet.cb := by
  funext c a l
  rw [hcb]
  rfl

theorem EVENT_INACTIVE_trace (l : Loop) (a : Nat) : (EVENT_INACTIVE l a).trace = l.trace := by
  unfold EVENT_INACTIVE
  split
  · rfl
  · split <;> rfl

theorem upd_trace (l : Loop) (a : Nat) (f : Hevent → Hevent) : (l.upd a f).trace = l.trace :=
  rfl

theorem timers_step_quiet_fields (env : Env) (l : Loop) (r : Nat) :
    (hloop_process_timers_step env l r).idles = l.idles ∧
    (hloop_process_timers_step env l r).trace = l.trace := by
  have h1 : (repeat_countdown l r).idles = l.idles ∧ (repeat_countdown l r).trace = l.trace := by
    unfold repeat_countdown
    split
    · exact ⟨rfl, rfl⟩
    · split <;> exact ⟨rfl, rfl⟩
  have h2 : ∀ l0 : Loop, (htimer_del_if_done l0 r).idles = l0.idles ∧
      (htimer_del_if_done l0 r).trace = l0.trace := by
    intro l0
    unfold htimer_del_if_done
    split
    · exact ⟨rfl, rfl⟩
    · split
      · unfold htimer_del
        split
        · exact ⟨rfl, rfl⟩
        · split
          · exact ⟨rfl, rfl⟩
          · simp only
            unfold EVENT_DEL
            constructor
            · rw [upd_idles, EVENT_INACTIVE_idles, upd_idles]
            · rw [upd_trace, EVENT_INACTIVE_trace, upd_trace]
      · exact ⟨rfl, rfl⟩
  have h3 : ∀ l0 : Loop, (timer_requeue env l0 r).idles = l0.idles ∧
      (timer_requeue env l0 r).trace = l0.trace := by
    intro l0
    unfold timer_requeue
    simp only
    split
    · exact ⟨rfl, rfl⟩
    · split
      · simp only
        split
        · exact ⟨rfl, rfl⟩
        · split <;> exact ⟨rfl, rfl⟩
      · exact ⟨rfl, rfl⟩
  unfold hloop_process_timers_step
  have h4 := EVENT_PENDING_fields (htimer_del_if_done (repeat_countdown l r) r) r
  constructor
  · rw [(h3 _).1, h4.2.2.1, (h2 _).1, h1.1]
  · rw [(h3 _).2, h4.2.2.2.2.1, (h2 _).2, h1.2]

theorem timers_loop_quiet_fields (env : Env) (now : Nat) :
    ∀ (fuel : Nat) (l : Loop) (n : Nat) (l2 : Loop) (n2 : Nat),
      hloop_process_timers_loop env now fuel l n = some (l2, n2) →
      l2.idles = l.idles ∧ l2.trace = l.trace := by
  intro fuel
  induction fuel with
  | zero =>
    intro l n l2 n2 hr
    unfold hloop_process_timers_loop at hr
    cases ht : l.timers with
    | nil => simp [ht] at hr; rw [← hr.1]; exact ⟨rfl, rfl⟩
    | cons r rest =>
      by_cases hk : l.key r > now
      · simp [ht, hk] at hr; rw [← hr.1]; exact ⟨rfl, rfl⟩
      · simp [ht, hk] at hr
  | succ fuel ih =>
    intro l n l2 n2 hr
    unfold hloop_process_timers_loop at hr
    cases ht : l.timers with
    | nil => simp [ht] at hr; rw [← hr.1]; exact ⟨rfl, rfl⟩
    | cons r rest =>
      by_cases hk : l.key r > now
      · simp [ht, hk] at hr; rw [← hr.1]; exact ⟨rfl, rfl⟩
      · simp only [ht, hk, if_false] at hr
        have h1 := ih _ _ _ _ hr
        have h2 := timers_step_quiet_fields env l r
        exact ⟨h1.1.trans h2.1, h1.2.trans h2.2⟩

theorem stage_timers_quiet_fields (env : Env) (fuel : Nat) (l l2 : Loop)
    (hr : hloop_process_events_timers env fuel l = some l2) :
    l2.idles = l.idles ∧ l2.trace = l.trace := by
  unfold hloop_process_events_timers at hr
  by_cases hn : l.ntimers ≠ 0
  · rw [if_pos hn] at hr
    cases hp : hloop_process_timers env fuel l with
    | none => rw [hp] at hr; cases hr
    | some p =>
      rw [hp] at hr
      simp only [Option.map_some', Option.some.injEq] at hr
      subst hr
      unfold hloop_process_timers at hp
      exact timers_loop_quiet_fields env _ fuel l 0 p.1 p.2 hp
  · rw [if_neg hn] at hr
    cases hr
    exact ⟨rfl, rfl⟩

theorem poll_fold_fields :
    ∀ (fds : List (Nat × Nat)) (l1 : Loop),
      (fds.foldl (fun l (p : Nat × Nat) =>
        match l.ios_ptr p.1 with
        | some io => EVENT_PENDING (l.upd io (fun e => { e with revents := e.revents ||| p.2 })) io
        | none => l) l1).idles = l1.idles ∧
      (fds.foldl (fun l (p : Nat × Nat) =>
        match l.ios_ptr p.1 with
        | some io => EVENT_PENDING (l.upd io (fun e => { e with revents := e.revents ||| p.2 })) io
        | none => l) l1).trace = l1.trace := by
  intro fds
  induction fds with
  | nil => intro l1; exact ⟨rfl, rfl⟩
  | cons p fds ih =>
    intro l1
    simp only [List.foldl_cons]
    have h1 := ih (match l1.ios_ptr p.1 with
        | some io => EVENT_PENDING (l1.upd io (fun e => { e with revents := e.revents ||| p.2 })) io
        | none => l1)
    have h2 : (match l1.ios_ptr p.1 with
        | some io => EVENT_PENDING (l1.upd io (fun e => { e with revents := e.revents ||| p.2 })) io
        | none => l1).idles = l1.idles ∧
        (match l1.ios_ptr p.1 with
        | some io => EVENT_PENDING (l1.upd io (fun e => { e with revents := e.revents ||| p.2 })) io
        | none => l1).trace = l1.trace := by
      cases l1.ios_ptr p.1 with
      | none => exact ⟨rfl, rfl⟩
      | some io =>
        simp only
        have h3 := EVENT_PENDING_fields
          (l1.upd io (fun e => { e with revents := e.revents ||| p.2 })) io
        exact ⟨h3.2.2.1, h3.2.2.2.2.1⟩
    exact ⟨h1.1.trans h2.1, h1.2.trans h2.2⟩

/-- The poll stage leaves the idle list alone and adds to the trace at most the
record of its one poll or sleep. -/
theorem stage_poll_fields (l : Loop) (t1 t2 : Nat) (r : PollResult) :
    (hloop_process_events_poll l t1 t2 r).idles = l.idles ∧
    ∃ s, (hloop_process_events_poll l t1 t2 r).trace = l.trace ++ s ∧
      ∀ x ∈ s, Obs.is_cb x = false := by
  unfold hloop_process_events_poll
  simp only
  cases hloop_blocktime ((hloop_update_time l t1).timers.head?.map (hloop_update_time l t1).key)
      (hloop_now_hrtime (hloop_update_time l t1)) with
  | none => exact ⟨rfl, [], by simp [hloop_update_time], by simp⟩
  | some b =>
    simp only
    by_cases hn : (hloop_update_time l t1).nios ≠ 0
    · rw [if_pos hn]
      unfold hloop_process_ios iowatcher_poll_events
      cases r with
      | error code =>
        exact ⟨rfl, [Obs.poll b], rfl, by simp [Obs.is_cb]⟩
      | ready fds =>
        have h := poll_fold_fields fds ((hloop_update_time l t1).emit (Obs.poll b))
        refine ⟨h.1, [Obs.poll b], ?_, by simp [Obs.is_cb]⟩
        exact h.2
    · rw [if_neg hn]
      exact ⟨rfl, [Obs.msleep b], rfl, by simp [Obs.is_cb]⟩

theorem poll_fold_timers :
    ∀ (fds : List (Nat × Nat)) (l1 : Loop),
      (fds.foldl (fun l (p : Nat × Nat) =>
        match l.ios_ptr p.1 with
        | some io => EVENT_PENDING (l.upd io (fun e => { e with revents := e.revents ||| p.2 })) io
        | none => l) l1).timers = l1.timers := by
  intro fds
  induction fds with
  | nil => intro l1; rfl
  | cons p fds ih =>
    intro l1
    simp only [List.foldl_cons]
    rw [ih]
    cases l1.ios_ptr p.1 with
    | none => rfl
    | some io =>
      simp only
      exact (EVENT_PENDING_fields
        (l1.upd io (fun e => { e with revents := e.revents ||| p.2 })) io).2.2.2.1

theorem stage_poll_timers (l : Loop) (t1 t2 : Nat) (r : PollResult) :
    (hloop_process_events_poll l t1 t2 r).timers = l.timers := by
  unfold hloop_process_events_poll
  simp only
  cases hloop_blocktime ((hloop_update_time l t1).timers.head?.map (hloop_update_time l t1).key)
      (hloop_now_hrtime (hloop_update_time l t1)) with
  | none => rfl
  | some b =>
    simp only
    by_cases hn : (hloop_update_time l t1).nios ≠ 0
    · rw [if_pos hn]
      unfold hloop_process_ios iowatcher_poll_events
      cases r with
      | error code => rfl
      | ready fds => exact poll_fold_timers fds ((hloop_update_time l t1).emit (Obs.poll b))
    · rw [if_neg hn]
      rfl

/-- C14: idles are skipped in a tick in which the poll or the timers left
something pending. The loop is quiescent at the start of the tick, fewer than
`2^32` handles were ever allocated, callbacks leave the loop alone, `l1` is
the loop the poll and timer stages produce, and `npendings` is not 0 there.
Then the idle stage leaves the loop as it is and the tick is the dispatch of
`l1`; the idle list is the one the tick started with, before and after the
dispatch; the two stages invoke no callback; and every handle that is
neither in the timer heap nor in the IO table (every idle, that is) is
unchanged by the stages and by the dispatch, so its `repeat` is not
decremented and it is not marked pending, and no callback is invoked on
it. -/
theorem C14_idles_skipped (env : Env) (l : Loop) (fuel t1 t2 : Nat) (r : PollResult)
    (l1 : Loop) (hcb : ∀ c a l0, env.cb c a l0 = l0)
    (hq : Quiescent l) (hbrk : l.brk < 2 ^ 32) (hfuel : l.brk ≤ fuel)
    (hst : hloop_process_events_timers env fuel (hloop_process_events_poll l t1 t2 r) = some l1)
    (hnp : l1.npendings ≠ 0) :
    hloop_process_events_idles l1 = l1 ∧
    hloop_process_events env fuel l t1 t2 r = hloop_process_pendings env fuel l1 ∧
    l1.idles = l.idles ∧
    (∃ s, l1.trace = l.trace ++ s ∧ ∀ x ∈ s, Obs.is_cb x = false) ∧
    (∀ a, a ∉ l.timers → (∀ fd, l.ios_ptr fd ≠ some a) → l1.mem a = l.mem a) ∧
    ∃ l2 n t, hloop_process_events env fuel l t1 t2 r = some (l2, n) ∧
      l2.trace = l1.trace ++ t ∧ l2.idles = l.idles ∧
      ∀ a, a ∉ l.timers → (∀ fd, l.ios_ptr fd ≠ some a) →
        l2.mem a = l.mem a ∧ ∀ c, Obs.cb a c ∉ t := by
  have hid : hloop_process_events_idles l1 = l1 := by
    unfold hloop_process_events_idles
    rw [if_neg hnp]
  have hev : hloop_process_events env fuel l t1 t2 r = hloop_process_pendings env fuel l1 := by
    rw [events_split, hst]
    simp only [Option.some_bind]
    rw [hid]
  have s1 : Stage (fun a => a ∈ l.timers ∨ ∃ fd, l.ios_ptr fd = some a) l
      (hloop_process_events_poll l t1 t2 r) :=
    stage_poll l t1 t2 r (fun fd a h => Or.inr ⟨fd, h⟩)
  have s2 : Stage (fun a => a ∈ l.timers ∨ ∃ fd, l.ios_ptr fd = some a)
      (hloop_process_events_poll l t1 t2 r) l1 :=
    stage_timers env fuel _ l1
      (fun x hx => Or.inl (by rw [stage_poll_timers] at hx; exact hx)) hst
  have s := s1.trans s2
  have hout : ∀ a, a ∉ l.timers → (∀ fd, l.ios_ptr fd ≠ some a) → l1.mem a = l.mem a := by
    intro a h1 h2
    refine s.frame_out.1 a ?_
    rintro (h | ⟨fd, h⟩)
    · exact h1 h
    · exact h2 fd h
  have hp := stage_poll_fields l t1 t2 r
  have ht := stage_timers_quiet_fields env fuel _ l1 hst
  have hidles : l1.idles = l.idles := ht.1.trans hp.1
  obtain ⟨sx, hs1, hs2⟩ := hp.2
  obtain ⟨q, hqi, hqS⟩ := s.queue_inv _ hq.queue_empty
  have hb : l1.brk = l.brk := s.frame_out.2.1
  obtain ⟨l2, t, d1, _, d3, _, d5, _, d7, d8, _⟩ :=
    drain_quiet fuel l1 q hqi (by rw [hb]; exact hbrk) (by rw [hb]; exact hfuel)
  refine ⟨hid, hev, hidles, ⟨sx, by rw [ht.2, hs1], hs2⟩, hout, l2,
    ((List.range 5).map (fun j => (q j).countP (has_cb l1.mem))).sum, t, ?_, d3,
    d8.trans hidles, ?_⟩
  · rw [hev, pendings_congr (quiet_cb_eq hcb)]
    exact d1
  · intro a h1 h2
    have hnq : ∀ j, a ∉ q j := by
      intro j hj
      rcases hqS j a hj with h | h | ⟨fd, h⟩
      · cases h
      · exact h1 h
      · exact h2 fd h
    refine ⟨(d5 a hnq).trans (hout a h1 h2), ?_⟩
    intro c hc
    obtain ⟨j, hj⟩ := d7 a c hc
    exact hnq j hj

/-- C14 at a concrete input: `tick_example`, whose timer is due in the tick with
clock readings 0 and 6000 µs. The timer callback runs; the idle at address 0
keeps its place in the list and its fields, and its callback is not
invoked. -/
theorem C14_idles_skipped_witness :
    (∃ (l2 : Loop) (n : Nat) (t : List Obs),
      hloop_process_events Env.quiet 4 tick_example 0 6000 (.ready []) = some (l2, n) ∧
      l2.idles = tick_example.idles ∧ l2.mem 0 = tick_example.mem 0 ∧ Obs.cb 0 1 ∉ t) ∧
    tick_example.idles = [0] ∧
    (tick_example.mem 0).map (fun e => (e.event_type, e.cb, e.«repeat», e.pending))
      = some (.HEVENT_TYPE_IDLE, some 1, 1, false) ∧
    (hloop_process_events Env.quiet 4 tick_example 0 6000 (.ready [])).map
      (fun p => (p.2, p.1.trace, p.1.idles)) =
      some (1, [Obs.msleep 6, Obs.cb 1 7, Obs.free 1], [0]) := by
  refine ⟨?_, by decide!, by decide!, by decide!⟩
  have hs : (hloop_process_events_timers Env.quiet 4
      (hloop_process_events_poll tick_example 0 6000 (.ready []))).isSome = true := by decide!
  obtain ⟨l1, h1⟩ := Option.isSome_iff_exists.mp hs
  have hnp : l1.npendings ≠ 0 := by
    have : (hloop_process_events_timers Env.quiet 4
        (hloop_process_events_poll tick_example 0 6000 (.ready []))).map
        (fun x => x.npendings) = some 1 := by decide!
    rw [h1] at this
    simp only [Option.map_some', Option.some.injEq] at this
    omega
  obtain ⟨_, _, _, _, _, l2, n, t, h2, _, h3, h4⟩ :=
    C14_idles_skipped Env.quiet tick_example 4 0 6000 (.ready []) l1 (fun _ _ _ => rfl)
      tick_example_quiescent (by decide!) (by decide!) h1 hnp
  have h5 := h4 0 (by decide!) (by
    intro fd
    have : tick_example.ios_ptr = fun _ => none := rfl
    rw [this]
    simp)
  exact ⟨l2, n, t, h2, h3, h5.1, h5.2 1⟩

/-! ## C17: the status across a tick -/

theorem EVENT_PENDING_status (l : Loop) (a : Nat) : (EVENT_PENDING l a).status = l.status := by
  unfold EVENT_PENDING
  split
  · rfl
  · split <;> rfl

theorem EVENT_INACTIVE_status (l : Loop) (a : Nat) : (EVENT_INACTIVE l a).status = l.status := by
  unfold EVENT_INACTIVE
  split
  · rfl
  · split <;> rfl

theorem EVENT_DEL_status_trace (l : Loop) (a : Nat) :
    (EVENT_DEL l a).status = l.status ∧ (EVENT_DEL l a).trace = l.trace := by
  unfold EVENT_DEL
  exact ⟨EVENT_INACTIVE_status _ a, EVENT_INACTIVE_trace _ a⟩

theorem repeat_countdown_status_trace (l : Loop) (a : Nat) :
    (repeat_countdown l a).status = l.status ∧ (repeat_countdown l a).trace = l.trace := by
  unfold repeat_countdown
  split
  · exact ⟨rfl, rfl⟩
  · split <;> exact ⟨rfl, rfl⟩

theorem timers_step_status (env : Env) (l : Loop) (r : Nat) :
    (hloop_process_timers_step env l r).status = l.status := by
  have h2 : ∀ l0 : Loop, (htimer_del_if_done l0 r).status = l0.status := by
    intro l0
    unfold htimer_del_if_done
    split
    · rfl
    · split
      · unfold htimer_del
        split
        · rfl
        · split
          · rfl
          · exact (EVENT_DEL_status_trace _ r).1
      · rfl
  have h3 : ∀ l0 : Loop, (timer_requeue env l0 r).status = l0.status := by
    intro l0
    unfold timer_requeue
    simp only
    split
    · rfl
    · split
      · simp only
        split
        · rfl
        · split <;> rfl
      · rfl
  unfold hloop_process_timers_step
  rw [h3, EVENT_PENDING_status, h2, (repeat_countdown_status_trace l r).1]

theorem timers_loop_status (env : Env) (now : Nat) :
    ∀ (fuel : Nat) (l : Loop) (n : Nat) (l2 : Loop) (n2 : Nat),
      hloop_process_timers_loop env now fuel l n = some (l2, n2) → l2.status = l.status := by
  intro fuel
  induction fuel with
  | zero =>
    intro l n l2 n2 hr
    unfold hloop_process_timers_loop at hr
    cases ht : l.timers with
    | nil => simp [ht] at hr; rw [← hr.1]
    | cons r rest =>
      by_cases hk : l.key r > now
      · simp [ht, hk] at hr; rw [← hr.1]
      · simp [ht, hk] at hr
  | succ fuel ih =>
    intro l n l2 n2 hr
    unfold hloop_process_timers_loop at hr
    cases ht : l.timers with
    | nil => simp [ht] at hr; rw [← hr.1]
    | cons r rest =>
      by_cases hk : l.key r > now
      · simp [ht, hk] at hr; rw [← hr.1]
      · simp only [ht, hk, if_false] at hr
        exact (ih _ _ _ _ hr).trans (timers_step_status env l r)

theorem stage_timers_status (env : Env) (fuel : Nat) (l l2 : Loop)
    (hr : hloop_process_events_timers env fuel l = some l2) : l2.status = l.status := by
  unfold hloop_process_events_timers at hr
  by_cases hn : l.ntimers ≠ 0
  · rw [if_pos hn] at hr
    cases hp : hloop_process_timers env fuel l with
    | none => rw [hp] at hr; cases hr
    | some p =>
      rw [hp] at hr
      simp only [Option.map_some', Option.some.injEq] at hr
      subst hr
      unfold hloop_process_timers at hp
      exact timers_loop_status env _ fuel l 0 p.1 p.2 hp
  · rw [if_neg hn] at hr
    cases hr
    rfl

theorem poll_fold_status :
    ∀ (fds : List (Nat × Nat)) (l1 : Loop),
      (fds.foldl (fun l (p : Nat × Nat) =>
        match l.ios_ptr p.1 with
        | some io => EVENT_PENDING (l.upd io (fun e => { e with revents := e.revents ||| p.2 })) io
        | none => l) l1).status = l1.status := by
  intro fds
  induction fds with
  | nil => intro l1; rfl
  | cons p fds ih =>
    intro l1
    simp only [List.foldl_cons]
    rw [ih]
    cases l1.ios_ptr p.1 with
    | none => rfl
    | some io =>
      simp only
      exact EVENT_PENDING_status _ io

theorem stage_poll_status (l : Loop) (t1 t2 : Nat) (r : PollResult) :
    (hloop_process_events_poll l t1 t2 r).status = l.status := by
  unfold hloop_process_events_poll
  simp only
  cases hloop_blocktime ((hloop_update_time l t1).timers.head?.map (hloop_update_time l t1).key)
      (hloop_now_hrtime (hloop_update_time l t1)) with
  | none => rfl
  | some b =>
    simp only
    by_cases hn : (hloop_update_time l t1).nios ≠ 0
    · rw [if_pos hn]
      unfold hloop_process_ios iowatcher_poll_events
      cases r with
      | error code => rfl
      | ready fds => exact poll_fold_status fds ((hloop_update_time l t1).emit (Obs.poll b))
    · rw [if_neg hn]
      rfl

theorem idles_step_status_trace (l : Loop) (a : Nat) :
    (hloop_process_idles_step l a).status = l.status ∧
    (hloop_process_idles_step l a).trace = l.trace := by
  have h2 : ∀ l0 : Loop, (hidle_del_if_done l0 a).status = l0.status ∧
      (hidle_del_if_done l0 a).trace = l0.trace := by
    intro l0
    unfold hidle_del_if_done
    split
    · exact ⟨rfl, rfl⟩
    · split
      · unfold hidle_del
        split
        · exact ⟨rfl, rfl⟩
        · split
          · exact ⟨rfl, rfl⟩
          · exact EVENT_DEL_status_trace _ a
      · exact ⟨rfl, rfl⟩
  have h3 : ∀ l0 : Loop, (idle_unlink l0 a).status = l0.status ∧
      (idle_unlink l0 a).trace = l0.trace := by
    intro l0
    unfold idle_unlink
    split
    · exact ⟨rfl, rfl⟩
    · split <;> exact ⟨rfl, rfl⟩
  unfold hloop_process_idles_step
  have h4 := EVENT_PENDING_fields (hidle_del_if_done (repeat_countdown l a) a) a
  have h1 := repeat_countdown_status_trace l a
  constructor
  · rw [(h3 _).1, EVENT_PENDING_status, (h2 _).1, h1.1]
  · rw [(h3 _).2, h4.2.2.2.2.1, (h2 _).2, h1.2]

theorem idles_fold_status_trace :
    ∀ (xs : List Nat) (l : Loop),
      (xs.foldl hloop_process_idles_step l).status = l.status ∧
      (xs.foldl hloop_process_idles_step l).trace = l.trace := by
  intro xs
  induction xs with
  | nil => intro l; exact ⟨rfl, rfl⟩
  | cons a xs ih =>
    intro l
    simp only [List.foldl_cons]
    have h1 := ih (hloop_process_idles_step l a)
    have h2 := idles_step_status_trace l a
    exact ⟨h1.1.trans h2.1, h1.2.trans h2.2⟩

theorem stage_idles_status_trace (l : Loop) :
    (hloop_process_events_idles l).status = l.status ∧
    (hloop_process_events_idles l).trace = l.trace := by
  unfold hloop_process_events_idles
  split
  · split
    · exact idles_fold_status_trace l.idles l
    · exact ⟨rfl, rfl⟩
  · exact ⟨rfl, rfl⟩

theorem StopSeen.keep {env : Env} {t0 : List Obs} {l l1 : Loop} (h : StopSeen env t0 l)
    (hs : l1.status = l.status)
    (ht : ∃ s, l1.trace = l.trace ++ s ∧ ∀ x ∈ s, Obs.is_cb x = false) :
    StopSeen env t0 l1 := by
  obtain ⟨s, h1, h2⟩ := h
  obtain ⟨s1, h3, h4⟩ := ht
  refine ⟨s ++ s1, by rw [h3, h1, List.append_assoc], ?_⟩
  rintro ⟨a, c, hm, hst⟩
  rw [hs]
  apply h2
  rcases List.mem_append.mp hm with hm | hm
  · exact ⟨a, c, hm, hst⟩
  · have := h4 _ hm
    cases this

theorem StopSeen.same_status {env : Env} {t0 : List Obs} {l l1 : Loop} (h : StopSeen env t0 l)
    (hs : l1.status = l.status) (ht : l1.trace = l.trace) : StopSeen env t0 l1 :=
  h.keep hs ⟨[], by rw [ht, List.append_nil], fun _ hx => by cases hx⟩

theorem StopSeen.start (env : Env) (l : Loop) : StopSeen env l.trace l :=
  ⟨[], (List.append_nil _).symm, fun ⟨_, _, hm, _⟩ => by cases hm⟩

theorem StopSeen.dispatch {env : Env} (hc : StatusCallbacks env) {t0 : List Obs} {l : Loop}
    (h : StopSeen env t0 l) (a c : Nat) :
    StopSeen env t0 (env.cb c a (l.emit (Obs.cb a c))) := by
  obtain ⟨s, h1, h2⟩ := h
  obtain ⟨s1, h3, h4⟩ := hc.trace c a (l.emit (Obs.cb a c))
  refine ⟨s ++ [Obs.cb a c] ++ s1, ?_, ?_⟩
  · rw [h3]
    show (l.trace ++ [Obs.cb a c]) ++ s1 = _
    rw [h1]
    simp only [List.append_assoc]
  · rintro ⟨a1, c1, hm, hst⟩
    by_cases hac : env.stops a c
    · exact hac _
    · apply hc.stable
      show l.status = _
      apply h2
      rcases List.mem_append.mp hm with hm | hm
      · rcases List.mem_append.mp hm with hm | hm
        · exact ⟨a1, c1, hm, hst⟩
        · simp only [List.mem_singleton, Obs.cb.injEq] at hm
          obtain ⟨rfl, rfl⟩ := hm
          exact absurd hst hac
      · have := h4 _ hm
        cases this

theorem StopSeen.inv {env : Env} (hc : StatusCallbacks env) (t0 : List Obs) :
    TickInv env (StopSeen env t0) :=
  ⟨fun _ a c h => h.dispatch hc a c, fun _ _ h hs ht => h.keep hs ht⟩

theorem stopped_inv {env : Env} (hc : StatusCallbacks env) :
    TickInv env (fun l => l.status = .HLOOP_STATUS_STOP) :=
  ⟨fun l a c h => hc.stable c a (l.emit (Obs.cb a c)) h, fun _ _ h hs _ => hs.trans h⟩

theorem TickInv.same {env : Env} {P : Loop → Prop} (hP : TickInv env P) {l l1 : Loop}
    (h : P l) (hs : l1.status = l.status) (ht : l1.trace = l.trace) : P l1 :=
  hP.keep l l1 h hs ⟨[], by rw [ht, List.append_nil], fun _ hx => by cases hx⟩

theorem dispatch_pending_inv {env : Env} {P : Loop → Prop} (hP : TickInv env P) {l : Loop}
    (h : P l) (next n : Nat) : P (dispatch_pending env l next n).1 := by
  unfold dispatch_pending
  split
  · exact h
  · split
    · split
      · exact hP.dispatch _ _ _ h
      · exact h
    · exact h

theorem unlink_pending_inv {env : Env} {P : Loop → Prop} (hP : TickInv env P) {l : Loop}
    (h : P l) (prev : Nat) : P (unlink_pending l prev) := by
  unfold unlink_pending
  split
  · exact h
  · simp only
    split
    · exact hP.keep _ _ h rfl ⟨[Obs.free prev], rfl, fun x hx => by
        simp only [List.mem_singleton] at hx
        subst hx
        rfl⟩
    · exact hP.same h rfl rfl

theorem walk_inv {env : Env} {P : Loop → Prop} (hP : TickInv env P) :
    ∀ (fuel : Nat) (l : Loop) (head : Option Nat) (n : Nat) (l1 : Loop) (n1 : Nat),
      hloop_process_pendings_walk env fuel l head n = some (l1, n1) → P l → P l1 := by
  intro fuel
  induction fuel with
  | zero =>
    intro l head n l1 n1 hr h
    cases head with
    | none =>
      unfold hloop_process_pendings_walk at hr
      cases hr
      exact h
    | some a =>
      unfold hloop_process_pendings_walk at hr
      cases hr
  | succ fuel ih =>
    intro l head n l1 n1 hr h
    cases head with
    | none =>
      unfold hloop_process_pendings_walk at hr
      cases hr
      exact h
    | some a =>
      unfold hloop_process_pendings_walk at hr
      cases hm : l.mem a with
      | none => simp only [hm] at hr; cases hr
      | some e =>
        simp only [hm] at hr
        cases hm1 : (dispatch_pending env l a n).1.mem a with
        | none => simp only [hm1] at hr; cases hr
        | some prev =>
          simp only [hm1] at hr
          exact ih _ _ _ _ _ hr (unlink_pending_inv hP (dispatch_pending_inv hP h a n) a)

theorem lanes_inv {env : Env} {P : Loop → Prop} (hP : TickInv env P) (fuel : Nat) :
    ∀ (i : Nat) (l : Loop) (n : Nat) (l1 : Loop) (n1 : Nat),
      hloop_process_pendings_lanes env fuel i l n = some (l1, n1) → P l → P l1 := by
  intro i
  induction i with
  | zero =>
    intro l n l1 n1 hr h
    unfold hloop_process_pendings_lanes at hr
    cases hr
    exact h
  | succ i ih =>
    intro l n l1 n1 hr h
    unfold hloop_process_pendings_lanes at hr
    cases hw : hloop_process_pendings_walk env fuel l (l.pendings i) n with
    | none => simp only [hw] at hr; cases hr
    | some p =>
      simp only [hw] at hr
      have h1 := walk_inv hP fuel l _ n p.1 p.2 hw h
      exact ih _ _ _ _ hr (hP.same h1 rfl rfl)

theorem pendings_inv {env : Env} {P : Loop → Prop} (hP : TickInv env P) (fuel : Nat)
    (l l1 : Loop) (n1 : Nat) (hr : hloop_process_pendings env fuel l = some (l1, n1))
    (h : P l) : P l1 := by
  unfold hloop_process_pendings at hr
  by_cases hn : l.npendings = 0
  · rw [if_pos hn] at hr
    cases hr
    exact h
  · rw [if_neg hn] at hr
    cases hw : hloop_process_pendings_lanes env fuel HEVENT_PRIORITY_SIZE l 0 with
    | none => rw [hw] at hr; cases hr
    | some p =>
      rw [hw] at hr
      simp only [Option.some.injEq, Prod.mk.injEq] at hr
      have h1 := lanes_inv hP fuel _ l 0 p.1 p.2 hw h
      rw [← hr.1]
      exact hP.same h1 rfl rfl

/-- A tick keeps every property that the dispatch of a callback keeps and that
does not depend on what else the tick changes. -/
theorem events_inv {env : Env} {P : Loop → Prop} (hP : TickInv env P) (fuel : Nat) (l : Loop)
    (t1 t2 : Nat) (r : PollResult) (l1 : Loop) (n : Nat)
    (hr : hloop_process_events env fuel l t1 t2 r = some (l1, n)) (h : P l) : P l1 := by
  rw [events_split] at hr
  cases ht : hloop_process_events_timers env fuel (hloop_process_events_poll l t1 t2 r) with
  | none => rw [ht] at hr; cases hr
  | some l0 =>
    rw [ht] at hr
    simp only [Option.some_bind] at hr
    have s1 : P (hloop_process_events_poll l t1 t2 r) :=
      hP.keep _ _ h (stage_poll_status l t1 t2 r) (stage_poll_fields l t1 t2 r).2
    have s2 : P l0 :=
      hP.same s1 (stage_timers_status env fuel _ l0 ht) (stage_timers_quiet_fields env fuel _ l0 ht).2
    have s3 : P (hloop_process_events_idles l0) :=
      hP.same s2 (stage_idles_status_trace l0).1 (stage_idles_status_trace l0).2
    exact pendings_inv hP fuel _ l1 n hr s3

theorem run_loop_tick (env : Env) (fuel : Nat) (i : TickInput) (rest : List TickInput)
    (l l1 : Loop) (n : Nat) (hs : l.status = .HLOOP_STATUS_RUNNING) (ha : l.nactives ≠ 0)
    (hr : hloop_process_events env fuel { l with loop_cnt := (l.loop_cnt + 1) % 2 ^ 64 }
      i.t1 i.t2 i.r = some (l1, n)) :
    hloop_run_loop env fuel (i :: rest) l = hloop_run_loop env fuel rest l1 := by
  rw [hloop_run_loop]
  have h1 : ¬ (l.status = .HLOOP_STATUS_STOP) := by rw [hs]; decide
  have h2 : ¬ (l.status = .HLOOP_STATUS_PAUSE) := by rw [hs]; decide
  simp only [h1, h2, if_false, ha, hr]

theorem stopping_env_ok : StatusCallbacks stopping_env := by
  refine ⟨fun c a l h => ?_, fun c a l => ⟨[], ?_, fun _ hx => by cases hx⟩⟩
  · show (if c = 7 then hloop_stop l else l).status = _
    split
    · rfl
    · exact h
  · show (if c = 7 then hloop_stop l else l).trace = _
    rw [List.append_nil]
    split <;> rfl

/-- C17: the status transition table and the exit of the run loop. `hloop_pause`
moves RUNNING to PAUSE and nothing else, `hloop_resume` moves PAUSE to RUNNING
and nothing else, `hloop_stop` sets STOP from any status; none of them touches
another field; pause and resume cannot undo a stop. A loop whose status is
STOP leaves the tick loop of `hloop_run` at the next test of the loop
condition, without another tick, with status STOP. A stop issued during a
tick reaches that test: the poll, timer and idle stages never write the
status, and the dispatch keeps STOP from any point of its walk on, provided
no callback restarts a stopped loop. So when the dispatcher of a tick of a
running loop invokes a callback that stops the loop, the tick ends with
status STOP and `hloop_run` leaves its tick loop right after that tick,
whatever inputs and active handles remain. -/
theorem C17_status_transitions (env : Env) (fuel : Nat) (ins : List TickInput) (l : Loop) :
    hloop_pause l = { l with status :=
      if l.status = .HLOOP_STATUS_RUNNING then .HLOOP_STATUS_PAUSE else l.status } ∧
    hloop_resume l = { l with status :=
      if l.status = .HLOOP_STATUS_PAUSE then .HLOOP_STATUS_RUNNING else l.status } ∧
    hloop_stop l = { l with status := .HLOOP_STATUS_STOP } ∧
    hloop_pause (hloop_stop l) = hloop_stop l ∧
    hloop_resume (hloop_stop l) = hloop_stop l ∧
    hloop_run_loop env fuel ins (hloop_stop l) = some (hloop_stop l) ∧
    (l.status = .HLOOP_STATUS_STOP → hloop_run_loop env fuel ins l = some l) ∧
    (∀ t1 t2 r, (hloop_process_events_poll l t1 t2 r).status = l.status) ∧
    (∀ l1, hloop_process_events_timers env fuel l = some l1 → l1.status = l.status) ∧
    (hloop_process_events_idles l).status = l.status ∧
    (StatusCallbacks env → l.status = .HLOOP_STATUS_STOP →
      (∀ head n l1 n1, hloop_process_pendings_walk env fuel l head n = some (l1, n1) →
        l1.status = .HLOOP_STATUS_STOP) ∧
      (∀ i n l1 n1, hloop_process_pendings_lanes env fuel i l n = some (l1, n1) →
        l1.status = .HLOOP_STATUS_STOP) ∧
      (∀ l1 n1, hloop_process_pendings env fuel l = some (l1, n1) →
        l1.status = .HLOOP_STATUS_STOP) ∧
      (∀ t1 t2 r l1 n1, hloop_process_events env fuel l t1 t2 r = some (l1, n1) →
        l1.status = .HLOOP_STATUS_STOP)) ∧
    (StatusCallbacks env → ∀ (i : TickInput) (l1 : Loop) (n : Nat) (s : List Obs),
      l.status = .HLOOP_STATUS_RUNNING → l.nactives ≠ 0 →
      hloop_process_events env fuel { l with loop_cnt := (l.loop_cnt + 1) % 2 ^ 64 }
        i.t1 i.t2 i.r = some (l1, n) →
      l1.trace = l.trace ++ s → (∃ a c, Obs.cb a c ∈ s ∧ env.stops a c) →
      l1.status = .HLOOP_STATUS_STOP ∧ hloop_run_loop env fuel (i :: ins) l = some l1) := by
  refine ⟨?_, ?_, rfl, ?_, ?_, run_loop_stop env fuel ins _ rfl, run_loop_stop env fuel ins l,
    stage_poll_status l, stage_timers_status env fuel l, (stage_idles_status_trace l).1, ?_, ?_⟩
  · unfold hloop_pause
    split_ifs <;> rfl
  · unfold hloop_resume
    split_ifs <;> rfl
  · simp [hloop_pause, hloop_stop]
  · simp [hloop_resume, hloop_stop]
  · intro hc hs
    have hP := stopped_inv hc
    exact ⟨fun head n l1 n1 hr => walk_inv hP fuel l head n l1 n1 hr hs,
      fun i n l1 n1 hr => lanes_inv hP fuel i l n l1 n1 hr hs,
      fun l1 n1 hr => pendings_inv hP fuel l l1 n1 hr hs,
      fun t1 t2 r l1 n1 hr => events_inv hP fuel l t1 t2 r l1 n1 hr hs⟩
  · intro hc i l1 n s hs ha hr htr hstop
    have h := events_inv (StopSeen.inv hc l.trace) fuel _ i.t1 i.t2 i.r l1 n hr
      (StopSeen.start env { l with loop_cnt := (l.loop_cnt + 1) % 2 ^ 64 })
    obtain ⟨s1, h1, h2⟩ := h
    have hss : s1 = s := by
      have h3 : l.trace ++ s1 = l.trace ++ s := h1.symm.trans htr
      exact List.append_cancel_left h3
    subst hss
    have hst := h2 hstop
    refine ⟨hst, ?_⟩
    rw [run_loop_tick env fuel i ins l l1 n hs ha hr]
    exact run_loop_stop env fuel ins l1 hst

/-- C17 at a concrete input: `stop_example` is a running loop with a repeating
timer (address 0, callback 8) and a one-shot timer (address 1) whose callback 7
calls `hloop_stop`; both are due in the first tick. The stopping callback is
dispatched first, the other callback still runs in that tick, and the run
loop ends after the tick with status STOP although a second input and an
active timer remain. -/
theorem C17_status_transitions_witness :
    (∃ l1, hloop_run_loop stopping_env 4 [⟨0, 1500, .ready []⟩, ⟨3000, 4000, .ready []⟩]
        stop_example = some l1 ∧ l1.status = .HLOOP_STATUS_STOP) ∧
    (stop_example.status, stop_example.nactives, stop_example.trace)
      = (.HLOOP_STATUS_RUNNING, 2, []) ∧
    (hloop_run_loop stopping_env 4 [⟨0, 1500, .ready []⟩, ⟨3000, 4000, .ready []⟩]
        stop_example).map (fun l => (l.status, l.trace, l.nactives, l.loop_cnt))
      = some (.HLOOP_STATUS_STOP, [Obs.msleep 2, Obs.cb 1 7, Obs.free 1, Obs.cb 0 8], 1, 1) := by
  refine ⟨?_, by decide!, by decide!⟩
  have hs : (hloop_process_events stopping_env 4
      { stop_example with loop_cnt := (stop_example.loop_cnt + 1) % 2 ^ 64 }
      0 1500 (.ready [])).isSome = true := by decide!
  obtain ⟨p, hp⟩ := Option.isSome_iff_exists.mp hs
  have ht : p.1.trace = stop_example.trace ++
      [Obs.msleep 2, Obs.cb 1 7, Obs.free 1, Obs.cb 0 8] := by
    have : (hloop_process_events stopping_env 4
        { stop_example with loop_cnt := (stop_example.loop_cnt + 1) % 2 ^ 64 }
        0 1500 (.ready [])).map (fun x => x.1.trace) =
        some (stop_example.trace ++ [Obs.msleep 2, Obs.cb 1 7, Obs.free 1, Obs.cb 0 8]) := by
      decide!
    rw [hp] at this
    simpa using this
  have h := (C17_status_transitions stopping_env 4 [⟨3000, 4000, .ready []⟩]
    stop_example).2.2.2.2.2.2.2.2.2.2.2 stopping_env_ok ⟨0, 1500, .ready []⟩ p.1 p.2 _
    (by decide!) (by decide!) hp ht ⟨1, 7, by simp, fun _ => rfl⟩
  exact ⟨p.1, h.2, h.1⟩

/-! ## C15: the dispatch with callbacks that change the loop -/

theorem CbFrame.refl (l : Loop) : CbFrame l l :=
  ⟨rfl, fun _ e h => ⟨e, h, rfl, rfl⟩, fun a h e1 h1 => (by rw [h] at h1; cases h1), fun h => h⟩

theorem Dispatched.nil (keep : Prop) (l : Loop) : Dispatched keep [] l l :=
  ⟨fun _ h => (by cases h), fun _ _ e h => ⟨e, h, rfl, rfl, fun _ => rfl⟩,
    fun a _ h e1 h1 => (by rw [h] at h1; cases h1), fun h => h⟩

theorem Dispatched.append {keep : Prop} {xs ys : List Nat} {l l1 l2 : Loop}
    (h1 : Dispatched keep xs l l1) (h2 : Dispatched keep ys l1 l2) :
    Dispatched keep (xs ++ ys) l l2 := by
  have hdone1 : ∀ a, (∀ e1, l1.mem a = some e1 → e1.pending = false ∧ e1.pending_next = none) →
      ∀ e2, l2.mem a = some e2 → e2.pending = false ∧ e2.pending_next = none := by
    intro a ha e2 he2
    by_cases hy : a ∈ ys
    · exact h2.done a hy e2 he2
    · cases hx : l1.mem a with
      | none => exact h2.fresh a hy hx e2 he2
      | some e1 =>
        obtain ⟨e2', g1, g2, g3, _⟩ := h2.links a hy e1 hx
        rw [g1] at he2
        cases he2
        obtain ⟨p1, p2⟩ := ha e1 hx
        exact ⟨g2.trans p1, g3.trans p2⟩
  refine ⟨?_, ?_, ?_, fun hl => h2.live (h1.live hl)⟩
  · intro a ha e2 he2
    rcases List.mem_append.mp ha with hx | hy
    · exact hdone1 a (h1.done a hx) e2 he2
    · exact h2.done a hy e2 he2
  · intro a ha e he
    have hx : a ∉ xs := fun h => ha (List.mem_append_left _ h)
    have hy : a ∉ ys := fun h => ha (List.mem_append_right _ h)
    obtain ⟨e1, g1, g2, g3, g4⟩ := h1.links a hx e he
    obtain ⟨e2, k1, k2, k3, k4⟩ := h2.links a hy e1 g1
    exact ⟨e2, k1, k2.trans g2, k3.trans g3, fun hk => (k4 hk).trans (g4 hk)⟩
  · intro a ha hnone e2 he2
    have hx : a ∉ xs := fun h => ha (List.mem_append_left _ h)
    exact hdone1 a (h1.fresh a hx hnone) e2 he2

theorem dispatched_congr {keep : Prop} {xs : List Nat} {l l1 l2 : Loop}
    (h : Dispatched keep xs l l1) (hm : l2.mem = l1.mem) (hb : l2.brk = l1.brk) :
    Dispatched keep xs l l2 :=
  ⟨fun a ha e1 he1 => h.done a ha e1 (hm ▸ he1),
    fun a ha e he => by rw [hm]; exact h.links a ha e he,
    fun a ha hn e1 he1 => h.fresh a ha hn e1 (hm ▸ he1),
    fun hl a e he => by rw [hb]; exact h.live hl a e (hm ▸ he)⟩

theorem Drained.frame (keep : Prop) (l : Loop) (n : Nat) (l2 : Loop) (hm : l2.mem = l.mem)
    (hb : l2.brk = l.brk) (ht : l2.trace = l.trace) : Drained keep [] l n l2 n :=
  ⟨dispatched_congr (Dispatched.nil keep l) hm hb,
    [], by rw [ht, List.append_nil], rfl, List.Sublist.refl _, fun _ _ _ => rfl⟩

theorem CbFrame.trans_frame {l l1 l2 : Loop} (h1 : CbFrame l l1) (h2 : CbFrame l1 l2) :
    CbFrame l l2 := by
  refine ⟨h2.pendings.trans h1.pendings, ?_, ?_, fun hl => h2.live (h1.live hl)⟩
  · intro a e he
    obtain ⟨e1, g1, g2, g3⟩ := h1.links a e he
    obtain ⟨e2, k1, k2, k3⟩ := h2.links a e1 g1
    exact ⟨e2, k1, k2.trans g2, k3.trans g3⟩
  · intro a hn e2 he2
    cases hm : l1.mem a with
    | none => exact h2.fresh a hm e2 he2
    | some e1 =>
      obtain ⟨p1, p2⟩ := h1.fresh a hn e1 hm
      obtain ⟨e2', k1, k2, k3⟩ := h2.links a e1 hm
      rw [k1] at he2
      cases he2
      exact ⟨k2.trans p1, k3.trans p2⟩

theorem CbFrame.of_eq {l l1 : Loop} (hm : l1.mem = l.mem) (hp : l1.pendings = l.pendings)
    (hb : l1.brk = l.brk) : CbFrame l l1 :=
  ⟨hp, fun a e he => ⟨e, by rw [hm]; exact he, rfl, rfl⟩,
    fun a hn e1 he1 => (by rw [hm, hn] at he1; cases he1),
    fun hl a e he => (by rw [hb]; exact hl a e (hm ▸ he))⟩

theorem CbFrame.set {l l1 : Loop} (h : CbFrame l l1) (l2 : Loop) (hm : l2.mem = l1.mem)
    (hp : l2.pendings = l1.pendings) (hb : l2.brk = l1.brk) : CbFrame l l2 :=
  h.trans_frame (CbFrame.of_eq hm hp hb)

theorem quiet_env_ok {env : Env} (hcb : ∀ c a l, env.cb c a l = l) :
    QueueCallbacks env ∧ KeepsCb env := by
  refine ⟨⟨fun c a l _ => ?_, fun c a l => ?_⟩, ?_⟩
  · rw [hcb]
    exact CbFrame.refl l
  · rw [hcb]
    exact ⟨[], (List.append_nil _).symm, fun _ hx => by cases hx⟩
  · intro c a l b e e1 he he1
    rw [hcb, he] at he1
    cases he1
    rfl

theorem timers_roots_nil (env : Env) (now fuel : Nat) (l : Loop) (h : l.timers = []) :
    hloop_process_timers_roots env now fuel l = [] := by
  rw [hloop_process_timers_roots]
  simp only [h]

theorem timers_roots_stop (env : Env) (now fuel : Nat) (l : Loop) (a : Nat) (rest : List Nat)
    (h : l.timers = a :: rest) (hk : now < l.key a) :
    hloop_process_timers_roots env now fuel l = [] := by
  rw [hloop_process_timers_roots]
  simp only [h, hk, gt_iff_lt, if_true]

theorem timers_roots_step (env : Env) (now fuel : Nat) (l : Loop) (a : Nat) (rest : List Nat)
    (h : l.timers = a :: rest) (hk : l.key a ≤ now) :
    hloop_process_timers_roots env now (fuel + 1) l
      = a :: hloop_process_timers_roots env now fuel (hloop_process_timers_step env l a) := by
  rw [hloop_process_timers_roots]
  simp only [h, not_lt.mpr hk, gt_iff_lt, if_false]

theorem timers_loop_zero (env : Env) (now n : Nat) (l : Loop) (a : Nat) (rest : List Nat)
    (h : l.timers = a :: rest) (hk : l.key a ≤ now) :
    hloop_process_timers_loop env now 0 l n = none := by
  rw [hloop_process_timers_loop]
  simp only [h, not_lt.mpr hk, gt_iff_lt, if_false]

/-- The ghost list is the run of the loop: the value `ntimers` that
`hloop_process_timers` returns is the number of roots it lists. -/
theorem timers_roots_length (env : Env) (now : Nat) :
    ∀ (fuel : Nat) (l : Loop) (n : Nat) (l1 : Loop) (n1 : Nat),
      hloop_process_timers_loop env now fuel l n = some (l1, n1) →
      n1 = n + (hloop_process_timers_roots env now fuel l).length := by
  intro fuel
  induction fuel with
  | zero =>
    intro l n l1 n1 hres
    cases ht : l.timers with
    | nil =>
      rw [timers_loop_nil env now 0 n l ht] at hres
      cases hres
      rw [timers_roots_nil env now 0 l ht]
      rfl
    | cons x rest =>
      by_cases hk : now < l.key x
      · rw [timers_loop_stop env now 0 n l x rest ht hk] at hres
        cases hres
        rw [timers_roots_stop env now 0 l x rest ht hk]
        rfl
      · rw [timers_loop_zero env now n l x rest ht (not_lt.mp hk)] at hres
        cases hres
  | succ fuel ih =>
    intro l n l1 n1 hres
    cases ht : l.timers with
    | nil =>
      rw [timers_loop_nil env now _ n l ht] at hres
      cases hres
      rw [timers_roots_nil env now _ l ht]
      rfl
    | cons x rest =>
      by_cases hk : now < l.key x
      · rw [timers_loop_stop env now _ n l x rest ht hk] at hres
        cases hres
        rw [timers_roots_stop env now _ l x rest ht hk]
        rfl
      · rw [timers_loop_step env now fuel n l x rest ht (not_lt.mp hk)] at hres
        rw [timers_roots_step env now fuel l x rest ht (not_lt.mp hk)]
        have := ih _ _ _ _ hres
        rw [this, List.length_cons]
        omega

end Hloop
